import Mathlib

/-!
Maglev lookup table: embedding of `maglev.c`, `node.c`, `hash.c`.

The C program keeps one global `MaglevTable g_maglev`.  Here the table is an explicit
value that every operation receives and returns.

* `uint32_t` values are natural numbers; arithmetic that can wrap is reduced with
  `% 2 ^ 32` explicitly (`u32`).
* A C string is the list of its bytes before the terminating NUL.
* `nodes[0 .. node_count)` is a list of nodes; `node_count` is its length.  The entries
  below `node_count` are never `NULL` in the program (the only writes are the append in
  `maglev_add_node` and the left shift in `maglev_remove_node`).
* Loops whose termination is not evident from their header (`while (filled < table_size)`,
  `while (!is_prime(n))`, the trial-division loop) carry a `fuel` argument that counts the
  iterations still allowed; running out of fuel yields `none`.
* `malloc`/`calloc` are assumed to succeed; `printf` output is not modelled.
-/

namespace Maglev

/-! ## Constants (`maglev.h`) -/

def UINT32_MAX : Nat := 4294967295
def MAX_NODE_NAME_LEN : Nat := 256
def MAX_NODES : Nat := 1000
def DEFAULT_TABLE_SIZE : Nat := 65537

/-- Reduction of a natural number to the range of `uint32_t`. -/
def u32 (x : Nat) : Nat := x % 4294967296

/-! ## Data model (`maglev.h`) -/

/-- The `Node` struct. -/
structure Node where
  name : List Nat
  is_active : Bool
  preference_list : List Nat
  next_index : Nat
  color_index : Int
  deriving DecidableEq, Repr

/-- The `MaglevTable` struct; `node_count` is `nodes.length`. -/
structure MaglevTable where
  nodes : List Node
  lookup_table : List Nat
  table_size : Nat
  is_initialized : Bool
  deriving DecidableEq, Repr

/-- The field `node_count`. -/
def MaglevTable.node_count (t : MaglevTable) : Nat := t.nodes.length

/-- The zero-initialised global `g_maglev = {0}`. -/
def g_maglev_zero : MaglevTable :=
  { nodes := [], lookup_table := [], table_size := 0, is_initialized := false }

/-! ## `hash.c` -/

/-- The value of `c` in `int c = *str++` converted to `uint32_t`, for a platform whose
`char` is signed: bytes `128..255` are negative and wrap to `2^32 - 256 + b`. -/
def char_u32 (b : Nat) : Nat := if b < 128 then b else u32 (b + 4294967040)

/-- `djb2_hash`: `hash = ((hash << 5) + hash) + c` from seed 5381. -/
def djb2_hash (str : List Nat) : Nat :=
  str.foldl (fun hash b => u32 (u32 (u32 (hash <<< 5) + hash) + char_u32 b)) 5381

/-- `sdbm_hash`: `hash = c + (hash << 6) + (hash << 16) - hash` from seed 0. -/
def sdbm_hash (str : List Nat) : Nat :=
  str.foldl
    (fun hash b =>
      u32 (u32 (u32 (char_u32 b + u32 (hash <<< 6)) + u32 (hash <<< 16)) + 4294967296 - hash))
    0

/-- `fnv1a_hash`: `hash ^= c; hash *= 16777619u` from seed 2166136261. -/
def fnv1a_hash (str : List Nat) : Nat :=
  str.foldl (fun hash b => u32 ((hash ^^^ char_u32 b) * 16777619)) 2166136261

/-- `hash_offset`. -/
def hash_offset (str : List Nat) (table_size : Nat) : Nat :=
  let h1 := djb2_hash str
  let h2 := fnv1a_hash str
  let combined := h1 ^^^ u32 (h2 <<< 16) ^^^ (h2 >>> 16)
  combined % table_size

/-- `hash_skip`; `table_size - 1` is a `uint32_t` subtraction. -/
def hash_skip (str : List Nat) (table_size : Nat) : Nat :=
  let h1 := sdbm_hash str
  let h2 := fnv1a_hash str
  let combined := h1 ^^^ u32 (h2 <<< 8) ^^^ (h2 >>> 24)
  let skip := u32 (combined % u32 (table_size + 4294967295) + 1)
  skip

/-! ## `node.c` -/

/-- The loop `for (i = 0; i < n; i++) a[i] = f(i)` on an array `a`. -/
def fill_array (n : Nat) (f : Nat → Nat) (a : List Nat) : List Nat :=
  (List.range n).foldl (fun acc i => acc.set i (f i)) a

/-- `node_generate_preference_list`:
`preference_list[i] = (offset + i * skip) % table_size` in `uint32_t` arithmetic. -/
def node_generate_preference_list (node : Node) (table_size : Nat) : Node :=
  let offset := hash_offset node.name table_size
  let skip := hash_skip node.name table_size
  { node with
    preference_list :=
      fill_array table_size (fun i => u32 (offset + u32 (i * skip)) % table_size)
        node.preference_list }

/-- `node_create`.  `color` stands for the value returned by `assign_unique_color_index`
(chosen with `rand()`, used for display only).  The freshly allocated preference array
has `table_size` entries, all of which are overwritten by the generation loop. -/
def node_create (name : List Nat) (table_size : Nat) (color : Int) : Option Node :=
  if name.length ≥ MAX_NODE_NAME_LEN then none
  else
    let node : Node :=
      { name := name, is_active := true, next_index := 0, color_index := color,
        preference_list := List.replicate table_size 0 }
    some (node_generate_preference_list node table_size)

/-- `node_reset_index`. -/
def node_reset_index (node : Node) : Node := { node with next_index := 0 }

/-! ## `maglev.c`: primes and initialisation -/

/-- The loop `for (uint32_t i = 3; i * i <= n; i += 2) if (n % i == 0) return false;`
followed by `return true`, started at `i`. -/
def is_prime_loop : Nat → Nat → Nat → Option Bool
  | 0, _, _ => none
  | fuel + 1, n, i =>
    if u32 (i * i) ≤ n then
      if n % i = 0 then some false
      else is_prime_loop fuel n (u32 (i + 2))
    else some true

/-- `is_prime`. -/
def is_prime (fuel : Nat) (n : Nat) : Option Bool :=
  if n < 2 then some false
  else if n = 2 then some true
  else if n % 2 = 0 then some false
  else is_prime_loop fuel n 3

/-- `next_prime`: `while (!is_prime(n)) n++; return n;`. -/
def next_prime : Nat → Nat → Option Nat
  | 0, _ => none
  | fuel + 1, n =>
    match is_prime fuel n with
    | none => none
    | some true => some n
    | some false => next_prime fuel (u32 (n + 1))

/-- `maglev_cleanup`. -/
def maglev_cleanup (t : MaglevTable) : MaglevTable :=
  if !t.is_initialized then t
  else { nodes := [], lookup_table := [], table_size := 0, is_initialized := false }

/-- `maglev_init`; the result pairs the new table with the returned `bool`.
`calloc` yields `table_size` zeroed entries which the loop then sets to `UINT32_MAX`. -/
def maglev_init (fuel : Nat) (t : MaglevTable) (table_size : Nat) :
    Option (MaglevTable × Bool) :=
  let t0 := maglev_cleanup t
  let size := if table_size < 2 then some DEFAULT_TABLE_SIZE else next_prime fuel table_size
  match size with
  | none => none
  | some table_size =>
    let lookup_table := fill_array table_size (fun _ => UINT32_MAX) (List.replicate table_size 0)
    some ({ t0 with lookup_table := lookup_table, table_size := table_size, nodes := [],
                    is_initialized := true }, true)

/-! ## `maglev.c`: membership -/

/-- The scan of `find_node_index` from position `i` over the remaining nodes. -/
def find_node_index_loop (node_name : List Nat) : Nat → List Node → Int
  | _, [] => -1
  | i, node :: rest =>
    if node.name = node_name then (i : Int)
    else find_node_index_loop node_name (i + 1) rest

/-- `find_node_index`: the first index whose name equals `node_name`, or `-1`. -/
def find_node_index (t : MaglevTable) (node_name : List Nat) : Int :=
  find_node_index_loop node_name 0 t.nodes

/-! ## `maglev.c`: the population algorithm -/

/-- The inner loop of `maglev_rebuild_table` for node `i`:
`while (node->next_index < table_size) { ... }`.  The first argument bounds the number of
iterations; it is always called with `table_size - next_index`, the exact number of
iterations left before the loop condition fails. -/
def claim_loop (table_size i : Nat) :
    Nat → Node → List Nat → Nat → Node × List Nat × Nat
  | 0, node, lookup_table, filled => (node, lookup_table, filled)
  | k + 1, node, lookup_table, filled =>
    if node.next_index < table_size then
      let preferred_slot := node.preference_list.getD node.next_index 0
      let node := { node with next_index := node.next_index + 1 }
      if lookup_table.getD preferred_slot 0 = UINT32_MAX then
        (node, lookup_table.set preferred_slot i, filled + 1)
      else claim_loop table_size i k node lookup_table filled
    else (node, lookup_table, filled)

/-- One turn of node `i` in a round. -/
def claim_slot (table_size i : Nat) (node : Node) (lookup_table : List Nat) (filled : Nat) :
    Node × List Nat × Nat :=
  claim_loop table_size i (table_size - node.next_index) node lookup_table filled

/-- The loop `for (i = 0; i < node_count; i++)` of one round, from index `i` over the
remaining nodes; inactive nodes are skipped and the loop breaks once
`filled >= table_size`. -/
def round_loop (table_size : Nat) :
    Nat → List Node → List Nat → Nat → List Node × List Nat × Nat
  | _, [], lookup_table, filled => ([], lookup_table, filled)
  | i, node :: rest, lookup_table, filled =>
    if !node.is_active then
      let r := round_loop table_size (i + 1) rest lookup_table filled
      (node :: r.1, r.2.1, r.2.2)
    else
      let c := claim_slot table_size i node lookup_table filled
      if c.2.2 ≥ table_size then (c.1 :: rest, c.2.1, c.2.2)
      else
        let r := round_loop table_size (i + 1) rest c.2.1 c.2.2
        (c.1 :: r.1, r.2.1, r.2.2)

/-- The loop `while (filled < table_size)`: one unit of fuel per round. -/
def fill_loop (table_size : Nat) :
    Nat → List Node → List Nat → Nat → Option (List Node × List Nat)
  | 0, nodes, lookup_table, filled =>
    if filled < table_size then none else some (nodes, lookup_table)
  | fuel + 1, nodes, lookup_table, filled =>
    if filled < table_size then
      let r := round_loop table_size 0 nodes lookup_table filled
      fill_loop table_size fuel r.1 r.2.1 r.2.2
    else some (nodes, lookup_table)

/-- `maglev_rebuild_table`. -/
def maglev_rebuild_table (fuel : Nat) (t : MaglevTable) : Option MaglevTable :=
  if !t.is_initialized || t.node_count == 0 then
    some { t with lookup_table := fill_array t.table_size (fun _ => UINT32_MAX) t.lookup_table }
  else
    let nodes := t.nodes.map node_reset_index
    let lookup_table := fill_array t.table_size (fun _ => UINT32_MAX) t.lookup_table
    match fill_loop t.table_size fuel nodes lookup_table 0 with
    | none => none
    | some r => some { t with nodes := r.1, lookup_table := r.2 }

/-- `maglev_add_node`; the result pairs the new table with the returned `bool`. -/
def maglev_add_node (fuel : Nat) (color : Int) (t : MaglevTable) (node_name : List Nat) :
    Option (MaglevTable × Bool) :=
  if !t.is_initialized then some (t, false)
  else if node_name.length = 0 then some (t, false)
  else if find_node_index t node_name ≥ 0 then some (t, false)
  else if t.node_count ≥ MAX_NODES then some (t, false)
  else
    match node_create node_name t.table_size color with
    | none => some (t, false)
    | some new_node =>
      match maglev_rebuild_table fuel { t with nodes := t.nodes ++ [new_node] } with
      | none => none
      | some t2 => some (t2, true)

/-- The loop `for (i = index; i < node_count - 1; i++) nodes[i] = nodes[i + 1];`,
with `k` iterations left. -/
def shift_loop : Nat → Nat → List Node → List Node
  | 0, _, nodes => nodes
  | k + 1, i, nodes =>
    match nodes.get? (i + 1) with
    | none => nodes
    | some nxt => shift_loop k (i + 1) (nodes.set i nxt)

/-- `maglev_remove_node`; the result pairs the new table with the returned `bool`.
Clearing `nodes[node_count - 1]` and decrementing `node_count` drops the last entry. -/
def maglev_remove_node (fuel : Nat) (t : MaglevTable) (node_name : List Nat) :
    Option (MaglevTable × Bool) :=
  if !t.is_initialized then some (t, false)
  else
    let index := find_node_index t node_name
    if index < 0 then some (t, true)
    else
      let idx := index.toNat
      let nodes := shift_loop (t.node_count - 1 - idx) idx t.nodes
      let nodes := nodes.take (t.node_count - 1)
      match maglev_rebuild_table fuel { t with nodes := nodes } with
      | none => none
      | some t2 => some (t2, true)

/-! ## Predicates used in the statements -/

/-- Every entry of the preference list that lies before the cursor names a slot that is
already assigned. -/
def Examined (lookup_table : List Nat) (node : Node) : Prop :=
  ∀ j, j < node.next_index →
    lookup_table.getD (node.preference_list.getD j 0) 0 ≠ UINT32_MAX

/-- Precondition of the population algorithm on a table: the slot array has `table_size`
entries, the node array holds at most `MAX_NODES` nodes and every preference list is a
permutation of `[0, table_size)`. -/
def PopulateReady (t : MaglevTable) : Prop :=
  t.lookup_table.length = t.table_size ∧ t.node_count ≤ MAX_NODES ∧
    ∀ node ∈ t.nodes, node.preference_list.Perm (List.range t.table_size)

/-! ## Sample tables -/

/-- The node that `node_create` returns for an accepted `name` on a table of size `M`. -/
def created_node (name : List Nat) (M : Nat) (color : Int) : Node :=
  node_generate_preference_list
    { name := name, is_active := true, preference_list := List.replicate M 0,
      next_index := 0, color_index := color } M

/-- The node created for `name` on a table of size `M`, with color 0. -/
def sample_node (name : List Nat) (M : Nat) : Node := created_node name M 0

/-- A table of size 5 holding the nodes `x`, `y`, `z`, before population. -/
def sample_table : MaglevTable :=
  { nodes := [sample_node [120] 5, sample_node [121] 5, sample_node [122] 5],
    lookup_table := List.replicate 5 UINT32_MAX, table_size := 5, is_initialized := true }

/-- The table obtained from `sample_table` by adding the node `w`. -/
def sample_table_w : MaglevTable :=
  match maglev_add_node 5 0 sample_table [119] with
  | some r => r.1
  | none => sample_table

/-! ## A trial-division certificate

Used only to certify that a given 32-bit number is prime: `no_odd_divisor d n a` checks
that none of the `2 ^ d` odd numbers `a, a + 2, a + 4, ...` divides `n`. -/

def no_odd_divisor : Nat → Nat → Nat → Bool
  | 0, n, a => n % a != 0
  | d + 1, n, a => no_odd_divisor d n a && no_odd_divisor d n (a + 2 ^ (d + 1))

/-! ## Reachable states -/

/-- The table states the program can be in: the zero-initialised global, and every state
obtained from a reachable one by a call of `maglev_init` (with a 32-bit size),
`maglev_add_node`, `maglev_remove_node` or `maglev_cleanup` that returns. -/
inductive Reachable : MaglevTable → Prop
  | zero : Reachable g_maglev_zero
  | init (fuel : Nat) (t : MaglevTable) (size : Nat) (t2 : MaglevTable) (b : Bool) :
      Reachable t → size < 4294967296 → maglev_init fuel t size = some (t2, b) →
      Reachable t2
  | add (fuel : Nat) (color : Int) (t : MaglevTable) (name : List Nat) (t2 : MaglevTable)
      (b : Bool) :
      Reachable t → maglev_add_node fuel color t name = some (t2, b) → Reachable t2
  | remove (fuel : Nat) (t : MaglevTable) (name : List Nat) (t2 : MaglevTable) (b : Bool) :
      Reachable t → maglev_remove_node fuel t name = some (t2, b) → Reachable t2
  | cleanup (t : MaglevTable) : Reachable t → Reachable (maglev_cleanup t)

/-- The state invariant under which `maglev_remove_node` is studied: the population
precondition, every node active, and pairwise distinct node names. -/
def TableInv (t : MaglevTable) : Prop :=
  PopulateReady t ∧ (∀ nd ∈ t.nodes, nd.is_active = true) ∧
    (t.nodes.map (fun nd => nd.name)).Nodup

/-! ## The hash formulas in the words of the specification -/

/-- Specification form of the DJB2 hash: seed 5381, `h <- h * 33 + c`, modulo `2^32`. -/
def spec_djb2 (name : List Nat) : Nat :=
  name.foldl (fun h c => (h * 33 + c) % 4294967296) 5381

/-- Specification form of the SDBM hash: seed 0, `h <- c + h * 65600 - h`, modulo `2^32`. -/
def spec_sdbm (name : List Nat) : Nat :=
  name.foldl (fun h c => (c + h * 65600 - h) % 4294967296) 0

/-- Specification form of the FNV-1a hash: seed 2166136261,
`h <- (h XOR c) * 16777619`, modulo `2^32`. -/
def spec_fnv1a (name : List Nat) : Nat :=
  name.foldl (fun h c => ((h ^^^ c) * 16777619) % 4294967296) 2166136261

/-- Specification form of `offset`: `(D XOR (F << 16) XOR (F >> 16)) mod M` on 32-bit
values. -/
def spec_offset (name : List Nat) (M : Nat) : Nat :=
  (spec_djb2 name ^^^ ((spec_fnv1a name <<< 16) % 4294967296) ^^^ (spec_fnv1a name >>> 16)) % M

/-- Specification form of `skip`: `(S XOR (F << 8) XOR (F >> 24)) mod (M - 1) + 1` on
32-bit values. -/
def spec_skip (name : List Nat) (M : Nat) : Nat :=
  (spec_sdbm name ^^^ ((spec_fnv1a name <<< 8) % 4294967296) ^^^ (spec_fnv1a name >>> 24))
    % (M - 1) + 1

/-- A node with its display color cleared. -/
def decolor (nd : Node) : Node := { nd with color_index := 0 }

/-- A node without its cursor and its display color: the data of a node on which the
outcome of `maglev_rebuild_table` depends. -/
def node_key (nd : Node) : Node := { nd with next_index := 0, color_index := 0 }

/-- A fresh table of size `M` holding, in order, one newly created node per name. -/
def fresh_table (M : Nat) (names : List (List Nat)) : MaglevTable :=
  { nodes := names.map (fun nm => created_node nm M 0),
    lookup_table := List.replicate M UINT32_MAX, table_size := M, is_initialized := true }

/-- The table reached by `init 5`. -/
def sample_init5 : MaglevTable :=
  match maglev_init 10 g_maglev_zero 5 with
  | none => g_maglev_zero
  | some r => r.1

/-- The table reached by `init 5; add x`. -/
def sample_x : MaglevTable :=
  match maglev_add_node 5 0 sample_init5 [120] with
  | none => g_maglev_zero
  | some r => r.1

/-- The table reached by `init 5; add x; add y`. -/
def sample_xy : MaglevTable :=
  match maglev_add_node 5 0 sample_x [121] with
  | none => g_maglev_zero
  | some r => r.1

/-- The table reached by `init 5; add z`. -/
def sample_z : MaglevTable :=
  match maglev_add_node 5 3 sample_init5 [122] with
  | none => g_maglev_zero
  | some r => r.1

/-- The table reached by `init 5; add z; add x`. -/
def sample_zx : MaglevTable :=
  match maglev_add_node 5 7 sample_z [120] with
  | none => g_maglev_zero
  | some r => r.1

/-- The table reached by `init 5; add z; add x; del z`. -/
def sample_zx_x : MaglevTable :=
  match maglev_remove_node 5 sample_zx [122] with
  | none => g_maglev_zero
  | some r => r.1

/-- The table reached by `init 5; add z; add x; del z; add y`, with other colors than
`sample_xy`. -/
def sample_xy_alt : MaglevTable :=
  match maglev_add_node 5 2 sample_zx_x [121] with
  | none => g_maglev_zero
  | some r => r.1

/-! ## Rounds of the outer loop -/

/-- The state `(nodes, lookup_table, filled)` of `maglev_rebuild_table` after at most `k`
iterations of `while (filled < table_size)`. -/
def round_iter (table_size : Nat) :
    Nat → List Node × List Nat × Nat → List Node × List Nat × Nat
  | 0, s => s
  | k + 1, s =>
    if s.2.2 < table_size then
      round_iter table_size k (round_loop table_size 0 s.1 s.2.1 s.2.2)
    else s

/-! ## The populate variant that retries a claimed entry

The design notes of the specification describe a second reading of the algorithm: a
node's cursor advances only past entries found taken; when an entry is claimed the cursor
stays on it and the entry is examined again in the next round.  The definitions below
follow that description; everything else is as in `maglev_rebuild_table`. -/

/-- Inner loop of the variant: no increment of the cursor when a slot is claimed. -/
def claim_loop_retry (table_size i : Nat) :
    Nat → Node → List Nat → Nat → Node × List Nat × Nat
  | 0, node, lookup_table, filled => (node, lookup_table, filled)
  | k + 1, node, lookup_table, filled =>
    if node.next_index < table_size then
      let preferred_slot := node.preference_list.getD node.next_index 0
      if lookup_table.getD preferred_slot 0 = UINT32_MAX then
        (node, lookup_table.set preferred_slot i, filled + 1)
      else
        claim_loop_retry table_size i k { node with next_index := node.next_index + 1 }
          lookup_table filled
    else (node, lookup_table, filled)

/-- One turn of node `i` in the variant. -/
def claim_slot_retry (table_size i : Nat) (node : Node) (lookup_table : List Nat)
    (filled : Nat) : Node × List Nat × Nat :=
  claim_loop_retry table_size i (table_size - node.next_index) node lookup_table filled

/-- One round of the variant over the remaining nodes. -/
def round_loop_retry (table_size : Nat) :
    Nat → List Node → List Nat → Nat → List Node × List Nat × Nat
  | _, [], lookup_table, filled => ([], lookup_table, filled)
  | i, node :: rest, lookup_table, filled =>
    if !node.is_active then
      let r := round_loop_retry table_size (i + 1) rest lookup_table filled
      (node :: r.1, r.2.1, r.2.2)
    else
      let c := claim_slot_retry table_size i node lookup_table filled
      if c.2.2 ≥ table_size then (c.1 :: rest, c.2.1, c.2.2)
      else
        let r := round_loop_retry table_size (i + 1) rest c.2.1 c.2.2
        (c.1 :: r.1, r.2.1, r.2.2)

/-- The outer loop of the variant: one unit of fuel per round. -/
def fill_loop_retry (table_size : Nat) :
    Nat → List Node → List Nat → Nat → Option (List Node × List Nat)
  | 0, nodes, lookup_table, filled =>
    if filled < table_size then none else some (nodes, lookup_table)
  | fuel + 1, nodes, lookup_table, filled =>
    if filled < table_size then
      let r := round_loop_retry table_size 0 nodes lookup_table filled
      fill_loop_retry table_size fuel r.1 r.2.1 r.2.2
    else some (nodes, lookup_table)

/-- The variant of `maglev_rebuild_table`. -/
def rebuild_table_retry (fuel : Nat) (t : MaglevTable) : Option MaglevTable :=
  if !t.is_initialized || t.node_count == 0 then
    some { t with lookup_table := fill_array t.table_size (fun _ => UINT32_MAX) t.lookup_table }
  else
    let nodes := t.nodes.map node_reset_index
    let lookup_table := fill_array t.table_size (fun _ => UINT32_MAX) t.lookup_table
    match fill_loop_retry t.table_size fuel nodes lookup_table 0 with
    | none => none
    | some r => some { t with nodes := r.1, lookup_table := r.2 }

/-- The cursor of the variant node `a` lags behind the cursor of the node `r` of the
program by entries that are all assigned. -/
def Lag (lookup_table : List Nat) (a r : Node) : Prop :=
  a.preference_list = r.preference_list ∧ a.is_active = r.is_active ∧
    a.next_index ≤ r.next_index ∧
    ∀ j, a.next_index ≤ j → j < r.next_index →
      lookup_table.getD (r.preference_list.getD j 0) 0 ≠ UINT32_MAX

/-! ## Disruption -/

/-- The number of positions at which two slot arrays differ. -/
def changed_slots (before after : List Nat) : Nat :=
  (List.zip before after).countP (fun p => p.1 != p.2)

/-- A sequence of `add` commands (color 0); a call that does not return leaves the table
as it is. -/
def run_adds (fuel : Nat) : MaglevTable → List (List Nat) → MaglevTable
  | t, [] => t
  | t, name :: rest =>
    match maglev_add_node fuel 0 t name with
    | none => t
    | some r => run_adds fuel r.1 rest

/-- The table reached by `init 7`. -/
def sample_init7 : MaglevTable :=
  match maglev_init 10 g_maglev_zero 7 with
  | none => g_maglev_zero
  | some r => r.1

/-- The table reached by `init 7; add a; add b; add c`. -/
def sample_abc : MaglevTable := run_adds 7 sample_init7 [[97], [98], [99]]

/-- The table reached by `init 7; add a; add b; add c; add h`. -/
def sample_abch : MaglevTable := run_adds 7 sample_abc [[104]]

/-- The table reached by `init 101`. -/
def sample_init101 : MaglevTable :=
  match maglev_init 20 g_maglev_zero 101 with
  | none => g_maglev_zero
  | some r => r.1

/-- The table reached by `init 101; add n1; add n2; add n3; add n4; add n5`. -/
def sample_n5 : MaglevTable :=
  run_adds 101 sample_init101 [[110, 49], [110, 50], [110, 51], [110, 52], [110, 53]]

/-- The table reached from `sample_n5` by `add n6`. -/
def sample_n6 : MaglevTable := run_adds 101 sample_n5 [[110, 54]]

/-! ## Auxiliary facts about arrays -/

theorem fill_array_head (f : Nat → Nat) :
    ∀ (n : Nat) (a : List Nat), n ≤ a.length →
      fill_array n f a = (List.range n).map f ++ a.drop n := by
  intro n
  induction n with
  | zero => intro a _; simp [fill_array]
  | succ n ih =>
    intro a h
    have hn : n < a.length := by omega
    have ih1 := ih a (by omega)
    unfold fill_array at ih1 ⊢
    rw [List.range_succ, List.foldl_append, ih1]
    simp only [List.foldl_cons, List.foldl_nil, List.map_append, List.map_cons, List.map_nil]
    rw [List.set_append]
    simp only [List.length_map, List.length_range, lt_self_iff_false, if_false, Nat.sub_self]
    rw [List.drop_eq_getElem_cons hn, List.set_cons_zero]
    simp

theorem fill_array_eq_map (f : Nat → Nat) (n : Nat) (a : List Nat) (h : a.length = n) :
    fill_array n f a = (List.range n).map f := by
  rw [fill_array_head f n a (by omega)]
  simp [← h]

theorem fill_array_const (n v : Nat) (a : List Nat) (h : a.length = n) :
    fill_array n (fun _ => v) a = List.replicate n v := by
  rw [fill_array_eq_map _ n a h]
  apply List.ext_getElem
  · simp
  · intro i h1 h2; simp

theorem getD_set (tbl : List Nat) (p v s : Nat) (hp : p < tbl.length) :
    (tbl.set p v).getD s 0 = if s = p then v else tbl.getD s 0 := by
  simp only [List.getD_eq_getElem?_getD, List.getElem?_set]
  by_cases h : s = p
  · subst h; simp [hp]
  · have h2 : ¬ p = s := fun e => h e.symm
    simp [h, h2]

theorem countP_set_unassigned :
    ∀ (tbl : List Nat) (p v : Nat), p < tbl.length → tbl.getD p 0 = UINT32_MAX →
      v ≠ UINT32_MAX →
      (tbl.set p v).countP (fun x => x ≠ UINT32_MAX)
        = tbl.countP (fun x => x ≠ UINT32_MAX) + 1 := by
  intro tbl
  induction tbl with
  | nil => intro p v hp; simp at hp
  | cons x xs ih =>
    intro p v hp hfree hv
    cases p with
    | zero =>
      simp only [List.getD_cons_zero] at hfree
      simp [List.countP_cons, hfree, hv]
    | succ p =>
      simp only [List.getD_cons_succ] at hfree
      simp only [List.length_cons, Nat.succ_lt_succ_iff] at hp
      simp only [List.set_cons_succ, List.countP_cons]
      rw [ih p v hp hfree hv]
      omega

theorem count_set_unassigned :
    ∀ (tbl : List Nat) (p v j : Nat), p < tbl.length → tbl.getD p 0 = UINT32_MAX →
      j ≠ UINT32_MAX →
      (tbl.set p v).count j = tbl.count j + (if j = v then 1 else 0) := by
  intro tbl
  induction tbl with
  | nil => intro p v j hp; simp at hp
  | cons x xs ih =>
    intro p v j hp hfree hj
    cases p with
    | zero =>
      simp only [List.getD_cons_zero] at hfree
      subst hfree
      have h1 : ¬ (UINT32_MAX = j) := fun e => hj e.symm
      by_cases hjv : j = v
      · subst hjv; simp [List.count_cons, h1]
      · have h2 : ¬ (v = j) := fun e => hjv e.symm
        simp [List.count_cons, h1, hjv, h2]
    | succ p =>
      simp only [List.getD_cons_succ] at hfree
      simp only [List.length_cons, Nat.succ_lt_succ_iff] at hp
      simp only [List.set_cons_succ, List.count_cons]
      rw [ih p v j hp hfree hj]
      omega

theorem exists_unassigned (tbl : List Nat)
    (h : tbl.countP (fun x => x ≠ UINT32_MAX) < tbl.length) :
    ∃ s, s < tbl.length ∧ tbl.getD s 0 = UINT32_MAX := by
  by_contra hne
  push_neg at hne
  have : tbl.countP (fun x => x ≠ UINT32_MAX) = tbl.length := by
    rw [List.countP_eq_length]
    intro a ha
    obtain ⟨n, hn, rfl⟩ := List.getElem_of_mem ha
    have := hne n hn
    simpa [List.getD_eq_getElem?_getD, hn] using this
  omega

theorem perm_range_length {M : Nat} {pl : List Nat} (h : pl.Perm (List.range M)) :
    pl.length = M := by
  simpa using h.length_eq

theorem perm_range_lt {M : Nat} {pl : List Nat} (h : pl.Perm (List.range M)) (j : Nat)
    (hj : j < M) : pl.getD j 0 < M := by
  have hl := perm_range_length h
  have hj2 : j < pl.length := by omega
  have : pl[j] ∈ List.range M := h.subset (List.getElem_mem hj2)
  simpa [List.getD_eq_getElem?_getD, hj2] using this

theorem perm_range_surj {M : Nat} {pl : List Nat} (h : pl.Perm (List.range M)) (s : Nat)
    (hs : s < M) : ∃ c, c < M ∧ pl.getD c 0 = s := by
  have hl := perm_range_length h
  have : s ∈ pl := h.symm.subset (by simpa using hs)
  obtain ⟨n, hn, he⟩ := List.getElem_of_mem this
  exact ⟨n, by omega, by simp [List.getD_eq_getElem?_getD, hn, he]⟩

/-! ## One turn of one node -/

/-- The inner loop stops at the first entry at or after the cursor whose slot is free,
claims it and leaves the cursor just behind it. -/
theorem claim_loop_first_free (M i : Nat) (tbl : List Nat) (filled : Nat) :
    ∀ (k : Nat) (node : Node),
      (∃ c, node.next_index ≤ c ∧ c < node.next_index + k ∧ c < M ∧
        tbl.getD (node.preference_list.getD c 0) 0 = UINT32_MAX) →
      ∃ c, node.next_index ≤ c ∧ c < M ∧
        tbl.getD (node.preference_list.getD c 0) 0 = UINT32_MAX ∧
        (∀ j, node.next_index ≤ j → j < c →
          tbl.getD (node.preference_list.getD j 0) 0 ≠ UINT32_MAX) ∧
        claim_loop M i k node tbl filled =
          ({ node with next_index := c + 1 },
            tbl.set (node.preference_list.getD c 0) i, filled + 1) := by
  intro k
  induction k with
  | zero => rintro node ⟨c, h1, h2, _⟩; omega
  | succ k ih =>
    rintro node ⟨c, h1, h2, h3, h4⟩
    have hlt : node.next_index < M := by omega
    by_cases hfree : tbl.getD (node.preference_list.getD node.next_index 0) 0 = UINT32_MAX
    · refine ⟨node.next_index, le_refl _, hlt, hfree, ?_, ?_⟩
      · intro j hj1 hj2; omega
      · simp only [claim_loop, hlt, hfree, if_true]
    · have hc : node.next_index ≠ c := by
        intro e; rw [e] at hfree; exact hfree h4
      obtain ⟨c2, g1, g2, g3, g4, g5⟩ :=
        ih { node with next_index := node.next_index + 1 }
          ⟨c, by simp only; omega, by simp only; omega, h3, h4⟩
      simp only at g1 g3 g4 g5
      refine ⟨c2, by omega, g2, g3, ?_, ?_⟩
      · intro j hj1 hj2
        by_cases hj : j = node.next_index
        · rw [hj]; exact hfree
        · exact g4 j (by omega) hj2
      · simp only [claim_loop, hlt, hfree, if_true, if_false]
        exact g5

/-- Specification of one turn: if the slot array still has a free slot and the node's
preference list is a permutation, the node claims exactly one free slot. -/
theorem claim_slot_spec (M i : Nat) (node : Node) (tbl : List Nat) (filled : Nat)
    (hlen : tbl.length = M) (hcnt : filled = tbl.countP (fun x => x ≠ UINT32_MAX))
    (hlt : filled < M) (hperm : node.preference_list.Perm (List.range M))
    (hex : Examined tbl node) (hi : i ≠ UINT32_MAX) :
    ∃ p c, p < M ∧ tbl.getD p 0 = UINT32_MAX ∧ c < M ∧ node.next_index ≤ c ∧
      node.preference_list.getD c 0 = p ∧
      (∀ j, j < c → node.preference_list.getD j 0 ≠ p) ∧
      claim_slot M i node tbl filled =
        ({ node with next_index := c + 1 }, tbl.set p i, filled + 1) ∧
      Examined (tbl.set p i) { node with next_index := c + 1 } := by
  obtain ⟨s, hs, hsfree⟩ := exists_unassigned tbl (by omega)
  obtain ⟨c0, hc0, hc0s⟩ := perm_range_surj hperm s (by omega)
  have hc0ge : node.next_index ≤ c0 := by
    by_contra hh
    exact hex c0 (by omega) (by rw [hc0s]; exact hsfree)
  obtain ⟨c, g1, g2, g3, g4, g5⟩ :=
    claim_loop_first_free M i tbl filled (M - node.next_index) node
      ⟨c0, hc0ge, by omega, hc0, by rw [hc0s]; exact hsfree⟩
  have hpM : node.preference_list.getD c 0 < M := perm_range_lt hperm c g2
  have hnot : ∀ j, j < c → node.preference_list.getD j 0 ≠ node.preference_list.getD c 0 := by
    intro j hj e
    by_cases hj2 : j < node.next_index
    · exact hex j hj2 (by rw [e]; exact g3)
    · exact g4 j (by omega) hj (by rw [e]; exact g3)
  refine ⟨node.preference_list.getD c 0, c, hpM, g3, g2, g1, rfl, hnot, g5, ?_⟩
  intro j hj
  simp only at hj ⊢
  rw [getD_set tbl _ i _ (by omega)]
  by_cases e : node.preference_list.getD j 0 = node.preference_list.getD c 0
  · rw [if_pos e]; exact hi
  · rw [if_neg e]
    by_cases hj2 : j < node.next_index
    · exact hex j hj2
    · have : j ≠ c := fun h => e (by rw [h])
      exact g4 j (by omega) (by omega)

/-! ## One round over the node list -/

theorem Examined.mono {tbl tbl2 : List Nat} {node : Node} (h : Examined tbl node)
    (hm : ∀ s, tbl.getD s 0 ≠ UINT32_MAX → tbl2.getD s 0 = tbl.getD s 0) :
    Examined tbl2 node := by
  intro j hj
  rw [hm _ (h j hj)]
  exact h j hj

theorem set_keeps_assigned (tbl : List Nat) (p v : Nat) (hp : p < tbl.length)
    (hfree : tbl.getD p 0 = UINT32_MAX) :
    ∀ s, tbl.getD s 0 ≠ UINT32_MAX → (tbl.set p v).getD s 0 = tbl.getD s 0 := by
  intro s hs
  rw [getD_set tbl p v s hp]
  have : s ≠ p := by intro e; rw [e] at hs; exact hs hfree
  rw [if_neg this]

theorem index_ne_unassigned {i : Nat} (h : i < MAX_NODES) : i ≠ UINT32_MAX := by
  unfold MAX_NODES at h
  unfold UINT32_MAX
  omega

/-- Invariants kept by one round, and the frame of a round: assigned slots are never
overwritten and every newly assigned slot holds the index of an active node. -/
theorem round_loop_inv (M : Nat) :
    ∀ (rest : List Node) (i : Nat) (tbl : List Nat) (filled : Nat),
      tbl.length = M → filled = tbl.countP (fun x => x ≠ UINT32_MAX) → filled < M →
      (∀ nd ∈ rest, nd.preference_list.Perm (List.range M)) →
      (∀ nd ∈ rest, Examined tbl nd) →
      i + rest.length ≤ MAX_NODES →
      ∃ rest2 tbl2 filled2, round_loop M i rest tbl filled = (rest2, tbl2, filled2) ∧
        rest2.map node_reset_index = rest.map node_reset_index ∧
        tbl2.length = M ∧ filled2 = tbl2.countP (fun x => x ≠ UINT32_MAX) ∧
        filled2 ≤ M ∧ filled ≤ filled2 ∧
        (∀ nd ∈ rest2, Examined tbl2 nd) ∧
        (∀ s, tbl.getD s 0 ≠ UINT32_MAX → tbl2.getD s 0 = tbl.getD s 0) ∧
        (∀ s, s < M → tbl.getD s 0 = UINT32_MAX → tbl2.getD s 0 ≠ UINT32_MAX →
          ∃ j nd, tbl2.getD s 0 = i + j ∧ rest.get? j = some nd ∧ nd.is_active = true) ∧
        ((∃ nd ∈ rest, nd.is_active = true) → filled < filled2) := by
  intro rest
  induction rest with
  | nil =>
    intro i tbl filled hlen hcnt hlt _ _ _
    refine ⟨[], tbl, filled, rfl, rfl, hlen, hcnt, by omega, le_refl _, ?_, ?_, ?_, ?_⟩
    · intro nd hnd; simp at hnd
    · intro s _; rfl
    · intro s _ h1 h2; exact absurd h1 h2
    · rintro ⟨nd, hnd, _⟩; simp at hnd
  | cons node rest ih =>
    intro i tbl filled hlen hcnt hlt hperm hex hidx
    have hperm2 : ∀ nd ∈ rest, nd.preference_list.Perm (List.range M) :=
      fun nd h => hperm nd (List.mem_cons_of_mem _ h)
    have hex2 : ∀ nd ∈ rest, Examined tbl nd :=
      fun nd h => hex nd (List.mem_cons_of_mem _ h)
    simp only [List.length_cons] at hidx
    cases hact : node.is_active with
    | false =>
      obtain ⟨rest2, tbl2, filled2, hr, g1, g2, g3, g4, g5, g6, g7, g8, g9⟩ :=
        ih (i + 1) tbl filled hlen hcnt hlt hperm2 hex2 (by omega)
      refine ⟨node :: rest2, tbl2, filled2, ?_, ?_, g2, g3, g4, g5, ?_, g7, ?_, ?_⟩
      · simp only [round_loop, hact, Bool.not_false, if_true, hr]
      · simp only [List.map_cons, g1]
      · intro nd hnd
        rcases List.mem_cons.1 hnd with e | e
        · rw [e]; exact (hex node (List.mem_cons_self _ _)).mono g7
        · exact g6 nd e
      · intro s hs h1 h2
        obtain ⟨j, nd, e1, e2, e3⟩ := g8 s hs h1 h2
        exact ⟨j + 1, nd, by rw [e1]; omega, by simpa using e2, e3⟩
      · rintro ⟨nd, hnd, hndact⟩
        rcases List.mem_cons.1 hnd with e | e
        · rw [e, hact] at hndact; exact absurd hndact (by simp)
        · exact g9 ⟨nd, e, hndact⟩
    | true =>
      have hi : i ≠ UINT32_MAX := index_ne_unassigned (by omega)
      obtain ⟨p, c, hp, hpfree, hc, hcge, hcp, hfirst, hclaim, hex1⟩ :=
        claim_slot_spec M i node tbl filled hlen hcnt hlt
          (hperm node (List.mem_cons_self _ _)) (hex node (List.mem_cons_self _ _)) hi
      have hkeep := set_keeps_assigned tbl p i (by omega) hpfree
      have hlen1 : (tbl.set p i).length = M := by simp [hlen]
      have hcnt1 : filled + 1 = (tbl.set p i).countP (fun x => x ≠ UINT32_MAX) := by
        rw [countP_set_unassigned tbl p i (by omega) hpfree hi, hcnt]
      have hnew : ∀ s, tbl.getD s 0 = UINT32_MAX → (tbl.set p i).getD s 0 ≠ UINT32_MAX →
          s = p := by
        intro s h1 h2
        by_contra hne
        rw [getD_set tbl p i s (by omega), if_neg hne] at h2
        exact h2 h1
      have hpi : (tbl.set p i).getD p 0 = i := by
        rw [getD_set tbl p i p (by omega), if_pos rfl]
      by_cases hfull : filled + 1 ≥ M
      · refine ⟨{ node with next_index := c + 1 } :: rest, tbl.set p i, filled + 1,
          ?_, ?_, hlen1, hcnt1, by omega, by omega, ?_, hkeep, ?_, ?_⟩
        · simp only [round_loop, hact, Bool.not_true, hclaim, hfull, if_true]
          simp
        · simp [node_reset_index]
        · intro nd hnd
          rcases List.mem_cons.1 hnd with e | e
          · rw [e]; exact hex1
          · exact (hex2 nd e).mono hkeep
        · intro s hs h1 h2
          have := hnew s h1 h2
          subst this
          exact ⟨0, node, by rw [hpi]; rfl, by simp, hact⟩
        · intro _; omega
      · obtain ⟨rest2, tbl2, filled2, hr, g1, g2, g3, g4, g5, g6, g7, g8, g9⟩ :=
          ih (i + 1) (tbl.set p i) (filled + 1) hlen1 hcnt1 (by omega) hperm2
            (fun nd h => (hex2 nd h).mono hkeep) (by omega)
        refine ⟨{ node with next_index := c + 1 } :: rest2, tbl2, filled2,
          ?_, ?_, g2, g3, g4, by omega, ?_, ?_, ?_, ?_⟩
        · simp only [round_loop, hact, Bool.not_true, hclaim, hfull, if_false, hr]
          simp
        · simp only [List.map_cons, g1]
          simp [node_reset_index]
        · intro nd hnd
          rcases List.mem_cons.1 hnd with e | e
          · rw [e]; exact hex1.mono g7
          · exact g6 nd e
        · intro s hs
          rw [g7 s (by rw [hkeep s hs]; exact hs), hkeep s hs]
        · intro s hs h1 h2
          by_cases hsp : s = p
          · subst hsp
            have : tbl2.getD s 0 = i := by
              rw [g7 s (by rw [hpi]; exact hi), hpi]
            exact ⟨0, node, by rw [this]; rfl, by simp, hact⟩
          · have h3 : (tbl.set p i).getD s 0 = UINT32_MAX := by
              rw [getD_set tbl p i s (by omega), if_neg hsp]; exact h1
            obtain ⟨j, nd, e1, e2, e3⟩ := g8 s hs h3 h2
            exact ⟨j + 1, nd, by rw [e1]; omega, by simpa using e2, e3⟩
        · intro _; omega

/-! ## The outer loop -/

theorem reset_eq_length {l1 l2 : List Node}
    (h : l1.map node_reset_index = l2.map node_reset_index) : l1.length = l2.length := by
  have := congrArg List.length h
  simpa using this

theorem reset_eq_get? {l1 l2 : List Node}
    (h : l1.map node_reset_index = l2.map node_reset_index) (j : Nat) (nd : Node)
    (hj : l1.get? j = some nd) :
    ∃ nd2, l2.get? j = some nd2 ∧ node_reset_index nd2 = node_reset_index nd := by
  have h1 : (l1.map node_reset_index).get? j = (l2.map node_reset_index).get? j := by rw [h]
  simp only [List.get?_eq_getElem?, List.getElem?_map] at h1 hj ⊢
  rw [hj] at h1
  cases h2 : l2[j]? with
  | none => rw [h2] at h1; simp at h1
  | some nd2 =>
    rw [h2] at h1
    simp only [Option.map_some', Option.some.injEq] at h1
    exact ⟨nd2, rfl, h1.symm⟩

theorem reset_eq_mem {l1 l2 : List Node}
    (h : l1.map node_reset_index = l2.map node_reset_index) (nd : Node) (hnd : nd ∈ l1) :
    ∃ nd2, nd2 ∈ l2 ∧ node_reset_index nd2 = node_reset_index nd := by
  have : node_reset_index nd ∈ l2.map node_reset_index := by
    rw [← h]; exact List.mem_map_of_mem _ hnd
  obtain ⟨nd2, h1, h2⟩ := List.mem_map.1 this
  exact ⟨nd2, h1, h2⟩

theorem reset_eq_active {a b : Node} (h : node_reset_index a = node_reset_index b) :
    a.is_active = b.is_active := by
  have := congrArg Node.is_active h
  simpa [node_reset_index] using this

theorem reset_eq_pref {a b : Node} (h : node_reset_index a = node_reset_index b) :
    a.preference_list = b.preference_list := by
  have := congrArg Node.preference_list h
  simpa [node_reset_index] using this

theorem reset_eq_name {a b : Node} (h : node_reset_index a = node_reset_index b) :
    a.name = b.name := by
  have := congrArg Node.name h
  simpa [node_reset_index] using this

/-- With at least one active node and permutation preference lists the outer loop ends
within `table_size - filled` rounds, and then every slot holds the index of an active
node. -/
theorem fill_loop_total (M : Nat) :
    ∀ (fuel : Nat) (nodes : List Node) (tbl : List Nat) (filled : Nat),
      tbl.length = M → filled = tbl.countP (fun x => x ≠ UINT32_MAX) → filled ≤ M →
      M - filled ≤ fuel →
      (∀ nd ∈ nodes, nd.preference_list.Perm (List.range M)) →
      (∀ nd ∈ nodes, Examined tbl nd) →
      nodes.length ≤ MAX_NODES →
      (∃ nd ∈ nodes, nd.is_active = true) →
      (∀ s, s < M → tbl.getD s 0 ≠ UINT32_MAX →
        ∃ nd, nodes.get? (tbl.getD s 0) = some nd ∧ nd.is_active = true) →
      ∃ nodes2 tbl2, fill_loop M fuel nodes tbl filled = some (nodes2, tbl2) ∧
        nodes2.map node_reset_index = nodes.map node_reset_index ∧
        tbl2.length = M ∧
        (∀ s, s < M → tbl2.getD s 0 ≠ UINT32_MAX ∧
          ∃ nd, nodes2.get? (tbl2.getD s 0) = some nd ∧ nd.is_active = true) := by
  intro fuel
  induction fuel with
  | zero =>
    intro nodes tbl filled hlen hcnt hle hfuel _ _ _ _ hval
    have hfull : ¬ filled < M := by omega
    refine ⟨nodes, tbl, by simp only [fill_loop, hfull, if_false], rfl, hlen, ?_⟩
    have hall : tbl.countP (fun x => x ≠ UINT32_MAX) = tbl.length := by omega
    rw [List.countP_eq_length] at hall
    intro s hs
    have h1 : tbl.getD s 0 ≠ UINT32_MAX := by
      have := hall tbl[s] (List.getElem_mem (by omega))
      simpa [List.getD_eq_getElem?_getD, hlen, hs] using this
    exact ⟨h1, hval s hs h1⟩
  | succ fuel ih =>
    intro nodes tbl filled hlen hcnt hle hfuel hperm hex hN hact hval
    by_cases hlt : filled < M
    · obtain ⟨nodes1, tbl1, filled1, hr, g1, g2, g3, g4, g5, g6, g7, g8, g9⟩ :=
        round_loop_inv M nodes 0 tbl filled hlen hcnt hlt hperm hex (by omega)
      have hprog := g9 hact
      obtain ⟨nodes2, tbl2, hf, k1, k2, k3⟩ :=
        ih nodes1 tbl1 filled1 g2 g3 g4 (by omega)
          (by
            intro nd hnd
            obtain ⟨nd0, h1, h2⟩ := reset_eq_mem g1 nd hnd
            rw [← reset_eq_pref h2]; exact hperm nd0 h1)
          g6 (by rw [reset_eq_length g1]; exact hN)
          (by
            obtain ⟨nd, h1, h2⟩ := hact
            obtain ⟨nd1, h3, h4⟩ := reset_eq_mem g1.symm nd h1
            exact ⟨nd1, h3, by rw [reset_eq_active h4]; exact h2⟩)
          (by
            intro s hs hne
            by_cases hold : tbl.getD s 0 = UINT32_MAX
            · obtain ⟨j, nd, e1, e2, e3⟩ := g8 s hs hold hne
              rw [Nat.zero_add] at e1
              obtain ⟨nd1, h3, h4⟩ := reset_eq_get? g1.symm j nd e2
              exact ⟨nd1, by rw [e1]; exact h3, by rw [reset_eq_active h4]; exact e3⟩
            · obtain ⟨nd, e2, e3⟩ := hval s hs hold
              rw [g7 s hold]
              obtain ⟨nd1, h3, h4⟩ := reset_eq_get? g1.symm _ nd e2
              exact ⟨nd1, h3, by rw [reset_eq_active h4]; exact e3⟩)
      refine ⟨nodes2, tbl2, ?_, by rw [k1, g1], k2, k3⟩
      simp only [fill_loop, hlt, if_true, hr]
      exact hf
    · refine ⟨nodes, tbl, by simp only [fill_loop, hlt, if_false], rfl, hlen, ?_⟩
      have hall : tbl.countP (fun x => x ≠ UINT32_MAX) = tbl.length := by omega
      rw [List.countP_eq_length] at hall
      intro s hs
      have h1 : tbl.getD s 0 ≠ UINT32_MAX := by
        have := hall tbl[s] (List.getElem_mem (by omega))
        simpa [List.getD_eq_getElem?_getD, hlen, hs] using this
      exact ⟨h1, hval s hs h1⟩

/-! ## `maglev_rebuild_table` -/

theorem reset_reset (l : List Node) :
    (l.map node_reset_index).map node_reset_index = l.map node_reset_index := by
  simp [node_reset_index]

theorem countP_replicate_unassigned (n : Nat) :
    (List.replicate n UINT32_MAX).countP (fun x => x ≠ UINT32_MAX) = 0 := by
  rw [List.countP_eq_zero]
  intro a ha
  simp [List.mem_replicate] at ha
  simp [ha.2]

theorem getD_replicate_lt (n v s : Nat) (hs : s < n) :
    (List.replicate n v).getD s 0 = v := by
  simp [List.getD_eq_getElem?_getD, hs]

/-- The general branch of `maglev_rebuild_table` as a call of `fill_loop` on the reset
nodes and the cleared slot array. -/
theorem rebuild_eq_fill (fuel : Nat) (t : MaglevTable) (hinit : t.is_initialized = true)
    (hne : t.nodes ≠ []) (hlen : t.lookup_table.length = t.table_size) :
    maglev_rebuild_table fuel t =
      (fill_loop t.table_size fuel (t.nodes.map node_reset_index)
        (List.replicate t.table_size UINT32_MAX) 0).map
        (fun r => { t with nodes := r.1, lookup_table := r.2 }) := by
  have h0 : ¬ t.nodes.length = 0 := by
    intro e; exact hne (List.length_eq_zero.1 e)
  unfold maglev_rebuild_table
  simp only [hinit, MaglevTable.node_count, Bool.not_true, Bool.false_or, beq_iff_eq, h0,
    if_false, fill_array_const _ _ _ hlen]
  cases fill_loop t.table_size fuel (t.nodes.map node_reset_index)
    (List.replicate t.table_size UINT32_MAX) 0 <;> rfl

theorem rebuild_total (fuel : Nat) (t : MaglevTable) (hinit : t.is_initialized = true)
    (hready : PopulateReady t) (hact : ∃ nd ∈ t.nodes, nd.is_active = true)
    (hfuel : t.table_size ≤ fuel) :
    ∃ t2, maglev_rebuild_table fuel t = some t2 ∧
      t2.table_size = t.table_size ∧ t2.is_initialized = true ∧
      t2.lookup_table.length = t.table_size ∧
      t2.nodes.map node_reset_index = t.nodes.map node_reset_index ∧
      (∀ s, s < t.table_size →
        t2.lookup_table.getD s 0 ≠ UINT32_MAX ∧
        ∃ nd, t2.nodes.get? (t2.lookup_table.getD s 0) = some nd ∧ nd.is_active = true) := by
  obtain ⟨hlen, hN, hperm⟩ := hready
  have hne : t.nodes ≠ [] := by
    obtain ⟨nd, h1, _⟩ := hact
    exact List.ne_nil_of_mem h1
  obtain ⟨nodes2, tbl2, hf, k1, k2, k3⟩ :=
    fill_loop_total t.table_size fuel (t.nodes.map node_reset_index)
      (List.replicate t.table_size UINT32_MAX) 0 (by simp)
      (by rw [countP_replicate_unassigned]) (Nat.zero_le _) (by omega)
      (by
        intro nd hnd
        obtain ⟨nd0, h1, h2⟩ := List.mem_map.1 hnd
        rw [← h2]; exact hperm nd0 h1)
      (by
        intro nd hnd
        obtain ⟨nd0, h1, h2⟩ := List.mem_map.1 hnd
        intro j hj
        rw [← h2] at hj
        simp [node_reset_index] at hj)
      (by simpa [MaglevTable.node_count] using hN)
      (by
        obtain ⟨nd, h1, h2⟩ := hact
        exact ⟨node_reset_index nd, List.mem_map_of_mem _ h1, h2⟩)
      (by
        intro s hs hne2
        exact absurd (getD_replicate_lt _ _ s hs) hne2)
  rw [reset_reset] at k1
  refine ⟨{ t with nodes := nodes2, lookup_table := tbl2 }, ?_, rfl, hinit, k2, k1, k3⟩
  rw [rebuild_eq_fill fuel t hinit hne hlen, hf]
  rfl

/-- C1: on an initialised table whose slot array has `table_size` entries, whose
preference lists are all permutations of `[0, table_size)` and which has at least one
active node, `maglev_rebuild_table` returns within `table_size` rounds; afterwards no slot
holds `UINT32_MAX`, every slot holds an index below `node_count` of an active node, and
with exactly one node every slot holds 0. -/
theorem rebuild_assigns_every_slot (fuel : Nat) (t : MaglevTable)
    (hinit : t.is_initialized = true) (hready : PopulateReady t)
    (hact : ∃ nd ∈ t.nodes, nd.is_active = true) (hfuel : t.table_size ≤ fuel) :
    ∃ t2, maglev_rebuild_table fuel t = some t2 ∧
      t2.table_size = t.table_size ∧ t2.node_count = t.node_count ∧
      t2.lookup_table.length = t.table_size ∧
      (∀ s, s < t.table_size →
        t2.lookup_table.getD s 0 ≠ UINT32_MAX ∧
        t2.lookup_table.getD s 0 < t2.node_count ∧
        ∃ nd, t2.nodes.get? (t2.lookup_table.getD s 0) = some nd ∧ nd.is_active = true) ∧
      (t.node_count = 1 → t2.lookup_table = List.replicate t.table_size 0) := by
  obtain ⟨t2, h1, h2, _, h4, h5, h6⟩ := rebuild_total fuel t hinit hready hact hfuel
  have hcount : t2.node_count = t.node_count := reset_eq_length h5
  have hslot : ∀ s, s < t.table_size →
      t2.lookup_table.getD s 0 ≠ UINT32_MAX ∧
      t2.lookup_table.getD s 0 < t2.node_count ∧
      ∃ nd, t2.nodes.get? (t2.lookup_table.getD s 0) = some nd ∧ nd.is_active = true := by
    intro s hs
    obtain ⟨a, nd, b, c⟩ := h6 s hs
    refine ⟨a, ?_, nd, b, c⟩
    have := List.get?_eq_some.1 b
    obtain ⟨hlt, _⟩ := this
    exact hlt
  refine ⟨t2, h1, h2, hcount, h4, hslot, ?_⟩
  intro hone
  apply List.ext_getElem
  · simp [h4]
  · intro s hs1 hs2
    have hs : s < t.table_size := by omega
    have := (hslot s hs).2.1
    rw [hcount, hone] at this
    simp only [List.getD_eq_getElem?_getD, List.getElem?_eq_getElem hs1, Option.getD_some] at this
    simp only [List.getElem_replicate]
    omega
theorem sample_table_ready : PopulateReady sample_table := by
  refine ⟨by decide, by decide, ?_⟩
  decide

theorem rebuild_assigns_every_slot_witness :
    ∃ t2, maglev_rebuild_table 5 sample_table = some t2 ∧
      t2.table_size = sample_table.table_size ∧ t2.node_count = sample_table.node_count ∧
      t2.lookup_table.length = sample_table.table_size ∧
      (∀ s, s < sample_table.table_size →
        t2.lookup_table.getD s 0 ≠ UINT32_MAX ∧
        t2.lookup_table.getD s 0 < t2.node_count ∧
        ∃ nd, t2.nodes.get? (t2.lookup_table.getD s 0) = some nd ∧ nd.is_active = true) ∧
      (sample_table.node_count = 1 →
        t2.lookup_table = List.replicate sample_table.table_size 0) :=
  rebuild_assigns_every_slot 5 sample_table rfl sample_table_ready
    ⟨sample_node [120] 5, by decide, by decide⟩ (by decide)


/-! ## Preference lists -/

theorem node_create_pref (name : List Nat) (M : Nat) (color : Int)
    (h : name.length < MAX_NODE_NAME_LEN) :
    node_create name M color =
      some { name := name, is_active := true, next_index := 0, color_index := color,
             preference_list :=
               (List.range M).map
                 (fun i => u32 (hash_offset name M + u32 (i * hash_skip name M)) % M) } := by
  have h2 : ¬ name.length ≥ MAX_NODE_NAME_LEN := by omega
  unfold node_create
  rw [if_neg h2]
  unfold node_generate_preference_list
  simp only
  rw [fill_array_eq_map _ M _ (List.length_replicate _ _)]

theorem getD_map_range (f : Nat → Nat) (M j : Nat) (h : j < M) :
    ((List.range M).map f).getD j 0 = f j := by
  simp [List.getD_eq_getElem?_getD, h]

theorem not_perm_of_repeat (pl : List Nat) (M a b : Nat) (ha : a < b) (hb : b < M)
    (h : pl.getD a 0 = pl.getD b 0) : ¬ pl.Perm (List.range M) := by
  intro hp
  have hl := perm_range_length hp
  have hnd : pl.Nodup := hp.nodup_iff.2 (List.nodup_range M)
  have ha2 : a < pl.length := by omega
  have hb2 : b < pl.length := by omega
  have e : pl[a] = pl[b] := by
    simpa [List.getD_eq_getElem?_getD, ha2, hb2] using h
  have := (List.Nodup.getElem_inj_iff hnd).1 e
  omega

/-- C2 (failing input): on a table of the default size 65537, which is prime, the node
named `n54514` gets `skip = 65536`; the product `65536 * 65536` wraps to 0 in 32-bit
arithmetic, so entries 0 and 65536 of the preference list are both 26334 and the list
is not a permutation of `[0, 65537)`. -/
theorem preference_list_wraps_at_default_size :
    Nat.Prime 65537 ∧ 65537 < 2 ^ 32 ∧
    hash_offset [110, 53, 52, 53, 49, 52] 65537 = 26334 ∧
    hash_skip [110, 53, 52, 53, 49, 52] 65537 = 65536 ∧
    ∃ nd, node_create [110, 53, 52, 53, 49, 52] 65537 0 = some nd ∧
      nd.preference_list.getD 0 0 = 26334 ∧ nd.preference_list.getD 65536 0 = 26334 ∧
      ¬ nd.preference_list.Perm (List.range 65537) := by
  have hoff : hash_offset [110, 53, 52, 53, 49, 52] 65537 = 26334 := by decide
  have hskip : hash_skip [110, 53, 52, 53, 49, 52] 65537 = 65536 := by decide
  refine ⟨by norm_num, by norm_num, hoff, hskip, _,
    node_create_pref _ 65537 0 (by decide), ?_, ?_, ?_⟩
  · simp only
    rw [getD_map_range _ _ _ (by norm_num), hoff, hskip]
    decide
  · simp only
    rw [getD_map_range _ _ _ (by norm_num), hoff, hskip]
    decide
  · apply not_perm_of_repeat _ 65537 0 65536 (by norm_num) (by norm_num)
    simp only
    rw [getD_map_range _ _ _ (by norm_num), getD_map_range _ _ _ (by norm_num), hoff, hskip]
    decide

/-! ## Slot counts when every node is active -/

/-- In a round over active nodes each node in turn claims one slot until the table is
full: `filled` grows by the number of nodes (capped at `M`) and exactly the first
`M - filled` nodes of the round gain one slot. -/
theorem round_loop_counts (M : Nat) :
    ∀ (rest : List Node) (i : Nat) (tbl : List Nat) (filled : Nat),
      tbl.length = M → filled = tbl.countP (fun x => x ≠ UINT32_MAX) → filled < M →
      (∀ nd ∈ rest, nd.preference_list.Perm (List.range M)) →
      (∀ nd ∈ rest, Examined tbl nd) →
      i + rest.length ≤ MAX_NODES →
      (∀ nd ∈ rest, nd.is_active = true) →
      ∃ rest2 tbl2 filled2, round_loop M i rest tbl filled = (rest2, tbl2, filled2) ∧
        filled2 = min M (filled + rest.length) ∧
        ∀ j, j < MAX_NODES →
          tbl2.count j = tbl.count j +
            (if i ≤ j ∧ j < i + rest.length ∧ j - i < M - filled then 1 else 0) := by
  intro rest
  induction rest with
  | nil =>
    intro i tbl filled hlen hcnt hlt _ _ _ _
    refine ⟨[], tbl, filled, rfl, ?_, ?_⟩
    · simp only [List.length_nil, Nat.add_zero]; omega
    · intro j _
      have : ¬ (i ≤ j ∧ j < i + ([] : List Node).length ∧ j - i < M - filled) := by
        simp only [List.length_nil]; omega
      rw [if_neg this]; rfl
  | cons node rest ih =>
    intro i tbl filled hlen hcnt hlt hperm hex hidx hall
    have hperm2 : ∀ nd ∈ rest, nd.preference_list.Perm (List.range M) :=
      fun nd h => hperm nd (List.mem_cons_of_mem _ h)
    have hex2 : ∀ nd ∈ rest, Examined tbl nd :=
      fun nd h => hex nd (List.mem_cons_of_mem _ h)
    have hall2 : ∀ nd ∈ rest, nd.is_active = true :=
      fun nd h => hall nd (List.mem_cons_of_mem _ h)
    have hact : node.is_active = true := hall node (List.mem_cons_self _ _)
    simp only [List.length_cons] at hidx ⊢
    have hi : i ≠ UINT32_MAX := index_ne_unassigned (by omega)
    obtain ⟨p, c, hp, hpfree, hc, hcge, hcp, hfirst, hclaim, hex1⟩ :=
      claim_slot_spec M i node tbl filled hlen hcnt hlt
        (hperm node (List.mem_cons_self _ _)) (hex node (List.mem_cons_self _ _)) hi
    have hkeep := set_keeps_assigned tbl p i (by omega) hpfree
    have hlen1 : (tbl.set p i).length = M := by simp [hlen]
    have hcnt1 : filled + 1 = (tbl.set p i).countP (fun x => x ≠ UINT32_MAX) := by
      rw [countP_set_unassigned tbl p i (by omega) hpfree hi, hcnt]
    have hcount1 : ∀ j, j < MAX_NODES →
        (tbl.set p i).count j = tbl.count j + (if j = i then 1 else 0) :=
      fun j hj => count_set_unassigned tbl p i j (by omega) hpfree (index_ne_unassigned hj)
    by_cases hfull : filled + 1 ≥ M
    · refine ⟨{ node with next_index := c + 1 } :: rest, tbl.set p i, filled + 1, ?_, ?_, ?_⟩
      · simp only [round_loop, hact, Bool.not_true, hclaim, hfull, if_true]
        simp
      · omega
      · intro j hj
        rw [hcount1 j hj]
        congr 1
        by_cases e : j = i
        · rw [if_pos e, if_pos]; omega
        · rw [if_neg e, if_neg]; omega
    · obtain ⟨rest2, tbl2, filled2, hr, g1, g2⟩ :=
        ih (i + 1) (tbl.set p i) (filled + 1) hlen1 hcnt1 (by omega) hperm2
          (fun nd h => (hex2 nd h).mono hkeep) (by omega) hall2
      refine ⟨{ node with next_index := c + 1 } :: rest2, tbl2, filled2, ?_, ?_, ?_⟩
      · simp only [round_loop, hact, Bool.not_true, hclaim, hfull, if_false, hr]
        simp
      · rw [g1]; omega
      · intro j hj
        rw [g2 j hj, hcount1 j hj]
        by_cases e : j = i
        · rw [if_pos e, if_neg (by omega), if_pos (by omega)]
        · rw [if_neg e]
          by_cases e2 : i + 1 ≤ j ∧ j < i + 1 + rest.length ∧ j - (i + 1) < M - (filled + 1)
          · rw [if_pos e2, if_pos (by omega)]
          · rw [if_neg e2, if_neg (by omega)]

theorem quota_step (M N filled j : Nat) (hN : 0 < N) (hj : j < N) (hlt : filled < M)
    (hdiv : filled % N = 0) :
    (filled / N + if j < filled % N then 1 else 0) +
        (if 0 ≤ j ∧ j < 0 + N ∧ j - 0 < M - filled then 1 else 0) =
      min M (filled + N) / N + if j < min M (filled + N) % N then 1 else 0 := by
  rw [hdiv, if_neg (Nat.not_lt_zero j)]
  by_cases hcase : filled + N ≤ M
  · rw [Nat.min_eq_right hcase, Nat.add_div_right _ hN, Nat.add_mod_right, hdiv,
      if_neg (Nat.not_lt_zero j), if_pos (by omega)]
  · have hmin : min M (filled + N) = M := Nat.min_eq_left (by omega)
    have hfd : N * (filled / N) = filled := by
      have := Nat.div_add_mod filled N
      omega
    have hM : M / N = filled / N ∧ M % N = M - filled := by
      rw [Nat.div_mod_unique hN]
      constructor
      · rw [hfd]; omega
      · omega
    rw [hmin, hM.1, hM.2]
    by_cases e : j < M - filled
    · rw [if_pos (by omega), if_pos e]
    · rw [if_neg (by omega), if_neg e]

/-- With every node active, node `j` ends with `M / N` slots, plus one if `j < M % N`. -/
theorem fill_loop_counts (M N : Nat) (hN : 0 < N) (hNmax : N ≤ MAX_NODES) :
    ∀ (fuel : Nat) (nodes : List Node) (tbl : List Nat) (filled : Nat),
      nodes.length = N →
      tbl.length = M → filled = tbl.countP (fun x => x ≠ UINT32_MAX) → filled ≤ M →
      (∀ nd ∈ nodes, nd.preference_list.Perm (List.range M)) →
      (∀ nd ∈ nodes, Examined tbl nd) →
      (∀ nd ∈ nodes, nd.is_active = true) →
      (filled < M → filled % N = 0) →
      (∀ j, j < N → tbl.count j = filled / N + if j < filled % N then 1 else 0) →
      ∀ r, fill_loop M fuel nodes tbl filled = some r →
        ∀ j, j < N → r.2.count j = M / N + if j < M % N then 1 else 0 := by
  intro fuel
  induction fuel with
  | zero =>
    intro nodes tbl filled _ _ _ hle _ _ _ _ hq r hr j hj
    by_cases hlt : filled < M
    · simp [fill_loop, hlt] at hr
    · simp only [fill_loop, hlt, if_false, Option.some.injEq] at hr
      have : filled = M := by omega
      rw [← hr, ← this]
      exact hq j hj
  | succ fuel ih =>
    intro nodes tbl filled hlenN hlen hcnt hle hperm hex hall hdiv hq r hr j hj
    by_cases hlt : filled < M
    · obtain ⟨nodes1, tbl1, filled1, e1, g1, g2, g3, g4, g5, g6, g7, g8, g9⟩ :=
        round_loop_inv M nodes 0 tbl filled hlen hcnt hlt hperm hex (by omega)
      obtain ⟨nodes1b, tbl1b, filled1b, e2, k1, k2⟩ :=
        round_loop_counts M nodes 0 tbl filled hlen hcnt hlt hperm hex (by omega) hall
      rw [e1] at e2
      simp only [Prod.mk.injEq] at e2
      obtain ⟨_, hb, hc⟩ := e2
      subst hb hc
      rw [hlenN] at k1 k2
      simp only [fill_loop, hlt, if_true, e1] at hr
      refine ih nodes1 tbl1 filled1 (by rw [reset_eq_length g1]; exact hlenN) g2 g3 g4
        ?_ g6 ?_ ?_ ?_ r hr j hj
      · intro nd hnd
        obtain ⟨nd0, h1, h2⟩ := reset_eq_mem g1 nd hnd
        rw [← reset_eq_pref h2]; exact hperm nd0 h1
      · intro nd hnd
        obtain ⟨nd0, h1, h2⟩ := reset_eq_mem g1 nd hnd
        rw [← reset_eq_active h2]; exact hall nd0 h1
      · intro hlt1
        rw [k1] at hlt1 ⊢
        have : min M (filled + N) = filled + N := by omega
        rw [this, Nat.add_mod_right]
        exact hdiv hlt
      · intro j2 hj2
        rw [k2 j2 (by omega), hq j2 hj2, k1]
        exact quota_step M N filled j2 hN hj2 hlt (hdiv hlt)
    · simp only [fill_loop, hlt, if_false, Option.some.injEq] at hr
      have : filled = M := by omega
      rw [← hr, ← this]
      exact hq j hj

theorem count_replicate_unassigned (n j : Nat) (hj : j < MAX_NODES) :
    (List.replicate n UINT32_MAX).count j = 0 := by
  rw [List.count_eq_zero]
  intro h
  have := (List.mem_replicate.1 h).2
  exact index_ne_unassigned hj this

/-- Slot counts after `maglev_rebuild_table` when every node is active. -/
theorem rebuild_counts (fuel : Nat) (t : MaglevTable) (hinit : t.is_initialized = true)
    (hready : PopulateReady t) (hall : ∀ nd ∈ t.nodes, nd.is_active = true)
    (hN : 1 ≤ t.node_count) (hfuel : t.table_size ≤ fuel) :
    ∃ t2, maglev_rebuild_table fuel t = some t2 ∧
      t2.lookup_table.length = t.table_size ∧
      ∀ j, j < t.node_count →
        t2.lookup_table.count j =
          t.table_size / t.node_count + if j < t.table_size % t.node_count then 1 else 0 := by
  have hne : t.nodes ≠ [] := by
    intro e
    simp [MaglevTable.node_count, e] at hN
  obtain ⟨nd0, hnd0⟩ := List.exists_mem_of_ne_nil _ hne
  obtain ⟨t2, h1, _, _, h4, _, _⟩ :=
    rebuild_total fuel t hinit hready ⟨nd0, hnd0, hall nd0 hnd0⟩ hfuel
  obtain ⟨hlen, hNmax, hperm⟩ := hready
  refine ⟨t2, h1, h4, ?_⟩
  rw [rebuild_eq_fill fuel t hinit hne hlen] at h1
  cases hf : fill_loop t.table_size fuel (t.nodes.map node_reset_index)
      (List.replicate t.table_size UINT32_MAX) 0 with
  | none => rw [hf] at h1; simp at h1
  | some r =>
    rw [hf] at h1
    simp only [Option.map_some', Option.some.injEq] at h1
    have hr2 : t2.lookup_table = r.2 := by rw [← h1]
    rw [hr2]
    refine fill_loop_counts t.table_size t.node_count hN hNmax fuel
      (t.nodes.map node_reset_index) (List.replicate t.table_size UINT32_MAX) 0
      (by simp [MaglevTable.node_count]) (by simp) (by rw [countP_replicate_unassigned])
      (Nat.zero_le _) ?_ ?_ ?_ (fun _ => Nat.zero_mod _) ?_ r hf
    · intro nd hnd
      obtain ⟨nd1, h1, h2⟩ := List.mem_map.1 hnd
      rw [← h2]; exact hperm nd1 h1
    · intro nd hnd
      obtain ⟨nd1, h1, h2⟩ := List.mem_map.1 hnd
      intro j hj
      rw [← h2] at hj
      simp [node_reset_index] at hj
    · intro nd hnd
      obtain ⟨nd1, h1, h2⟩ := List.mem_map.1 hnd
      rw [← h2]; exact hall nd1 h1
    · intro j hj
      rw [count_replicate_unassigned _ j (by omega)]
      simp

theorem sum_quota (q r : Nat) :
    ∀ N, r ≤ N →
      ((List.range N).map (fun j => q + if j < r then 1 else 0)).sum = N * q + r := by
  intro N
  induction N with
  | zero => intro h; simp; omega
  | succ N ih =>
    intro h
    rw [List.range_succ, List.map_append, List.sum_append]
    simp only [List.map_cons, List.map_nil, List.sum_cons, List.sum_nil, Nat.add_zero]
    by_cases hr : r ≤ N
    · rw [ih hr, if_neg (by omega)]
      ring
    · have hrN : r = N + 1 := by omega
      have hmap : (List.range N).map (fun j => q + if j < r then 1 else 0)
          = (List.range N).map (fun j => q + if j < N then 1 else 0) := by
        apply List.map_congr_left
        intro j hj
        have hj2 : j < N := List.mem_range.1 hj
        rw [if_pos (by omega), if_pos hj2]
      have ih2 : ((List.range N).map (fun j => q + if j < N then 1 else 0)).sum = N * q + N := by
        have hmap2 : (List.range N).map (fun j => q + if j < N then 1 else 0)
            = (List.range N).map (fun _ => q + 1) := by
          apply List.map_congr_left
          intro j hj
          rw [if_pos (List.mem_range.1 hj)]
        rw [hmap2]
        simp
        ring
      rw [hmap, ih2, if_pos (by omega), hrN]
      ring

/-- C3: on an initialised table with `N` nodes, all active, `1 <= N <= M`, whose
preference lists are permutations of `[0, M)`, `maglev_rebuild_table` returns and then
the per-node slot counts sum to `M`, every node owns at least one slot, and any two
per-node counts differ by at most 1. -/
theorem rebuild_balanced (fuel : Nat) (t : MaglevTable) (hinit : t.is_initialized = true)
    (hready : PopulateReady t) (hall : ∀ nd ∈ t.nodes, nd.is_active = true)
    (hN : 1 ≤ t.node_count) (hNM : t.node_count ≤ t.table_size)
    (hfuel : t.table_size ≤ fuel) :
    ∃ t2, maglev_rebuild_table fuel t = some t2 ∧
      ((List.range t.node_count).map (fun j => t2.lookup_table.count j)).sum
        = t.table_size ∧
      (∀ j, j < t.node_count → 1 ≤ t2.lookup_table.count j) ∧
      (∀ i j, i < t.node_count → j < t.node_count →
        t2.lookup_table.count i ≤ t2.lookup_table.count j + 1) := by
  obtain ⟨t2, h1, _, h3⟩ := rebuild_counts fuel t hinit hready hall hN hfuel
  refine ⟨t2, h1, ?_, ?_, ?_⟩
  · have hmap : (List.range t.node_count).map (fun j => t2.lookup_table.count j)
        = (List.range t.node_count).map
            (fun j => t.table_size / t.node_count +
              if j < t.table_size % t.node_count then 1 else 0) := by
      apply List.map_congr_left
      intro j hj
      exact h3 j (List.mem_range.1 hj)
    rw [hmap, sum_quota _ _ _ (le_of_lt (Nat.mod_lt _ hN))]
    exact Nat.div_add_mod _ _
  · intro j hj
    rw [h3 j hj]
    have : 1 ≤ t.table_size / t.node_count := (Nat.one_le_div_iff hN).2 hNM
    omega
  · intro i j hi hj
    rw [h3 i hi, h3 j hj]
    split_ifs <;> omega

theorem rebuild_balanced_witness :
    ∃ t2, maglev_rebuild_table 5 sample_table = some t2 ∧
      ((List.range sample_table.node_count).map (fun j => t2.lookup_table.count j)).sum
        = sample_table.table_size ∧
      (∀ j, j < sample_table.node_count → 1 ≤ t2.lookup_table.count j) ∧
      (∀ i j, i < sample_table.node_count → j < sample_table.node_count →
        t2.lookup_table.count i ≤ t2.lookup_table.count j + 1) :=
  rebuild_balanced 5 sample_table rfl sample_table_ready (by decide) (by decide)
    (by decide) (by decide)

/-! ## Primes -/

theorem no_odd_divisor_sound :
    ∀ (d n a : Nat), no_odd_divisor d n a = true → ∀ j, j < 2 ^ d → n % (a + 2 * j) ≠ 0 := by
  intro d
  induction d with
  | zero =>
    intro n a h j hj
    have hj0 : j = 0 := by simpa using hj
    subst hj0
    simpa [no_odd_divisor] using h
  | succ d ih =>
    intro n a h j hj
    simp only [no_odd_divisor, Bool.and_eq_true] at h
    have hpow : 2 ^ (d + 1) = 2 * 2 ^ d := by ring
    by_cases hlt : j < 2 ^ d
    · exact ih n a h.1 j hlt
    · have := ih n (a + 2 ^ (d + 1)) h.2 (j - 2 ^ d) (by omega)
      have e : a + 2 ^ (d + 1) + 2 * (j - 2 ^ d) = a + 2 * j := by omega
      rwa [e] at this

theorem prime_of_no_odd_divisor (n : Nat) (h3 : 3 ≤ n) (hodd : n % 2 = 1)
    (hn : n < 4294967296) (h : no_odd_divisor 15 n 3 = true) : Nat.Prime n := by
  rw [Nat.prime_def_le_sqrt]
  refine ⟨by omega, ?_⟩
  intro m hm2 hms hdvd
  have hmm : m * m ≤ n := Nat.le_sqrt.1 hms
  have hm : m < 65536 := by
    by_contra hge
    have : 65536 * 65536 ≤ m * m := Nat.mul_le_mul (by omega) (by omega)
    omega
  by_cases hmodd : m % 2 = 1
  · have := no_odd_divisor_sound 15 n 3 h ((m - 3) / 2) (by norm_num; omega)
    have e : 3 + 2 * ((m - 3) / 2) = m := by omega
    rw [e] at this
    exact this (Nat.mod_eq_zero_of_dvd hdvd)
  · have h2 : 2 ∣ m := Nat.dvd_of_mod_eq_zero (by omega)
    have := Nat.mod_eq_zero_of_dvd (Nat.dvd_trans h2 hdvd)
    omega

theorem prime_4294967291 : Nat.Prime 4294967291 :=
  prime_of_no_odd_divisor 4294967291 (by norm_num) (by norm_num) (by norm_num) (by decide!)

theorem prime_65537 : Nat.Prime 65537 := by norm_num

theorem u32_le (x : Nat) : u32 x ≤ x := Nat.mod_le _ _

theorem u32_of_lt {x : Nat} (h : x < 4294967296) : u32 x = x := Nat.mod_eq_of_lt h

/-- More fuel does not change a result of the trial-division loop. -/
theorem is_prime_loop_mono :
    ∀ (f : Nat) (n i : Nat) (b : Bool), is_prime_loop f n i = some b →
      ∀ k, is_prime_loop (f + k) n i = some b := by
  intro f
  induction f with
  | zero => intro n i b h; simp [is_prime_loop] at h
  | succ f ih =>
    intro n i b h k
    have e : f + 1 + k = (f + k) + 1 := by omega
    rw [e]
    simp only [is_prime_loop] at h ⊢
    by_cases h1 : u32 (i * i) ≤ n
    · by_cases h2 : n % i = 0
      · simpa [h1, h2] using h
      · simp only [h1, h2, if_true, if_false] at h ⊢
        exact ih n _ b h k
    · simpa [h1] using h

theorem is_prime_mono (f n : Nat) (b : Bool) (h : is_prime f n = some b) (k : Nat) :
    is_prime (f + k) n = some b := by
  unfold is_prime at h ⊢
  split_ifs at h ⊢ with h1 h2 h3
  · exact h
  · exact h
  · exact h
  · exact is_prime_loop_mono f n 3 b h k

/-- The trial-division loop ends: started at an odd `i <= n` on an odd `n`, it returns
within `(n - i) / 2 + 1` iterations. -/
theorem is_prime_loop_total :
    ∀ (f n i : Nat), i % 2 = 1 → n % 2 = 1 → i ≤ n → n < 4294967296 → n - i < 2 * f →
      ∃ b, is_prime_loop f n i = some b := by
  intro f
  induction f with
  | zero => intro n i _ _ _ _ h; omega
  | succ f ih =>
    intro n i hi hn hle hlt hf
    simp only [is_prime_loop]
    by_cases h1 : u32 (i * i) ≤ n
    · by_cases h2 : n % i = 0
      · exact ⟨false, by simp [h1, h2]⟩
      · have hne : i ≠ n := by
          intro e; rw [e] at h2; exact h2 (Nat.mod_self n)
        have hu : u32 (i + 2) = i + 2 := u32_of_lt (by omega)
        simp only [h1, h2, if_true, if_false, hu]
        exact ih n (i + 2) (by omega) hn (by omega) hlt (by omega)
    · exact ⟨true, by simp [h1]⟩

theorem is_prime_total (f n : Nat) (hn : n < 4294967296) (hf : 2147483648 ≤ f) :
    ∃ b, is_prime f n = some b := by
  unfold is_prime
  split_ifs with h1 h2 h3
  · exact ⟨false, rfl⟩
  · exact ⟨true, rfl⟩
  · exact ⟨false, rfl⟩
  · exact is_prime_loop_total f n 3 (by norm_num) (by omega) (by omega) hn (by omega)

/-- The loop never answers `true` for a composite number: it leaves through the failed
test `i * i <= n` only when no number in `[2, i)` divides `n` and `i * i > n`. -/
theorem is_prime_loop_sound :
    ∀ (f n i : Nat), is_prime_loop f n i = some true →
      i % 2 = 1 → n % 2 = 1 → 3 ≤ i → i ≤ n → n < 4294967296 →
      (∀ d, 2 ≤ d → d < i → ¬ d ∣ n) → Nat.Prime n := by
  intro f
  induction f with
  | zero => intro n i h; simp [is_prime_loop] at h
  | succ f ih =>
    intro n i h hi hn h3 hle hlt hdiv
    simp only [is_prime_loop] at h
    by_cases h1 : u32 (i * i) ≤ n
    · by_cases h2 : n % i = 0
      · simp [h1, h2] at h
      · have hne : i ≠ n := by
          intro e; rw [e] at h2; exact h2 (Nat.mod_self n)
        have hu : u32 (i + 2) = i + 2 := u32_of_lt (by omega)
        simp only [h1, h2, if_true, if_false, hu] at h
        refine ih n (i + 2) h (by omega) hn (by omega) (by omega) hlt ?_
        intro d hd2 hdlt hdvd
        by_cases e1 : d < i
        · exact hdiv d hd2 e1 hdvd
        · by_cases e2 : d = i
          · rw [e2] at hdvd; exact h2 (Nat.mod_eq_zero_of_dvd hdvd)
          · have e3 : d = i + 1 := by omega
            have h2d : 2 ∣ d := Nat.dvd_of_mod_eq_zero (by omega)
            have := Nat.mod_eq_zero_of_dvd (Nat.dvd_trans h2d hdvd)
            omega
    · rw [Nat.prime_def_le_sqrt]
      refine ⟨by omega, ?_⟩
      intro m hm2 hms hdvd
      have hmm : m * m ≤ n := Nat.le_sqrt.1 hms
      have hii : n < i * i := lt_of_lt_of_le (by omega) (u32_le (i * i))
      have hmi : m < i := by
        by_contra hge
        have : i * i ≤ m * m := Nat.mul_le_mul (by omega) (by omega)
        omega
      exact hdiv m hm2 hmi hdvd

theorem is_prime_sound (f n : Nat) (hn : n < 4294967296) (h : is_prime f n = some true) :
    Nat.Prime n := by
  unfold is_prime at h
  split_ifs at h with h1 h2 h3
  · simp at h
  · rw [h2]; exact Nat.prime_two
  · simp at h
  · refine is_prime_loop_sound f n 3 h (by norm_num) (by omega) (le_refl _) (by omega) hn ?_
    intro d hd2 hdlt hdvd
    have e : d = 2 := by omega
    rw [e] at hdvd
    have := Nat.mod_eq_zero_of_dvd hdvd
    omega

/-! ## `next_prime` -/

theorem next_prime_succ_false (f n : Nat) (h : is_prime f n = some false) :
    next_prime (f + 1) n = next_prime f (u32 (n + 1)) := by
  simp only [next_prime, h]

theorem next_prime_succ_true (f n : Nat) (h : is_prime f n = some true) :
    next_prime (f + 1) n = some n := by
  simp only [next_prime, h]

theorem next_prime_mono :
    ∀ (f n r : Nat), next_prime f n = some r → ∀ k, next_prime (f + k) n = some r := by
  intro f
  induction f with
  | zero => intro n r h; simp [next_prime] at h
  | succ f ih =>
    intro n r h k
    have e : f + 1 + k = (f + k) + 1 := by omega
    rw [e]
    cases hp : is_prime f n with
    | none => simp [next_prime, hp] at h
    | some b =>
      have hp2 := is_prime_mono f n b hp k
      cases b with
      | true =>
        rw [next_prime_succ_true f n hp] at h
        rw [next_prime_succ_true (f + k) n hp2]
        exact h
      | false =>
        rw [next_prime_succ_false f n hp] at h
        rw [next_prime_succ_false (f + k) n hp2]
        exact ih _ r h k

/-- Whatever `next_prime` returns is a 32-bit prime. -/
theorem next_prime_sound :
    ∀ (f n r : Nat), n < 4294967296 → next_prime f n = some r →
      r < 4294967296 ∧ Nat.Prime r := by
  intro f
  induction f with
  | zero => intro n r _ h; simp [next_prime] at h
  | succ f ih =>
    intro n r hn h
    cases hp : is_prime f n with
    | none => simp [next_prime, hp] at h
    | some b =>
      cases b with
      | true =>
        rw [next_prime_succ_true f n hp] at h
        have e : n = r := by simpa using h
        rw [← e]
        exact ⟨hn, is_prime_sound f n hn hp⟩
      | false =>
        rw [next_prime_succ_false f n hp] at h
        exact ih _ r (Nat.mod_lt _ (by norm_num)) h

/-- The search of `next_prime` ends: going up from `n` it meets a number accepted by
`is_prime`, at the latest the number 2 after wrapping around `2^32`. -/
theorem next_prime_total_aux :
    ∀ (m n f : Nat), n < 4294967296 →
      ((n ≤ 2 ∧ 2 - n ≤ m) ∨ (2 < n ∧ 4294967296 - n + 2 ≤ m)) →
      2147483648 + m < f → ∃ r, next_prime f n = some r := by
  intro m
  induction m with
  | zero =>
    intro n f hn hm hf
    have h2 : n = 2 := by omega
    obtain ⟨f1, rfl⟩ : ∃ f1, f = f1 + 1 := ⟨f - 1, by omega⟩
    exact ⟨2, by rw [h2]; exact next_prime_succ_true f1 2 (by simp [is_prime])⟩
  | succ m ih =>
    intro n f hn hm hf
    obtain ⟨f1, rfl⟩ : ∃ f1, f = f1 + 1 := ⟨f - 1, by omega⟩
    obtain ⟨b, hb⟩ := is_prime_total f1 n hn (by omega)
    cases b with
    | true => exact ⟨n, next_prime_succ_true f1 n hb⟩
    | false =>
      have hn2 : n ≠ 2 := by
        intro e; rw [e] at hb; simp [is_prime] at hb
      rw [next_prime_succ_false f1 n hb]
      by_cases hw : n + 1 < 4294967296
      · rw [u32_of_lt hw]
        exact ih (n + 1) f1 hw (by omega) (by omega)
      · have e : n + 1 = 4294967296 := by omega
        have e0 : u32 (n + 1) = 0 := by rw [e]; rfl
        rw [e0]
        exact ih 0 f1 (by norm_num) (by omega) (by omega)

theorem next_prime_total (f n : Nat) (hn : n < 4294967296) (hf : 6442450947 ≤ f) :
    ∃ r, next_prime f n = some r :=
  next_prime_total_aux 4294967298 n f hn (by omega) (by omega)

/-! ### The wrap-around of `i * i` -/

theorem odd_square_wrapped (i : Nat) (hi : i % 2 = 1) : u32 (i * i) ≤ 4294967289 := by
  have h8 : (i * i) % 8 = 1 := by
    rw [Nat.mul_mod]
    have : i % 8 = 1 ∨ i % 8 = 3 ∨ i % 8 = 5 ∨ i % 8 = 7 := by omega
    rcases this with e | e | e | e <;> rw [e]
  have hlt : u32 (i * i) < 4294967296 := Nat.mod_lt _ (by norm_num)
  have hmod : u32 (i * i) % 8 = 1 := by
    unfold u32
    rw [Nat.mod_mod_of_dvd _ (by norm_num : 8 ∣ 4294967296)]
    exact h8
  omega

/-- For an odd `n >= 2^32 - 7` the test `i * i <= n` never fails, so the loop runs until
`i` divides `n` (at the latest `i = n`) and answers `false`. -/
theorem is_prime_loop_wrapped :
    ∀ (f n i : Nat), i % 2 = 1 → n % 2 = 1 → i ≤ n → 4294967289 ≤ n → n < 4294967296 →
      n - i < 2 * f → is_prime_loop f n i = some false := by
  intro f
  induction f with
  | zero => intro n i _ _ _ _ _ h; omega
  | succ f ih =>
    intro n i hi hn hle hbig hlt hf
    have h1 : u32 (i * i) ≤ n := le_trans (odd_square_wrapped i hi) hbig
    simp only [is_prime_loop, h1, if_true]
    by_cases h2 : n % i = 0
    · simp [h2]
    · have hne : i ≠ n := by
        intro e; rw [e] at h2; exact h2 (Nat.mod_self n)
      have hu : u32 (i + 2) = i + 2 := u32_of_lt (by omega)
      simp only [h2, if_false, hu]
      exact ih n (i + 2) (by omega) hn (by omega) hbig hlt (by omega)

theorem is_prime_wrapped (f n : Nat) (hn : n % 2 = 1) (hbig : 4294967289 ≤ n)
    (hlt : n < 4294967296) (hf : 2147483648 ≤ f) : is_prime f n = some false := by
  unfold is_prime
  rw [if_neg (by omega), if_neg (by omega), if_neg (by omega)]
  exact is_prime_loop_wrapped f n 3 (by norm_num) hn (by omega) hbig hlt (by omega)

theorem is_prime_even (f n : Nat) (hn : n % 2 = 0) (h2 : 2 < n) :
    is_prime f n = some false := by
  unfold is_prime
  rw [if_neg (by omega), if_neg (by omega), if_pos hn]

/-- C5 (failing input): 4294967291 is a prime below `2^32`, yet `is_prime` rejects it
(the 32-bit product `i * i` never exceeds it, so the loop runs on to `i = n`), and
`next_prime(4294967291)` wraps around and returns 2. -/
theorem next_prime_skips_largest_prime :
    Nat.Prime 4294967291 ∧ 4294967291 < 2 ^ 32 ∧
    (∀ fuel, 2147483648 ≤ fuel → is_prime fuel 4294967291 = some false) ∧
    (∀ fuel, 2147483656 ≤ fuel → next_prime fuel 4294967291 = some 2) ∧
    (∀ fuel r, next_prime fuel 4294967291 = some r → r = 2) := by
  have hrun : ∀ fuel, 2147483656 ≤ fuel → next_prime fuel 4294967291 = some 2 := by
    intro fuel hf
    obtain ⟨g, rfl⟩ : ∃ g, fuel = g + 8 := ⟨fuel - 8, by omega⟩
    rw [next_prime_succ_false (g + 7) 4294967291
      (is_prime_wrapped _ _ (by norm_num) (by norm_num) (by norm_num) (by omega))]
    rw [show u32 (4294967291 + 1) = 4294967292 from rfl]
    rw [next_prime_succ_false (g + 6) 4294967292 (is_prime_even _ _ (by norm_num) (by norm_num))]
    rw [show u32 (4294967292 + 1) = 4294967293 from rfl]
    rw [next_prime_succ_false (g + 5) 4294967293
      (is_prime_wrapped _ _ (by norm_num) (by norm_num) (by norm_num) (by omega))]
    rw [show u32 (4294967293 + 1) = 4294967294 from rfl]
    rw [next_prime_succ_false (g + 4) 4294967294 (is_prime_even _ _ (by norm_num) (by norm_num))]
    rw [show u32 (4294967294 + 1) = 4294967295 from rfl]
    rw [next_prime_succ_false (g + 3) 4294967295
      (is_prime_wrapped _ _ (by norm_num) (by norm_num) (by norm_num) (by omega))]
    rw [show u32 (4294967295 + 1) = 0 from rfl]
    rw [next_prime_succ_false (g + 2) 0 (by simp [is_prime])]
    rw [show u32 (0 + 1) = 1 from rfl]
    rw [next_prime_succ_false (g + 1) 1 (by simp [is_prime])]
    rw [show u32 (1 + 1) = 2 from rfl]
    exact next_prime_succ_true g 2 (by simp [is_prime])
  refine ⟨prime_4294967291, by norm_num, ?_, hrun, ?_⟩
  · intro fuel hf
    exact is_prime_wrapped _ _ (by norm_num) (by norm_num) (by norm_num) hf
  · intro fuel r h
    have h1 := next_prime_mono fuel _ r h 2147483656
    rw [hrun _ (by omega)] at h1
    simpa using h1.symm



/-! ## Frame of `maglev_rebuild_table` (no precondition) -/

theorem fill_array_length (n : Nat) (f : Nat → Nat) (a : List Nat) :
    (fill_array n f a).length = a.length := by
  unfold fill_array
  induction n with
  | zero => simp
  | succ n ih => rw [List.range_succ, List.foldl_append]; simp [ih]

theorem claim_loop_frame (M i : Nat) :
    ∀ (k : Nat) (node : Node) (tbl : List Nat) (filled : Nat),
      node_reset_index (claim_loop M i k node tbl filled).1 = node_reset_index node ∧
      (claim_loop M i k node tbl filled).2.1.length = tbl.length := by
  intro k
  induction k with
  | zero => intro node tbl filled; exact ⟨rfl, rfl⟩
  | succ k ih =>
    intro node tbl filled
    simp only [claim_loop]
    split_ifs with h1 h2
    · exact ⟨rfl, by simp⟩
    · have := ih { node with next_index := node.next_index + 1 } tbl filled
      exact ⟨this.1, this.2⟩
    · exact ⟨rfl, rfl⟩

theorem round_loop_frame (M : Nat) :
    ∀ (rest : List Node) (i : Nat) (tbl : List Nat) (filled : Nat),
      (round_loop M i rest tbl filled).1.map node_reset_index = rest.map node_reset_index ∧
      (round_loop M i rest tbl filled).2.1.length = tbl.length := by
  intro rest
  induction rest with
  | nil => intro i tbl filled; exact ⟨rfl, rfl⟩
  | cons node rest ih =>
    intro i tbl filled
    have hc := claim_loop_frame M i (M - node.next_index) node tbl filled
    simp only [round_loop, claim_slot]
    split_ifs with h1 h2
    · have := ih (i + 1) tbl filled
      exact ⟨by simp only [List.map_cons, this.1], this.2⟩
    · exact ⟨by simp only [List.map_cons, hc.1], hc.2⟩
    · have := ih (i + 1) (claim_loop M i (M - node.next_index) node tbl filled).2.1
        (claim_loop M i (M - node.next_index) node tbl filled).2.2
      exact ⟨by simp only [List.map_cons, this.1, hc.1], by rw [this.2, hc.2]⟩

theorem fill_loop_frame (M : Nat) :
    ∀ (fuel : Nat) (nodes : List Node) (tbl : List Nat) (filled : Nat)
      (r : List Node × List Nat), fill_loop M fuel nodes tbl filled = some r →
      r.1.map node_reset_index = nodes.map node_reset_index ∧ r.2.length = tbl.length := by
  intro fuel
  induction fuel with
  | zero =>
    intro nodes tbl filled r h
    simp only [fill_loop] at h
    split_ifs at h
    simp only [Option.some.injEq] at h
    rw [← h]; exact ⟨rfl, rfl⟩
  | succ fuel ih =>
    intro nodes tbl filled r h
    simp only [fill_loop] at h
    split_ifs at h
    · have := ih _ _ _ r h
      have hr := round_loop_frame M nodes 0 tbl filled
      exact ⟨by rw [this.1, hr.1], by rw [this.2, hr.2]⟩
    · simp only [Option.some.injEq] at h
      rw [← h]; exact ⟨rfl, rfl⟩

/-- `maglev_rebuild_table` changes only the slot array and the cursors. -/
theorem rebuild_frame (fuel : Nat) (t t2 : MaglevTable)
    (h : maglev_rebuild_table fuel t = some t2) :
    t2.table_size = t.table_size ∧ t2.is_initialized = t.is_initialized ∧
      t2.nodes.map node_reset_index = t.nodes.map node_reset_index ∧
      t2.lookup_table.length = t.lookup_table.length := by
  unfold maglev_rebuild_table at h
  split_ifs at h with hc
  · simp only [Option.some.injEq] at h
    rw [← h]
    exact ⟨rfl, rfl, rfl, fill_array_length _ _ _⟩
  · cases hf : fill_loop t.table_size fuel (t.nodes.map node_reset_index)
        (fill_array t.table_size (fun _ => UINT32_MAX) t.lookup_table) 0 with
    | none => simp [hf] at h
    | some r =>
      simp only [hf, Option.some.injEq] at h
      have := fill_loop_frame _ _ _ _ _ r hf
      rw [← h]
      exact ⟨rfl, rfl, by rw [this.1, reset_reset], by rw [this.2, fill_array_length]⟩

/-! ## `find_node_index` -/

theorem mem_of_get?_some {l : List Node} {k : Nat} {nd : Node} (h : l.get? k = some nd) :
    nd ∈ l := by
  obtain ⟨hk, e⟩ := List.get?_eq_some.1 h
  rw [← e]
  exact List.get_mem _ _ _

theorem find_loop_spec (nm : List Nat) :
    ∀ (l : List Node) (i : Nat),
      (find_node_index_loop nm i l = -1 ∧ ∀ nd ∈ l, nd.name ≠ nm) ∨
      ∃ k nd, find_node_index_loop nm i l = ((i + k : Nat) : Int) ∧ l.get? k = some nd ∧
        nd.name = nm ∧ ∀ j nd2, j < k → l.get? j = some nd2 → nd2.name ≠ nm := by
  intro l
  induction l with
  | nil => intro i; left; exact ⟨rfl, by simp⟩
  | cons node rest ih =>
    intro i
    by_cases h : node.name = nm
    · right
      refine ⟨0, node, by simp [find_node_index_loop, h], rfl, h, ?_⟩
      intro j nd2 hj; omega
    · rcases ih (i + 1) with ⟨h1, h2⟩ | ⟨k, nd, h1, h2, h3, h4⟩
      · left
        refine ⟨by simp only [find_node_index_loop, h, if_false, h1], ?_⟩
        intro nd hnd
        rcases List.mem_cons.1 hnd with e | e
        · rw [e]; exact h
        · exact h2 nd e
      · right
        refine ⟨k + 1, nd, ?_, by simpa using h2, h3, ?_⟩
        · simp only [find_node_index_loop, h, if_false, h1]
          congr 1; omega
        · intro j nd2 hj hget
          cases j with
          | zero => simp at hget; rw [← hget]; exact h
          | succ j => exact h4 j nd2 (by omega) (by simpa using hget)

theorem find_absent_iff (t : MaglevTable) (nm : List Nat) :
    ¬ (find_node_index t nm ≥ 0) ↔ ∀ nd ∈ t.nodes, nd.name ≠ nm := by
  unfold find_node_index
  rcases find_loop_spec nm t.nodes 0 with ⟨h1, h2⟩ | ⟨k, nd, h1, h2, h3, _⟩
  · rw [h1]
    exact ⟨fun _ => h2, fun _ => by decide⟩
  · rw [h1]
    constructor
    · intro h; exact absurd (Int.natCast_nonneg _) h
    · intro h
      exact absurd h3 (h nd (mem_of_get?_some h2))

theorem find_loop_reset (nm : List Nat) :
    ∀ (l : List Node) (i : Nat),
      find_node_index_loop nm i (l.map node_reset_index) = find_node_index_loop nm i l := by
  intro l
  induction l with
  | nil => intro i; rfl
  | cons node rest ih =>
    intro i
    simp only [List.map_cons, find_node_index_loop, ih]
    rfl

theorem find_loop_congr (nm : List Nat) (l1 l2 : List Node) (i : Nat)
    (h : l1.map node_reset_index = l2.map node_reset_index) :
    find_node_index_loop nm i l1 = find_node_index_loop nm i l2 := by
  rw [← find_loop_reset nm l1, ← find_loop_reset nm l2, h]

theorem find_loop_append (nm : List Nat) (new_node : Node) (hn : new_node.name = nm) :
    ∀ (l : List Node) (i : Nat), (∀ nd ∈ l, nd.name ≠ nm) →
      find_node_index_loop nm i (l ++ [new_node]) = ((i + l.length : Nat) : Int) := by
  intro l
  induction l with
  | nil => intro i _; simp [find_node_index_loop, hn]
  | cons node rest ih =>
    intro i h
    have h1 : node.name ≠ nm := h node (List.mem_cons_self _ _)
    rw [List.cons_append, find_node_index_loop, if_neg h1,
      ih (i + 1) (fun nd hnd => h nd (List.mem_cons_of_mem _ hnd)), List.length_cons]
    congr 1; omega

/-! ## `maglev_init` -/

theorem maglev_init_eq (fuel : Nat) (t : MaglevTable) (size : Nat) :
    maglev_init fuel t size =
      (if size < 2 then some DEFAULT_TABLE_SIZE else next_prime fuel size).map
        (fun M => ({ nodes := [], lookup_table := List.replicate M UINT32_MAX,
                     table_size := M, is_initialized := true }, true)) := by
  unfold maglev_init
  cases (if size < 2 then some DEFAULT_TABLE_SIZE else next_prime fuel size) with
  | none => rfl
  | some M =>
    simp only [Option.map_some']
    rw [fill_array_const M UINT32_MAX _ (List.length_replicate _ _)]

/-- C4 (counterexample): a requested size of 1 yields `table_size = 65537`, whereas
`next_prime(max(1, 2))` is 2. -/
theorem maglev_init_one_is_default :
    (maglev_init 10 g_maglev_zero 1).map (fun r => r.1.table_size) = some 65537 ∧
    next_prime 10 (max 1 2) = some 2 := by
  constructor
  · rw [maglev_init_eq]; rfl
  · decide

/-- C4 (amended): a requested size below 2 yields `table_size = DEFAULT_TABLE_SIZE`
(65537); a requested size `>= 2` yields `table_size = next_prime(requested)`, and for a
32-bit size `next_prime` does return. -/
theorem maglev_init_table_size (fuel : Nat) (t : MaglevTable) (requested M : Nat) :
    (requested < 2 →
      ∃ t2, maglev_init fuel t requested = some (t2, true) ∧
        t2.table_size = DEFAULT_TABLE_SIZE) ∧
    (2 ≤ requested → next_prime fuel requested = some M →
      ∃ t2, maglev_init fuel t requested = some (t2, true) ∧ t2.table_size = M) ∧
    (2 ≤ requested → requested < 4294967296 → 6442450947 ≤ fuel →
      ∃ M2 t2, next_prime fuel requested = some M2 ∧
        maglev_init fuel t requested = some (t2, true) ∧ t2.table_size = M2) := by
  refine ⟨?_, ?_, ?_⟩
  · intro h
    exact ⟨_, by rw [maglev_init_eq, if_pos h]; rfl, rfl⟩
  · intro h hM
    exact ⟨_, by rw [maglev_init_eq, if_neg (by omega), hM]; rfl, rfl⟩
  · intro h hlt hf
    obtain ⟨M2, hM2⟩ := next_prime_total fuel requested hlt hf
    exact ⟨M2, _, hM2, by rw [maglev_init_eq, if_neg (by omega), hM2]; rfl, rfl⟩

theorem maglev_init_table_size_witness :
    (∃ t2, maglev_init 10 g_maglev_zero 1 = some (t2, true) ∧
      t2.table_size = DEFAULT_TABLE_SIZE) ∧
    (∃ t2, maglev_init 10 g_maglev_zero 7 = some (t2, true) ∧ t2.table_size = 7) :=
  ⟨(maglev_init_table_size 10 g_maglev_zero 1 0).1 (by decide),
   (maglev_init_table_size 10 g_maglev_zero 7 7).2.1 (by decide) (by decide)⟩

/-! ## `maglev_add_node` and `maglev_remove_node`: frame -/

theorem node_create_eq (name : List Nat) (M : Nat) (color : Int) :
    node_create name M color =
      if name.length ≥ MAX_NODE_NAME_LEN then none else some (created_node name M color) :=
  rfl

theorem created_node_eq (name : List Nat) (M : Nat) (color : Int) :
    created_node name M color =
      { name := name, is_active := true, next_index := 0, color_index := color,
        preference_list :=
          (List.range M).map
            (fun i => u32 (hash_offset name M + u32 (i * hash_skip name M)) % M) } := by
  unfold created_node node_generate_preference_list
  simp only
  rw [fill_array_eq_map _ M _ (List.length_replicate _ _)]

theorem add_node_fail (fuel : Nat) (color : Int) (t : MaglevTable) (name : List Nat)
    (h : ¬ (t.is_initialized = true ∧ name ≠ [] ∧ name.length ≤ 255 ∧
          (∀ nd ∈ t.nodes, nd.name ≠ name) ∧ t.node_count < MAX_NODES)) :
    maglev_add_node fuel color t name = some (t, false) := by
  unfold maglev_add_node
  by_cases h1 : t.is_initialized = true
  · by_cases h2 : name.length = 0
    · simp [h1, h2]
    · by_cases h3 : find_node_index t name ≥ 0
      · simp [h1, h2, h3]
      · by_cases h4 : t.node_count ≥ MAX_NODES
        · simp [h1, h2, h3, h4]
        · have h5 : name.length ≥ MAX_NODE_NAME_LEN := by
            by_contra hc
            apply h
            refine ⟨h1, ?_, ?_, (find_absent_iff t name).1 h3, by omega⟩
            · intro e; rw [e] at h2; exact h2 rfl
            · unfold MAX_NODE_NAME_LEN at hc; omega
          simp only [h1, h2, h3, h4, node_create_eq, h5, Bool.not_true, if_true, if_false]
          simp
  · simp [h1]

theorem add_node_ok (fuel : Nat) (color : Int) (t : MaglevTable) (name : List Nat)
    (h : t.is_initialized = true ∧ name ≠ [] ∧ name.length ≤ 255 ∧
          (∀ nd ∈ t.nodes, nd.name ≠ name) ∧ t.node_count < MAX_NODES) :
    maglev_add_node fuel color t name =
      (maglev_rebuild_table fuel
        { t with nodes := t.nodes ++ [created_node name t.table_size color] }).map
        (fun t2 => (t2, true)) := by
  obtain ⟨h1, h2, h3, h4, h5⟩ := h
  have k2 : ¬ name.length = 0 := fun e => h2 (List.length_eq_zero.1 e)
  have k3 : ¬ find_node_index t name ≥ 0 := (find_absent_iff t name).2 h4
  have k4 : ¬ t.node_count ≥ MAX_NODES := by omega
  have k5 : ¬ name.length ≥ MAX_NODE_NAME_LEN := by unfold MAX_NODE_NAME_LEN; omega
  have k1 : (!t.is_initialized) = false := by rw [h1]; rfl
  unfold maglev_add_node
  rw [k1]
  simp only [k2, k3, k4, node_create_eq, k5, if_false, Bool.false_eq_true]
  cases maglev_rebuild_table fuel
    { t with nodes := t.nodes ++ [created_node name t.table_size color] } <;> rfl

/-! ## The left shift of `maglev_remove_node` -/

theorem shift_loop_get :
    ∀ (k i : Nat) (l : List Node), i + k < l.length →
      (shift_loop k i l).length = l.length ∧
      ∀ j, (shift_loop k i l)[j]? = if i ≤ j ∧ j < i + k then l[j + 1]? else l[j]? := by
  intro k
  induction k with
  | zero =>
    intro i l _
    refine ⟨rfl, ?_⟩
    intro j
    rw [if_neg (by omega)]
    rfl
  | succ k ih =>
    intro i l h
    have hnext : l.get? (i + 1) = some (l[i + 1]) := by
      rw [List.get?_eq_getElem?, List.getElem?_eq_getElem]
    simp only [shift_loop, hnext]
    obtain ⟨g1, g2⟩ := ih (i + 1) (l.set i l[i + 1]) (by simp; omega)
    refine ⟨by rw [g1]; simp, ?_⟩
    intro j
    rw [g2 j]
    by_cases c1 : i + 1 ≤ j ∧ j < i + 1 + k
    · rw [if_pos c1, if_pos (by omega), List.getElem?_set_ne (by omega)]
    · rw [if_neg c1]
      by_cases c2 : j = i
      · subst c2
        rw [if_pos (by omega), List.getElem?_set_self (by omega),
          List.getElem?_eq_getElem (by omega)]
      · rw [if_neg (by omega), List.getElem?_set_ne (by omega)]

/-- The shift loop followed by dropping the last entry erases entry `idx`. -/
theorem shift_loop_eraseIdx (l : List Node) (idx : Nat) (h : idx < l.length) :
    (shift_loop (l.length - 1 - idx) idx l).take (l.length - 1) = l.eraseIdx idx := by
  obtain ⟨g1, g2⟩ := shift_loop_get (l.length - 1 - idx) idx l (by omega)
  apply List.ext_getElem?
  intro j
  rw [List.getElem?_take, List.getElem?_eraseIdx, g2 j]
  by_cases c1 : j < l.length - 1
  · rw [if_pos c1]
    by_cases c2 : j < idx
    · rw [if_neg (by omega), if_pos c2]
    · rw [if_pos (by omega), if_neg c2]
  · rw [if_neg c1, if_neg (by omega), List.getElem?_eq_none (by omega)]

theorem remove_node_absent (fuel : Nat) (t : MaglevTable) (name : List Nat)
    (hinit : t.is_initialized = true) (h : ∀ nd ∈ t.nodes, nd.name ≠ name) :
    maglev_remove_node fuel t name = some (t, true) := by
  have k1 : (!t.is_initialized) = false := by rw [hinit]; rfl
  have k3 : find_node_index t name < 0 := by
    have := (find_absent_iff t name).2 h
    omega
  unfold maglev_remove_node
  rw [k1]
  simp only [k3, if_true, if_false, Bool.false_eq_true]

theorem remove_node_found (fuel : Nat) (t : MaglevTable) (name : List Nat)
    (hinit : t.is_initialized = true) (k : Nat) (nd : Node)
    (hfind : find_node_index t name = (k : Int)) (hk : t.nodes.get? k = some nd) :
    maglev_remove_node fuel t name =
      (maglev_rebuild_table fuel { t with nodes := t.nodes.eraseIdx k }).map
        (fun t2 => (t2, true)) := by
  have k1 : (!t.is_initialized) = false := by rw [hinit]; rfl
  have k3 : ¬ ((k : Int) < 0) := by omega
  have hklt : k < t.nodes.length := (List.get?_eq_some.1 hk).1
  unfold maglev_remove_node
  rw [k1]
  simp only [hfind, k3, if_false, Bool.false_eq_true, Int.toNat_ofNat, MaglevTable.node_count]
  rw [shift_loop_eraseIdx t.nodes k hklt]
  cases maglev_rebuild_table fuel { t with nodes := t.nodes.eraseIdx k } <;> rfl

theorem remove_node_uninit (fuel : Nat) (t : MaglevTable) (name : List Nat)
    (hinit : t.is_initialized = false) :
    maglev_remove_node fuel t name = some (t, false) := by
  unfold maglev_remove_node
  rw [hinit]
  rfl

/-- Case analysis of `maglev_remove_node` on an initialised table. -/
theorem remove_node_cases (fuel : Nat) (t : MaglevTable) (name : List Nat)
    (hinit : t.is_initialized = true) :
    ((∀ nd ∈ t.nodes, nd.name ≠ name) ∧ maglev_remove_node fuel t name = some (t, true)) ∨
    ∃ k nd, t.nodes.get? k = some nd ∧ nd.name = name ∧
      (∀ j nd2, j < k → t.nodes.get? j = some nd2 → nd2.name ≠ name) ∧
      find_node_index t name = (k : Int) ∧
      maglev_remove_node fuel t name =
        (maglev_rebuild_table fuel { t with nodes := t.nodes.eraseIdx k }).map
          (fun t2 => (t2, true)) := by
  rcases find_loop_spec name t.nodes 0 with ⟨_, h2⟩ | ⟨k, nd, h1, h2, h3, h4⟩
  · left
    exact ⟨h2, remove_node_absent fuel t name hinit h2⟩
  · right
    rw [Nat.zero_add] at h1
    exact ⟨k, nd, h2, h3, h4, h1, remove_node_found fuel t name hinit k nd h1 h2⟩

theorem add_node_frame (fuel : Nat) (color : Int) (t : MaglevTable) (name : List Nat)
    (t2 : MaglevTable) (b : Bool) (h : maglev_add_node fuel color t name = some (t2, b)) :
    t2.table_size = t.table_size ∧ t2.is_initialized = t.is_initialized := by
  by_cases hc : t.is_initialized = true ∧ name ≠ [] ∧ name.length ≤ 255 ∧
      (∀ nd ∈ t.nodes, nd.name ≠ name) ∧ t.node_count < MAX_NODES
  · rw [add_node_ok fuel color t name hc] at h
    cases hr : maglev_rebuild_table fuel
        { t with nodes := t.nodes ++ [created_node name t.table_size color] } with
    | none => rw [hr] at h; simp at h
    | some t3 =>
      rw [hr] at h
      simp only [Option.map_some', Option.some.injEq, Prod.mk.injEq] at h
      have := rebuild_frame fuel _ t3 hr
      rw [← h.1]
      exact ⟨this.1, this.2.1⟩
  · rw [add_node_fail fuel color t name hc] at h
    simp only [Option.some.injEq, Prod.mk.injEq] at h
    rw [← h.1]
    exact ⟨rfl, rfl⟩

theorem remove_node_frame (fuel : Nat) (t : MaglevTable) (name : List Nat)
    (t2 : MaglevTable) (b : Bool) (h : maglev_remove_node fuel t name = some (t2, b)) :
    t2.table_size = t.table_size ∧ t2.is_initialized = t.is_initialized := by
  cases hinit : t.is_initialized with
  | false =>
    rw [remove_node_uninit fuel t name hinit] at h
    simp only [Option.some.injEq, Prod.mk.injEq] at h
    rw [← h.1]
    exact ⟨rfl, hinit⟩
  | true =>
    rcases remove_node_cases fuel t name hinit with ⟨_, h2⟩ | ⟨k, nd, _, _, _, _, h2⟩
    · rw [h2] at h
      simp only [Option.some.injEq, Prod.mk.injEq] at h
      rw [← h.1]
      exact ⟨rfl, hinit⟩
    · rw [h2] at h
      cases hr : maglev_rebuild_table fuel { t with nodes := t.nodes.eraseIdx k } with
      | none => rw [hr] at h; simp at h
      | some t3 =>
        rw [hr] at h
        simp only [Option.map_some', Option.some.injEq, Prod.mk.injEq] at h
        have := rebuild_frame fuel _ t3 hr
        rw [← h.1]
        exact ⟨this.1, by rw [this.2.1]; exact hinit⟩

/-- C6: `maglev_init` with a 32-bit requested size returns success, and then `table_size`
is a prime `>= 2`; `maglev_add_node` and `maglev_remove_node` never change `table_size`;
hence in every reachable initialised state `table_size` is a prime `>= 2`. -/
theorem table_size_prime :
    (∀ fuel t requested, requested < 4294967296 → 6442450947 ≤ fuel →
      ∃ t2, maglev_init fuel t requested = some (t2, true)) ∧
    (∀ fuel t requested t2 b, requested < 4294967296 →
      maglev_init fuel t requested = some (t2, b) →
      t2.is_initialized = true ∧ Nat.Prime t2.table_size ∧ 2 ≤ t2.table_size) ∧
    (∀ fuel color t name t2 b, maglev_add_node fuel color t name = some (t2, b) →
      t2.table_size = t.table_size) ∧
    (∀ fuel t name t2 b, maglev_remove_node fuel t name = some (t2, b) →
      t2.table_size = t.table_size) ∧
    (∀ t, Reachable t → t.is_initialized = true →
      Nat.Prime t.table_size ∧ 2 ≤ t.table_size) := by
  have hinit : ∀ fuel t requested t2 b, requested < 4294967296 →
      maglev_init fuel t requested = some (t2, b) →
      t2.is_initialized = true ∧ Nat.Prime t2.table_size ∧ 2 ≤ t2.table_size := by
    intro fuel t requested t2 b hlt h
    rw [maglev_init_eq] at h
    by_cases h2 : requested < 2
    · rw [if_pos h2] at h
      simp only [Option.map_some', Option.some.injEq, Prod.mk.injEq] at h
      rw [← h.1]
      exact ⟨rfl, prime_65537, by decide⟩
    · rw [if_neg h2] at h
      cases hn : next_prime fuel requested with
      | none => rw [hn] at h; simp at h
      | some M =>
        rw [hn] at h
        simp only [Option.map_some', Option.some.injEq, Prod.mk.injEq] at h
        have hp := (next_prime_sound fuel requested M hlt hn).2
        rw [← h.1]
        exact ⟨rfl, hp, hp.two_le⟩
  refine ⟨?_, hinit, ?_, ?_, ?_⟩
  · intro fuel t requested hlt hf
    rw [maglev_init_eq]
    by_cases h2 : requested < 2
    · rw [if_pos h2]; exact ⟨_, rfl⟩
    · rw [if_neg h2]
      obtain ⟨M, hM⟩ := next_prime_total fuel requested hlt hf
      rw [hM]; exact ⟨_, rfl⟩
  · intro fuel color t name t2 b h
    exact (add_node_frame fuel color t name t2 b h).1
  · intro fuel t name t2 b h
    exact (remove_node_frame fuel t name t2 b h).1
  · intro t hr
    induction hr with
    | zero => intro h; simp [g_maglev_zero] at h
    | init fuel t size t2 b _ hlt h _ =>
      intro _
      exact (hinit fuel t size t2 b hlt h).2
    | add fuel color t name t2 b _ h ih =>
      intro hi
      have := add_node_frame fuel color t name t2 b h
      rw [this.1]
      exact ih (by rw [← this.2]; exact hi)
    | remove fuel t name t2 b _ h ih =>
      intro hi
      have := remove_node_frame fuel t name t2 b h
      rw [this.1]
      exact ih (by rw [← this.2]; exact hi)
    | cleanup t _ ih =>
      intro hi
      unfold maglev_cleanup at hi
      split_ifs at hi with hc
      · simp only [Bool.not_eq_true'] at hc
        rw [hc] at hi
        simp at hi

theorem table_size_prime_witness :
    ∃ t2, maglev_init 10 g_maglev_zero 8 = some (t2, true) ∧
      Nat.Prime t2.table_size ∧ 2 ≤ t2.table_size :=
  ⟨{ nodes := [], lookup_table := List.replicate 11 UINT32_MAX, table_size := 11,
     is_initialized := true }, by decide,
   (table_size_prime.2.1 10 g_maglev_zero 8
      { nodes := [], lookup_table := List.replicate 11 UINT32_MAX, table_size := 11,
        is_initialized := true } true (by decide) (by decide)).2⟩

/-! ## `maglev_add_node` -/

theorem rebuild_returns (fuel : Nat) (t : MaglevTable) (hready : PopulateReady t)
    (hall : ∀ nd ∈ t.nodes, nd.is_active = true) (hfuel : t.table_size ≤ fuel) :
    ∃ t2, maglev_rebuild_table fuel t = some t2 := by
  by_cases hc : (!t.is_initialized || t.node_count == 0) = true
  · unfold maglev_rebuild_table
    rw [if_pos hc]
    exact ⟨_, rfl⟩
  · simp only [Bool.or_eq_true, Bool.not_eq_true', beq_iff_eq, not_or, Bool.not_eq_false,
      MaglevTable.node_count] at hc
    obtain ⟨h1, h2⟩ := hc
    have hne : t.nodes ≠ [] := fun e => h2 (by rw [e]; rfl)
    obtain ⟨nd, hnd⟩ := List.exists_mem_of_ne_nil _ hne
    obtain ⟨t2, h, _⟩ := rebuild_total fuel t h1 hready ⟨nd, hnd, hall nd hnd⟩ hfuel
    exact ⟨t2, h⟩

/-- C7: when the population precondition holds (for the table and for the node that would
be created), `maglev_add_node` returns, and it returns success exactly when the table is
initialised, the name is non-empty and at most 255 bytes long, no node of the list bears
the name, and `node_count < MAX_NODES`. -/
theorem add_node_success_iff (fuel : Nat) (color : Int) (t : MaglevTable) (name : List Nat)
    (hready : PopulateReady t)
    (hnew : (created_node name t.table_size color).preference_list.Perm
      (List.range t.table_size))
    (hfuel : t.table_size ≤ fuel) :
    ∃ t2 b, maglev_add_node fuel color t name = some (t2, b) ∧
      (b = true ↔
        (t.is_initialized = true ∧ name ≠ [] ∧ name.length ≤ 255 ∧
          (∀ nd ∈ t.nodes, nd.name ≠ name) ∧ t.node_count < MAX_NODES)) := by
  by_cases hc : t.is_initialized = true ∧ name ≠ [] ∧ name.length ≤ 255 ∧
      (∀ nd ∈ t.nodes, nd.name ≠ name) ∧ t.node_count < MAX_NODES
  · obtain ⟨hlen, hN, hperm⟩ := hready
    have hact : (created_node name t.table_size color).is_active = true := rfl
    obtain ⟨t2, h, _⟩ := rebuild_total fuel
      { t with nodes := t.nodes ++ [created_node name t.table_size color] } hc.1
      ⟨hlen, by
          have := hc.2.2.2.2
          simp only [MaglevTable.node_count, List.length_append, List.length_singleton] at this ⊢
          omega,
        by
          intro nd hnd
          rcases List.mem_append.1 hnd with e | e
          · exact hperm nd e
          · rw [List.mem_singleton.1 e]; exact hnew⟩
      ⟨created_node name t.table_size color, by simp, hact⟩ hfuel
    refine ⟨t2, true, ?_, ?_⟩
    · rw [add_node_ok fuel color t name hc, h]; rfl
    · exact ⟨fun _ => hc, fun _ => rfl⟩
  · refine ⟨t, false, add_node_fail fuel color t name hc, ?_⟩
    exact ⟨fun h => by simp at h, fun h => absurd h hc⟩

theorem add_node_success_iff_witness :
    ∃ t2 b, maglev_add_node 5 0 sample_table [119] = some (t2, b) ∧
      (b = true ↔
        (sample_table.is_initialized = true ∧ [119] ≠ [] ∧ [119].length ≤ 255 ∧
          (∀ nd ∈ sample_table.nodes, nd.name ≠ [119]) ∧
          sample_table.node_count < MAX_NODES)) :=
  add_node_success_iff 5 0 sample_table [119] sample_table_ready (by decide) (by decide)

/-- C8: in each failure case (table not initialised, empty or over-long name, a node with
the name already present, node count at the maximum) `maglev_add_node` returns failure,
and whenever it returns failure the whole table (table size, node list, node count and
every slot) is unchanged. -/
theorem add_node_failure_unchanged (fuel : Nat) (color : Int) (t : MaglevTable)
    (name : List Nat) :
    ((t.is_initialized = false ∨ name = [] ∨ 255 < name.length ∨
        (∃ nd ∈ t.nodes, nd.name = name) ∨ MAX_NODES ≤ t.node_count) →
      maglev_add_node fuel color t name = some (t, false)) ∧
    (∀ t2, maglev_add_node fuel color t name = some (t2, false) → t2 = t) := by
  constructor
  · intro h
    apply add_node_fail
    rintro ⟨h1, h2, h3, h4, h5⟩
    rcases h with e | e | e | ⟨nd, e1, e2⟩ | e
    · rw [h1] at e; simp at e
    · exact h2 e
    · omega
    · exact h4 nd e1 e2
    · omega
  · intro t2 h
    by_cases hc : t.is_initialized = true ∧ name ≠ [] ∧ name.length ≤ 255 ∧
        (∀ nd ∈ t.nodes, nd.name ≠ name) ∧ t.node_count < MAX_NODES
    · rw [add_node_ok fuel color t name hc] at h
      cases hr : maglev_rebuild_table fuel
          { t with nodes := t.nodes ++ [created_node name t.table_size color] } with
      | none => rw [hr] at h; simp at h
      | some t3 => rw [hr] at h; simp at h
    · rw [add_node_fail fuel color t name hc] at h
      simp only [Option.some.injEq, Prod.mk.injEq, and_true] at h
      exact h.symm

theorem add_node_failure_unchanged_witness :
    maglev_add_node 5 0 sample_table [120] = some (sample_table, false) :=
  (add_node_failure_unchanged 5 0 sample_table [120]).1
    (Or.inr (Or.inr (Or.inr (Or.inl ⟨sample_node [120] 5, by decide, by decide⟩))))

/-- C9: when `maglev_add_node` succeeds on a table with `n` nodes, the new node list is
the old list followed by the created node (equal up to the cursors, which the rebuild
resets and advances), earlier nodes keep their positions, `node_count` is `n + 1`,
`find_node_index(name)` is `n`, and the node at position `n` bears the name and is
active. -/
theorem add_node_appends (fuel : Nat) (color : Int) (t : MaglevTable) (name : List Nat)
    (t2 : MaglevTable) (h : maglev_add_node fuel color t name = some (t2, true)) :
    node_create name t.table_size color = some (created_node name t.table_size color) ∧
    t2.nodes.map node_reset_index =
      (t.nodes ++ [created_node name t.table_size color]).map node_reset_index ∧
    (∀ j nd, t.nodes.get? j = some nd →
      ∃ nd2, t2.nodes.get? j = some nd2 ∧ node_reset_index nd2 = node_reset_index nd) ∧
    t2.node_count = t.node_count + 1 ∧
    find_node_index t2 name = (t.node_count : Int) ∧
    (∃ nd, t2.nodes.get? t.node_count = some nd ∧ nd.name = name ∧ nd.is_active = true) := by
  by_cases hc : t.is_initialized = true ∧ name ≠ [] ∧ name.length ≤ 255 ∧
      (∀ nd ∈ t.nodes, nd.name ≠ name) ∧ t.node_count < MAX_NODES
  · rw [add_node_ok fuel color t name hc] at h
    cases hr : maglev_rebuild_table fuel
        { t with nodes := t.nodes ++ [created_node name t.table_size color] } with
    | none => rw [hr] at h; simp at h
    | some t3 =>
      rw [hr] at h
      simp only [Option.map_some', Option.some.injEq, Prod.mk.injEq, and_true] at h
      subst h
      have hmap := (rebuild_frame fuel _ t3 hr).2.2.1
      simp only at hmap
      have hcreate : node_create name t.table_size color
          = some (created_node name t.table_size color) := by
        rw [node_create_eq, if_neg]
        unfold MAX_NODE_NAME_LEN; omega
      have hlen : t3.node_count = t.node_count + 1 := by
        have := reset_eq_length hmap
        simpa [MaglevTable.node_count] using this
      refine ⟨hcreate, hmap, ?_, hlen, ?_, ?_⟩
      · intro j nd hj
        have hj2 : (t.nodes ++ [created_node name t.table_size color]).get? j = some nd := by
          have hlt := (List.get?_eq_some.1 hj).1
          rw [List.get?_eq_getElem?] at hj ⊢
          rw [List.getElem?_append_left hlt]; exact hj
        exact reset_eq_get? hmap.symm j nd hj2
      · unfold find_node_index
        rw [find_loop_congr name _ _ 0 hmap,
          find_loop_append name _ rfl t.nodes 0 hc.2.2.2.1, Nat.zero_add]
        rfl
      · have hlast : (t.nodes ++ [created_node name t.table_size color]).get? t.node_count
            = some (created_node name t.table_size color) := by
          rw [List.get?_eq_getElem?]
          simp [MaglevTable.node_count]
        obtain ⟨nd2, g1, g2⟩ := reset_eq_get? hmap.symm _ _ hlast
        exact ⟨nd2, g1, by rw [reset_eq_name g2]; rfl, by rw [reset_eq_active g2]; rfl⟩
  · rw [add_node_fail fuel color t name hc] at h
    simp at h

theorem add_node_appends_witness :
    maglev_add_node 5 0 sample_table [119] = some (sample_table_w, true) ∧
      sample_table_w.node_count = sample_table.node_count + 1 ∧
      find_node_index sample_table_w [119] = (sample_table.node_count : Int) :=
  have h : maglev_add_node 5 0 sample_table [119] = some (sample_table_w, true) := by decide
  ⟨h, (add_node_appends 5 0 sample_table [119] sample_table_w h).2.2.2.1,
    (add_node_appends 5 0 sample_table [119] sample_table_w h).2.2.2.2.1⟩

/-! ## `maglev_remove_node` -/

theorem nodup_eraseIdx_name :
    ∀ (l : List Node) (k : Nat) (nd : Node), (l.map (fun n => n.name)).Nodup →
      l.get? k = some nd → ∀ nd2 ∈ l.eraseIdx k, nd2.name ≠ nd.name := by
  intro l
  induction l with
  | nil => intro k nd _ h; simp at h
  | cons x xs ih =>
    intro k nd hnodup hget nd2 hmem
    simp only [List.map_cons, List.nodup_cons, List.mem_map, not_exists, not_and] at hnodup
    cases k with
    | zero =>
      simp only [List.get?_cons_zero, Option.some.injEq] at hget
      simp only [List.eraseIdx_cons_zero] at hmem
      rw [← hget]
      exact hnodup.1 nd2 hmem
    | succ k =>
      simp only [List.get?_cons_succ] at hget
      simp only [List.eraseIdx_cons_succ, List.mem_cons] at hmem
      rcases hmem with e | e
      · rw [e]
        exact fun e2 => hnodup.1 nd (mem_of_get?_some hget) e2.symm
      · exact ih k nd hnodup.2 hget nd2 e

theorem mem_of_mem_eraseIdx {l : List Node} {k : Nat} {nd : Node} (h : nd ∈ l.eraseIdx k) :
    nd ∈ l :=
  (List.eraseIdx_sublist l k).subset h

/-- C10: on an initialised table whose node names are pairwise distinct, removing a name
that is not in the node list returns success and leaves the table unchanged; whenever
`maglev_remove_node(name)` returns, it returns success and a second removal of the same
name returns success and leaves the table exactly as the first removal left it; and the
first removal does return when the population precondition holds. -/
theorem remove_node_idempotent (fuel : Nat) (t : MaglevTable) (name : List Nat)
    (hinit : t.is_initialized = true)
    (hnodup : (t.nodes.map (fun nd => nd.name)).Nodup) :
    ((∀ nd ∈ t.nodes, nd.name ≠ name) → maglev_remove_node fuel t name = some (t, true)) ∧
    (∀ t1 b, maglev_remove_node fuel t name = some (t1, b) →
      b = true ∧ ∀ fuel2, maglev_remove_node fuel2 t1 name = some (t1, true)) ∧
    (TableInv t → t.table_size ≤ fuel →
      ∃ t1, maglev_remove_node fuel t name = some (t1, true) ∧
        maglev_remove_node fuel t1 name = some (t1, true)) := by
  have hsecond : ∀ t1 b, maglev_remove_node fuel t name = some (t1, b) →
      b = true ∧ ∀ fuel2, maglev_remove_node fuel2 t1 name = some (t1, true) := by
    intro t1 b h
    rcases remove_node_cases fuel t name hinit with ⟨h1, h2⟩ | ⟨k, nd, h1, h2, _, _, h5⟩
    · rw [h2] at h
      simp only [Option.some.injEq, Prod.mk.injEq] at h
      rw [← h.1, ← h.2]
      exact ⟨rfl, fun fuel2 => remove_node_absent fuel2 t name hinit h1⟩
    · rw [h5] at h
      cases hr : maglev_rebuild_table fuel { t with nodes := t.nodes.eraseIdx k } with
      | none => rw [hr] at h; simp at h
      | some t3 =>
        rw [hr] at h
        simp only [Option.map_some', Option.some.injEq, Prod.mk.injEq] at h
        have hf := rebuild_frame fuel _ t3 hr
        rw [← h.1, ← h.2]
        refine ⟨rfl, fun fuel2 => ?_⟩
        apply remove_node_absent fuel2 t3 name (by rw [hf.2.1]; exact hinit)
        intro x hx
        obtain ⟨x0, g1, g2⟩ := reset_eq_mem hf.2.2.1 x hx
        rw [← reset_eq_name g2, ← h2]
        exact nodup_eraseIdx_name t.nodes k nd hnodup h1 x0 g1
  refine ⟨remove_node_absent fuel t name hinit, hsecond, ?_⟩
  rintro ⟨⟨hlen, hN, hperm⟩, hall, _⟩ hfuel
  have hret : ∃ t1 b, maglev_remove_node fuel t name = some (t1, b) := by
    rcases remove_node_cases fuel t name hinit with ⟨h1, h2⟩ | ⟨k, nd, h1, h2, _, _, h5⟩
    · exact ⟨t, true, h2⟩
    · have hready : PopulateReady { t with nodes := t.nodes.eraseIdx k } := by
        refine ⟨hlen, ?_, fun x hx => hperm x (mem_of_mem_eraseIdx hx)⟩
        have := (List.eraseIdx_sublist t.nodes k).length_le
        simp only [MaglevTable.node_count] at hN ⊢
        omega
      obtain ⟨t1, hr⟩ := rebuild_returns fuel { t with nodes := t.nodes.eraseIdx k } hready
        (fun x hx => hall x (mem_of_mem_eraseIdx hx)) hfuel
      exact ⟨t1, true, by rw [h5, hr]; rfl⟩
  obtain ⟨t1, b, h⟩ := hret
  obtain ⟨hb, h2⟩ := hsecond t1 b h
  subst hb
  exact ⟨t1, h, h2 fuel⟩

theorem sample_table_inv : TableInv sample_table :=
  ⟨sample_table_ready, by decide, by decide⟩

theorem remove_node_idempotent_witness :
    ∃ t1, maglev_remove_node 5 sample_table [121] = some (t1, true) ∧
      maglev_remove_node 5 t1 [121] = some (t1, true) :=
  (remove_node_idempotent 5 sample_table [121] rfl (by decide)).2.2
    sample_table_inv (by decide)



/-! ## `hash.c` -/

/-- Ranges of the two hashes for a 32-bit table size `M >= 2`. -/
theorem hash_bounds (name : List Nat) (M : Nat) (hM : 2 ≤ M) (hlt : M < 4294967296) :
    hash_offset name M < M ∧ 1 ≤ hash_skip name M ∧ hash_skip name M < M := by
  have hoff : hash_offset name M < M := by
    unfold hash_offset
    exact Nat.mod_lt _ (by omega)
  have hm1 : u32 (M + 4294967295) = M - 1 := by unfold u32; omega
  have hskip : 1 ≤ hash_skip name M ∧ hash_skip name M < M := by
    unfold hash_skip
    simp only [hm1]
    have := Nat.mod_lt (sdbm_hash name ^^^ u32 (fnv1a_hash name <<< 8) ^^^ fnv1a_hash name >>> 24)
      (by omega : M - 1 > 0)
    rw [u32_of_lt (by omega)]
    omega
  exact ⟨hoff, hskip.1, hskip.2⟩

/-- C14: for every name and every 32-bit table size `M >= 2`, `hash_offset` lies in
`[0, M)` and `hash_skip` lies in `[1, M)`; for `M = 2`, `hash_skip` is 1 and `hash_offset`
is 0 or 1. -/
theorem hash_ranges (name : List Nat) (M : Nat) (hM : 2 ≤ M) (hlt : M < 4294967296) :
    hash_offset name M < M ∧ 1 ≤ hash_skip name M ∧ hash_skip name M < M ∧
    (M = 2 → hash_skip name M = 1 ∧ (hash_offset name M = 0 ∨ hash_offset name M = 1)) := by
  obtain ⟨hoff, hs1, hs⟩ := hash_bounds name M hM hlt
  refine ⟨hoff, hs1, hs, ?_⟩
  intro h2
  constructor <;> omega

theorem hash_ranges_witness :
    hash_offset [120] 5 < 5 ∧ 1 ≤ hash_skip [120] 5 ∧ hash_skip [120] 5 < 5 ∧
    (5 = 2 → hash_skip [120] 5 = 1 ∧ (hash_offset [120] 5 = 0 ∨ hash_offset [120] 5 = 1)) :=
  hash_ranges [120] 5 (by decide) (by decide)

theorem foldl_congr_mem {α : Type} (f g : α → Nat → α) :
    ∀ (l : List Nat) (a : α), (∀ x b, b ∈ l → f x b = g x b) →
      l.foldl f a = l.foldl g a := by
  intro l
  induction l with
  | nil => intro a _; rfl
  | cons b rest ih =>
    intro a h
    simp only [List.foldl_cons]
    rw [h a b (List.mem_cons_self _ _)]
    exact ih _ (fun x c hc => h x c (List.mem_cons_of_mem _ hc))

theorem char_u32_ascii (b : Nat) (h : b ≤ 127) : char_u32 b = b := by
  unfold char_u32
  rw [if_pos (by omega)]

theorem djb2_step (h c : Nat) :
    u32 (u32 (u32 (h <<< 5) + h) + c) = (h * 33 + c) % 4294967296 := by
  unfold u32
  rw [Nat.shiftLeft_eq]
  norm_num
  omega

theorem djb2_eq_spec (name : List Nat) (hname : ∀ b ∈ name, 1 ≤ b ∧ b ≤ 127) :
    djb2_hash name = spec_djb2 name := by
  unfold djb2_hash spec_djb2
  apply foldl_congr_mem
  intro x b hb
  rw [char_u32_ascii b (hname b hb).2]
  exact djb2_step x b

theorem fnv1a_eq_spec (name : List Nat) (hname : ∀ b ∈ name, 1 ≤ b ∧ b ≤ 127) :
    fnv1a_hash name = spec_fnv1a name := by
  unfold fnv1a_hash spec_fnv1a
  apply foldl_congr_mem
  intro x b hb
  rw [char_u32_ascii b (hname b hb).2]
  rfl

/-- C15: for a name made of bytes in `1..127` and every `M`, `hash_offset` is
`(D xor (F << 16) xor (F >> 16)) mod M` on 32-bit values, with `D` the fold of
`h <- (h * 33 + c) mod 2^32` from 5381 and `F` the fold of
`h <- ((h xor c) * 16777619) mod 2^32` from 2166136261; for the empty name `D = 5381`
and `F = 2166136261`. -/
theorem hash_offset_eq_spec (name : List Nat) (M : Nat)
    (hname : ∀ b ∈ name, 1 ≤ b ∧ b ≤ 127) :
    hash_offset name M = spec_offset name M ∧
    djb2_hash name = spec_djb2 name ∧ fnv1a_hash name = spec_fnv1a name ∧
    djb2_hash [] = 5381 ∧ fnv1a_hash [] = 2166136261 := by
  refine ⟨?_, djb2_eq_spec name hname, fnv1a_eq_spec name hname, rfl, rfl⟩
  unfold hash_offset spec_offset
  simp only [djb2_eq_spec name hname, fnv1a_eq_spec name hname, u32]

theorem hash_offset_eq_spec_witness :
    hash_offset [120, 49] 7 = spec_offset [120, 49] 7 ∧
    djb2_hash [120, 49] = spec_djb2 [120, 49] ∧ fnv1a_hash [120, 49] = spec_fnv1a [120, 49] ∧
    djb2_hash [] = 5381 ∧ fnv1a_hash [] = 2166136261 :=
  hash_offset_eq_spec [120, 49] 7 (by decide)

theorem sdbm_step (h c : Nat) (hh : h < 4294967296) :
    u32 (u32 (u32 (c + u32 (h <<< 6)) + u32 (h <<< 16)) + 4294967296 - h)
      = (c + h * 65600 - h) % 4294967296 := by
  unfold u32
  rw [Nat.shiftLeft_eq, Nat.shiftLeft_eq]
  norm_num
  omega

theorem sdbm_fold_eq :
    ∀ (name : List Nat) (h : Nat), h < 4294967296 → (∀ b ∈ name, 1 ≤ b ∧ b ≤ 127) →
      name.foldl
          (fun hash b =>
            u32 (u32 (u32 (char_u32 b + u32 (hash <<< 6)) + u32 (hash <<< 16))
              + 4294967296 - hash)) h
        = name.foldl (fun h c => (c + h * 65600 - h) % 4294967296) h := by
  intro name
  induction name with
  | nil => intro h _ _; rfl
  | cons b rest ih =>
    intro h hh hname
    simp only [List.foldl_cons]
    rw [char_u32_ascii b (hname b (List.mem_cons_self _ _)).2, sdbm_step h b hh]
    exact ih _ (Nat.mod_lt _ (by norm_num)) (fun c hc => hname c (List.mem_cons_of_mem _ hc))

theorem sdbm_eq_spec (name : List Nat) (hname : ∀ b ∈ name, 1 ≤ b ∧ b ≤ 127) :
    sdbm_hash name = spec_sdbm name :=
  sdbm_fold_eq name 0 (by norm_num) hname

/-- C16: for a name made of bytes in `1..127` and a 32-bit `M >= 2`, `hash_skip` is
`((S xor (F << 8) xor (F >> 24)) mod (M - 1)) + 1` on 32-bit values, with `S` the fold of
`h <- (c + h * 65600 - h) mod 2^32` from 0 and `F` the FNV-1a fold; the shift form
`c + (h << 6) + (h << 16) - h` of the code equals `c + h * 65600 - h` modulo `2^32` for
every 32-bit `h`. -/
theorem hash_skip_eq_spec (name : List Nat) (M : Nat)
    (hname : ∀ b ∈ name, 1 ≤ b ∧ b ≤ 127) (hM : 2 ≤ M) (hlt : M < 4294967296) :
    hash_skip name M = spec_skip name M ∧
    sdbm_hash name = spec_sdbm name ∧ fnv1a_hash name = spec_fnv1a name ∧
    (∀ h c, h < 4294967296 →
      u32 (u32 (u32 (c + u32 (h <<< 6)) + u32 (h <<< 16)) + 4294967296 - h)
        = (c + h * 65600 - h) % 4294967296) := by
  refine ⟨?_, sdbm_eq_spec name hname, fnv1a_eq_spec name hname, sdbm_step⟩
  have hm1 : u32 (M + 4294967295) = M - 1 := by unfold u32; omega
  unfold hash_skip spec_skip
  simp only [sdbm_eq_spec name hname, fnv1a_eq_spec name hname, hm1]
  have := Nat.mod_lt
    (spec_sdbm name ^^^ u32 (spec_fnv1a name <<< 8) ^^^ spec_fnv1a name >>> 24)
    (by omega : M - 1 > 0)
  rw [u32_of_lt (by omega)]
  rfl

theorem hash_skip_eq_spec_witness :
    hash_skip [120, 49] 7 = spec_skip [120, 49] 7 ∧
    sdbm_hash [120, 49] = spec_sdbm [120, 49] ∧ fnv1a_hash [120, 49] = spec_fnv1a [120, 49] ∧
    (∀ h c, h < 4294967296 →
      u32 (u32 (u32 (c + u32 (h <<< 6)) + u32 (h <<< 16)) + 4294967296 - h)
        = (c + h * 65600 - h) % 4294967296) :=
  hash_skip_eq_spec [120, 49] 7 (by decide) (by decide) (by decide)

/-! ## `node_create` -/

/-- C17 (failing input): on a table of size 65537 the node `n54514` has
`offset = 26334` and `skip = 65536`; at `i = 65536` the code stores 26334 in
`preference_list[i]`, whereas `(offset + i * skip) mod M` over the integers is 26335.
The cursor is 0 and the node is active, as claimed. -/
theorem preference_entry_differs_from_integer_formula :
    ∃ nd, node_create [110, 53, 52, 53, 49, 52] 65537 0 = some nd ∧
      nd.next_index = 0 ∧ nd.is_active = true ∧
      nd.preference_list.getD 65536 0 = 26334 ∧
      (hash_offset [110, 53, 52, 53, 49, 52] 65537
        + 65536 * hash_skip [110, 53, 52, 53, 49, 52] 65537) % 65537 = 26335 := by
  have hoff : hash_offset [110, 53, 52, 53, 49, 52] 65537 = 26334 := by decide
  have hskip : hash_skip [110, 53, 52, 53, 49, 52] 65537 = 65536 := by decide
  refine ⟨_, node_create_pref _ 65537 0 (by decide), rfl, rfl, ?_, ?_⟩
  · simp only
    rw [getD_map_range _ _ _ (by norm_num), hoff, hskip]
    decide
  · rw [hoff, hskip]

theorem fill_loop_mono (M : Nat) :
    ∀ (f : Nat) (nodes : List Node) (tbl : List Nat) (filled : Nat)
      (r : List Node × List Nat), fill_loop M f nodes tbl filled = some r →
      ∀ k, fill_loop M (f + k) nodes tbl filled = some r := by
  intro f
  induction f with
  | zero =>
    intro nodes tbl filled r h k
    simp only [fill_loop] at h
    split_ifs at h with hlt
    cases k with
    | zero => simp only [Nat.add_zero, fill_loop, hlt, if_false]; exact h
    | succ k => simp only [Nat.zero_add, fill_loop, hlt, if_false]; exact h
  | succ f ih =>
    intro nodes tbl filled r h k
    have e : f + 1 + k = (f + k) + 1 := by omega
    rw [e]
    simp only [fill_loop] at h ⊢
    split_ifs at h ⊢ with hlt
    · exact ih _ _ _ r h k
    · exact h

theorem rebuild_mono (f : Nat) (t t2 : MaglevTable)
    (h : maglev_rebuild_table f t = some t2) (k : Nat) :
    maglev_rebuild_table (f + k) t = some t2 := by
  unfold maglev_rebuild_table at h ⊢
  split_ifs at h ⊢ with hc
  · exact h
  · cases hf : fill_loop t.table_size f (t.nodes.map node_reset_index)
        (fill_array t.table_size (fun _ => UINT32_MAX) t.lookup_table) 0 with
    | none => simp [hf] at h
    | some r =>
      simp only [hf] at h
      simp only [fill_loop_mono _ _ _ _ _ r hf k]
      exact h

/-- Two returning runs of `maglev_rebuild_table` on the same table give the same result,
whatever the fuel. -/
theorem rebuild_det (f1 f2 : Nat) (t a b : MaglevTable)
    (h1 : maglev_rebuild_table f1 t = some a) (h2 : maglev_rebuild_table f2 t = some b) :
    a = b := by
  have e1 := rebuild_mono f1 t a h1 f2
  have e2 := rebuild_mono f2 t b h2 f1
  rw [Nat.add_comm] at e2
  rw [e1] at e2
  exact Option.some.inj e2

/-! ## Independence of colors and left-over cursors -/

theorem claim_loop_decolor (M i : Nat) :
    ∀ (k : Nat) (node : Node) (tbl : List Nat) (filled : Nat),
      claim_loop M i k (decolor node) tbl filled =
        (decolor (claim_loop M i k node tbl filled).1,
          (claim_loop M i k node tbl filled).2.1, (claim_loop M i k node tbl filled).2.2) := by
  intro k
  induction k with
  | zero => intro node tbl filled; rfl
  | succ k ih =>
    intro node tbl filled
    simp only [claim_loop]
    have e1 : (decolor node).next_index = node.next_index := rfl
    have e2 : (decolor node).preference_list = node.preference_list := rfl
    rw [e1, e2]
    split_ifs with h1 h2
    · rfl
    · exact ih { node with next_index := node.next_index + 1 } tbl filled
    · rfl

theorem round_loop_decolor (M : Nat) :
    ∀ (rest : List Node) (i : Nat) (tbl : List Nat) (filled : Nat),
      round_loop M i (rest.map decolor) tbl filled =
        ((round_loop M i rest tbl filled).1.map decolor,
          (round_loop M i rest tbl filled).2.1, (round_loop M i rest tbl filled).2.2) := by
  intro rest
  induction rest with
  | nil => intro i tbl filled; rfl
  | cons node rest ih =>
    intro i tbl filled
    have hc := claim_loop_decolor M i (M - node.next_index) node tbl filled
    have e1 : (decolor node).is_active = node.is_active := rfl
    have e2 : (decolor node).next_index = node.next_index := rfl
    simp only [List.map_cons, round_loop, claim_slot, e1, e2, hc]
    split_ifs with h1 h2
    · rw [ih (i + 1) tbl filled]; rfl
    · rfl
    · rw [ih (i + 1) _ _]; rfl

theorem fill_loop_decolor (M : Nat) :
    ∀ (fuel : Nat) (nodes : List Node) (tbl : List Nat) (filled : Nat),
      fill_loop M fuel (nodes.map decolor) tbl filled =
        (fill_loop M fuel nodes tbl filled).map (fun r => (r.1.map decolor, r.2)) := by
  intro fuel
  induction fuel with
  | zero =>
    intro nodes tbl filled
    simp only [fill_loop]
    split_ifs <;> rfl
  | succ fuel ih =>
    intro nodes tbl filled
    simp only [fill_loop]
    split_ifs with hlt
    · rw [round_loop_decolor M nodes 0 tbl filled]
      exact ih _ _ _
    · rfl

theorem map_reset_decolor (l : List Node) :
    (l.map node_reset_index).map decolor = l.map node_key := by
  rw [List.map_map]
  rfl

/-- The slot array computed by `fill_loop` from reset nodes depends on the nodes only
through `node_key`. -/
theorem fill_loop_lookup_key (M fuel : Nat) (l1 l2 : List Node) (tbl : List Nat)
    (filled : Nat) (h : l1.map node_key = l2.map node_key) :
    (fill_loop M fuel (l1.map node_reset_index) tbl filled).map (fun r => r.2) =
      (fill_loop M fuel (l2.map node_reset_index) tbl filled).map (fun r => r.2) := by
  have e1 := fill_loop_decolor M fuel (l1.map node_reset_index) tbl filled
  have e2 := fill_loop_decolor M fuel (l2.map node_reset_index) tbl filled
  rw [map_reset_decolor, h, ← map_reset_decolor, e2] at e1
  have e3 := congrArg (Option.map (fun r : List Node × List Nat => r.2)) e1
  simp only [Option.map_map] at e3
  exact e3.symm

theorem rebuild_empty (fuel : Nat) (t : MaglevTable) (h : t.nodes = [])
    (hlen : t.lookup_table.length = t.table_size) :
    maglev_rebuild_table fuel t =
      some { t with lookup_table := List.replicate t.table_size UINT32_MAX } := by
  unfold maglev_rebuild_table
  have hc : (!t.is_initialized || t.node_count == 0) = true := by
    simp [MaglevTable.node_count, h]
  rw [if_pos hc, fill_array_const _ _ _ hlen]

theorem rebuild_uninit (fuel : Nat) (t : MaglevTable) (h : t.is_initialized = false)
    (hlen : t.lookup_table.length = t.table_size) :
    maglev_rebuild_table fuel t =
      some { t with lookup_table := List.replicate t.table_size UINT32_MAX } := by
  unfold maglev_rebuild_table
  have hc : (!t.is_initialized || t.node_count == 0) = true := by
    simp [h]
  rw [if_pos hc, fill_array_const _ _ _ hlen]

/-- The slot array computed by `maglev_rebuild_table` depends only on the table size, the
initialised flag and the keys of the nodes in order. -/
theorem rebuild_lookup_congr (fuel : Nat) (t t2 : MaglevTable)
    (hsize : t.table_size = t2.table_size) (hinit : t.is_initialized = t2.is_initialized)
    (hl1 : t.lookup_table.length = t.table_size)
    (hl2 : t2.lookup_table.length = t2.table_size)
    (hkey : t.nodes.map node_key = t2.nodes.map node_key) :
    (maglev_rebuild_table fuel t).map (fun r => r.lookup_table) =
      (maglev_rebuild_table fuel t2).map (fun r => r.lookup_table) := by
  cases hi : t.is_initialized with
  | false =>
    rw [rebuild_uninit fuel t hi hl1, rebuild_uninit fuel t2 (by rw [← hinit]; exact hi) hl2,
      hsize]
    rfl
  | true =>
    have hi2 : t2.is_initialized = true := by rw [← hinit]; exact hi
    have hlen : t.nodes.length = t2.nodes.length := by
      have := congrArg List.length hkey
      simpa using this
    by_cases hne : t.nodes = []
    · have hne2 : t2.nodes = [] := by
        apply List.length_eq_zero.1
        rw [← hlen, hne]; rfl
      rw [rebuild_empty fuel t hne hl1, rebuild_empty fuel t2 hne2 hl2, hsize]
      rfl
    · have hne2 : t2.nodes ≠ [] := by
        intro e
        apply hne
        apply List.length_eq_zero.1
        rw [hlen, e]; rfl
      rw [rebuild_eq_fill fuel t hi hne hl1, rebuild_eq_fill fuel t2 hi2 hne2 hl2]
      have := fill_loop_lookup_key t.table_size fuel t.nodes t2.nodes
        (List.replicate t.table_size UINT32_MAX) 0 hkey
      rw [← hsize]
      simp only [Option.map_map]
      exact this

/-! ## Steps of the operations -/

theorem add_node_step (fuel : Nat) (color : Int) (t : MaglevTable) (name : List Nat)
    (t2 : MaglevTable) (b : Bool) (h : maglev_add_node fuel color t name = some (t2, b)) :
    (t2 = t ∧ b = false) ∨
    (b = true ∧ t.is_initialized = true ∧ name ≠ [] ∧ name.length ≤ 255 ∧
      (∀ nd ∈ t.nodes, nd.name ≠ name) ∧ t.node_count < MAX_NODES ∧
      maglev_rebuild_table fuel
        { t with nodes := t.nodes ++ [created_node name t.table_size color] } = some t2) := by
  by_cases hc : t.is_initialized = true ∧ name ≠ [] ∧ name.length ≤ 255 ∧
      (∀ nd ∈ t.nodes, nd.name ≠ name) ∧ t.node_count < MAX_NODES
  · right
    rw [add_node_ok fuel color t name hc] at h
    cases hr : maglev_rebuild_table fuel
        { t with nodes := t.nodes ++ [created_node name t.table_size color] } with
    | none => rw [hr] at h; simp at h
    | some t3 =>
      rw [hr] at h
      simp only [Option.map_some', Option.some.injEq, Prod.mk.injEq] at h
      rw [← h.1, ← h.2]
      exact ⟨rfl, hc.1, hc.2.1, hc.2.2.1, hc.2.2.2.1, hc.2.2.2.2, rfl⟩
  · left
    rw [add_node_fail fuel color t name hc] at h
    simp only [Option.some.injEq, Prod.mk.injEq] at h
    exact ⟨h.1.symm, h.2.symm⟩

theorem remove_node_step (fuel : Nat) (t : MaglevTable) (name : List Nat)
    (t2 : MaglevTable) (b : Bool) (h : maglev_remove_node fuel t name = some (t2, b)) :
    (t2 = t ∧ (t.is_initialized = false ∨ ∀ nd ∈ t.nodes, nd.name ≠ name)) ∨
    (b = true ∧ t.is_initialized = true ∧
      ∃ k nd, t.nodes.get? k = some nd ∧ nd.name = name ∧
        find_node_index t name = (k : Int) ∧
        maglev_rebuild_table fuel { t with nodes := t.nodes.eraseIdx k } = some t2) := by
  by_cases hinit : t.is_initialized = true
  · rcases remove_node_cases fuel t name hinit with ⟨h1, h2⟩ | ⟨k, nd, h1, h2, _, h4, h5⟩
    · rw [h2] at h
      simp only [Option.some.injEq, Prod.mk.injEq] at h
      exact Or.inl ⟨h.1.symm, Or.inr h1⟩
    · right
      rw [h5] at h
      cases hr : maglev_rebuild_table fuel { t with nodes := t.nodes.eraseIdx k } with
      | none => rw [hr] at h; simp at h
      | some t3 =>
        rw [hr] at h
        simp only [Option.map_some', Option.some.injEq, Prod.mk.injEq] at h
        rw [← h.1, ← h.2]
        exact ⟨rfl, hinit, k, nd, h1, h2, h4, hr⟩
  · have hf : t.is_initialized = false := by simpa using hinit
    rw [remove_node_uninit fuel t name hf] at h
    simp only [Option.some.injEq, Prod.mk.injEq] at h
    exact Or.inl ⟨h.1.symm, Or.inl hf⟩

theorem maglev_init_step (fuel : Nat) (t : MaglevTable) (size : Nat) (t2 : MaglevTable)
    (b : Bool) (h : maglev_init fuel t size = some (t2, b)) :
    b = true ∧
      ∃ M, t2 = (⟨[], List.replicate M UINT32_MAX, M, true⟩ : MaglevTable) := by
  rw [maglev_init_eq] at h
  cases hs : (if size < 2 then some DEFAULT_TABLE_SIZE else next_prime fuel size) with
  | none => rw [hs] at h; simp at h
  | some M =>
    rw [hs] at h
    simp only [Option.map_some', Option.some.injEq, Prod.mk.injEq] at h
    exact ⟨h.2.symm, M, h.1.symm⟩

theorem maglev_cleanup_step (t : MaglevTable) :
    (maglev_cleanup t = t ∧ t.is_initialized = false) ∨ maglev_cleanup t = g_maglev_zero := by
  unfold maglev_cleanup
  cases h : t.is_initialized with
  | false => left; exact ⟨rfl, rfl⟩
  | true => right; rfl

theorem node_key_of_reset {a b : Node} (h : node_reset_index a = node_reset_index b) :
    node_key a = node_key b := by
  have := congrArg decolor h
  exact this

theorem map_key_of_map_reset {l1 l2 : List Node}
    (h : l1.map node_reset_index = l2.map node_reset_index) :
    l1.map node_key = l2.map node_key := by
  rw [← map_reset_decolor, ← map_reset_decolor, h]

/-- After a returning rebuild, rebuilding again gives the same slot array. -/
theorem rebuild_idem (fuel : Nat) (t t2 : MaglevTable)
    (h : maglev_rebuild_table fuel t = some t2)
    (hlen : t.lookup_table.length = t.table_size) :
    ∃ t3, maglev_rebuild_table fuel t2 = some t3 ∧ t3.lookup_table = t2.lookup_table := by
  obtain ⟨f1, f2, f3, f4⟩ := rebuild_frame fuel t t2 h
  have hc := rebuild_lookup_congr fuel t2 t f1 f2 (by rw [f4, f1]; exact hlen) hlen
    (map_key_of_map_reset f3)
  rw [h] at hc
  cases hr : maglev_rebuild_table fuel t2 with
  | none => rw [hr] at hc; simp at hc
  | some t3 =>
    rw [hr] at hc
    simp only [Option.map_some', Option.some.injEq] at hc
    exact ⟨t3, rfl, hc⟩

/-! ## Invariants of the reachable states -/

theorem reachable_lookup_length (t : MaglevTable) (h : Reachable t) :
    t.lookup_table.length = t.table_size := by
  induction h with
  | zero => rfl
  | init fuel t size t2 b _ _ h _ =>
    obtain ⟨_, M, e⟩ := maglev_init_step fuel t size t2 b h
    rw [e]; simp
  | add fuel color t name t2 b _ h ih =>
    rcases add_node_step fuel color t name t2 b h with ⟨e, _⟩ | ⟨_, _, _, _, _, _, hr⟩
    · rw [e]; exact ih
    · obtain ⟨f1, _, _, f4⟩ := rebuild_frame fuel _ t2 hr
      rw [f4, f1]; exact ih
  | remove fuel t name t2 b _ h ih =>
    rcases remove_node_step fuel t name t2 b h with ⟨e, _⟩ | ⟨_, _, k, nd, _, _, _, hr⟩
    · rw [e]; exact ih
    · obtain ⟨f1, _, _, f4⟩ := rebuild_frame fuel _ t2 hr
      rw [f4, f1]; exact ih
  | cleanup t _ ih =>
    rcases maglev_cleanup_step t with ⟨e, _⟩ | e
    · rw [e]; exact ih
    · rw [e]; rfl

theorem created_node_key (name : List Nat) (M : Nat) (color : Int) :
    node_key (created_node name M color) = created_node name M 0 := by
  rw [created_node_eq, created_node_eq]
  rfl

/-- Every node of a reachable table is, up to its cursor and color, the node that
`node_create` builds from its name. -/
theorem reachable_nodes_created (t : MaglevTable) (h : Reachable t) :
    ∀ nd ∈ t.nodes, node_key nd = created_node nd.name t.table_size 0 := by
  induction h with
  | zero => intro nd hnd; simp [g_maglev_zero] at hnd
  | init fuel t size t2 b _ _ h _ =>
    obtain ⟨_, M, e⟩ := maglev_init_step fuel t size t2 b h
    rw [e]; intro nd hnd; simp at hnd
  | add fuel color t name t2 b _ h ih =>
    rcases add_node_step fuel color t name t2 b h with ⟨e, _⟩ | ⟨_, _, _, _, _, _, hr⟩
    · rw [e]; exact ih
    · obtain ⟨f1, _, f3, _⟩ := rebuild_frame fuel _ t2 hr
      intro nd hnd
      obtain ⟨nd0, g1, g2⟩ := reset_eq_mem f3 nd hnd
      simp only at g1 f1
      rw [node_key_of_reset g2.symm, ← reset_eq_name g2, f1]
      rcases List.mem_append.1 g1 with e | e
      · exact ih nd0 e
      · rw [List.mem_singleton.1 e]
        exact created_node_key name t.table_size color
  | remove fuel t name t2 b _ h ih =>
    rcases remove_node_step fuel t name t2 b h with ⟨e, _⟩ | ⟨_, _, k, nd, _, _, _, hr⟩
    · rw [e]; exact ih
    · obtain ⟨f1, _, f3, _⟩ := rebuild_frame fuel _ t2 hr
      intro nd2 hnd
      obtain ⟨nd0, g1, g2⟩ := reset_eq_mem f3 nd2 hnd
      simp only at g1 f1
      rw [node_key_of_reset g2.symm, ← reset_eq_name g2, f1]
      exact ih nd0 (mem_of_mem_eraseIdx g1)
  | cleanup t _ ih =>
    rcases maglev_cleanup_step t with ⟨e, _⟩ | e
    · rw [e]; exact ih
    · rw [e]; intro nd hnd; simp [g_maglev_zero] at hnd

/-- In every reachable initialised state the slot array is the one that
`maglev_rebuild_table` computes from the current node list. -/
theorem reachable_populated (t : MaglevTable) (h : Reachable t) :
    t.is_initialized = true →
    ∃ fuel t2, maglev_rebuild_table fuel t = some t2 ∧ t2.lookup_table = t.lookup_table := by
  induction h with
  | zero => intro hi; simp [g_maglev_zero] at hi
  | init fuel t size t2 b _ _ h _ =>
    intro _
    obtain ⟨_, M, e⟩ := maglev_init_step fuel t size t2 b h
    rw [e]
    exact ⟨0, _, rebuild_empty 0 _ rfl (by simp), rfl⟩
  | add fuel color t name t2 b hreach h ih =>
    intro hi
    rcases add_node_step fuel color t name t2 b h with ⟨e, _⟩ | ⟨_, _, _, _, _, _, hr⟩
    · rw [e] at hi ⊢; exact ih hi
    · obtain ⟨t3, g1, g2⟩ := rebuild_idem fuel _ t2 hr (reachable_lookup_length t hreach)
      exact ⟨fuel, t3, g1, g2⟩
  | remove fuel t name t2 b hreach h ih =>
    intro hi
    rcases remove_node_step fuel t name t2 b h with ⟨e, _⟩ | ⟨_, _, k, nd, _, _, _, hr⟩
    · rw [e] at hi ⊢; exact ih hi
    · obtain ⟨t3, g1, g2⟩ := rebuild_idem fuel _ t2 hr (reachable_lookup_length t hreach)
      exact ⟨fuel, t3, g1, g2⟩
  | cleanup t _ ih =>
    intro hi
    rcases maglev_cleanup_step t with ⟨e, h2⟩ | e
    · rw [e] at hi; rw [h2] at hi; simp at hi
    · rw [e] at hi; simp [g_maglev_zero] at hi

/-! ## Removal of a node -/

theorem map_eraseIdx {α β : Type} (f : α → β) :
    ∀ (l : List α) (k : Nat), (l.eraseIdx k).map f = (l.map f).eraseIdx k := by
  intro l
  induction l with
  | nil => intro k; rfl
  | cons x xs ih =>
    intro k
    cases k with
    | zero => rfl
    | succ k => simp only [List.eraseIdx_cons_succ, List.map_cons, ih k]

theorem names_of_map_reset {l1 l2 : List Node}
    (h : l1.map node_reset_index = l2.map node_reset_index) :
    l1.map (fun nd => nd.name) = l2.map (fun nd => nd.name) := by
  have e : ∀ l : List Node,
      l.map (fun nd => nd.name) = (l.map node_reset_index).map (fun nd => nd.name) := by
    intro l
    rw [List.map_map]
    rfl
  rw [e l1, e l2, h]

/-- In every reachable state the node names are pairwise distinct. -/
theorem reachable_names_nodup (t : MaglevTable) (h : Reachable t) :
    (t.nodes.map (fun nd => nd.name)).Nodup := by
  induction h with
  | zero => simp [g_maglev_zero]
  | init fuel t size t2 b _ _ h _ =>
    obtain ⟨_, M, e⟩ := maglev_init_step fuel t size t2 b h
    rw [e]; simp
  | add fuel color t name t2 b _ h ih =>
    rcases add_node_step fuel color t name t2 b h with ⟨e, _⟩ | ⟨_, _, _, _, habs, _, hr⟩
    · rw [e]; exact ih
    · obtain ⟨_, _, f3, _⟩ := rebuild_frame fuel _ t2 hr
      rw [names_of_map_reset f3]
      simp only [List.map_append, List.map_cons, List.map_nil]
      rw [(List.perm_append_singleton _ _).nodup_iff, List.nodup_cons]
      refine ⟨?_, ih⟩
      intro hmem
      obtain ⟨nd, g1, g2⟩ := List.mem_map.1 hmem
      exact habs nd g1 g2
  | remove fuel t name t2 b _ h ih =>
    rcases remove_node_step fuel t name t2 b h with ⟨e, _⟩ | ⟨_, _, k, nd, _, _, _, hr⟩
    · rw [e]; exact ih
    · obtain ⟨_, _, f3, _⟩ := rebuild_frame fuel _ t2 hr
      rw [names_of_map_reset f3]
      simp only
      rw [map_eraseIdx]
      exact ih.sublist (List.eraseIdx_sublist _ _)
  | cleanup t _ ih =>
    rcases maglev_cleanup_step t with ⟨e, _⟩ | e
    · rw [e]; exact ih
    · rw [e]; simp [g_maglev_zero]

theorem find_absent_eq (t : MaglevTable) (nm : List Nat)
    (h : ∀ nd ∈ t.nodes, nd.name ≠ nm) : find_node_index t nm = -1 := by
  unfold find_node_index
  rcases find_loop_spec nm t.nodes 0 with ⟨h1, _⟩ | ⟨k, nd, _, h2, h3, _⟩
  · exact h1
  · exact absurd h3 (h nd (mem_of_get?_some h2))

theorem remove_node_returns (fuel : Nat) (t : MaglevTable) (name : List Nat)
    (hinit : t.is_initialized = true) (hinv : TableInv t) (hfuel : t.table_size ≤ fuel) :
    ∃ t2, maglev_remove_node fuel t name = some (t2, true) := by
  obtain ⟨⟨hlen, hN, hperm⟩, hall, _⟩ := hinv
  rcases remove_node_cases fuel t name hinit with ⟨h1, h2⟩ | ⟨k, nd, h1, h2, _, _, h5⟩
  · exact ⟨t, h2⟩
  · have hready : PopulateReady { t with nodes := t.nodes.eraseIdx k } := by
      refine ⟨hlen, ?_, fun x hx => hperm x (mem_of_mem_eraseIdx hx)⟩
      have := (List.eraseIdx_sublist t.nodes k).length_le
      simp only [MaglevTable.node_count] at hN ⊢
      omega
    obtain ⟨t1, hr⟩ := rebuild_returns fuel { t with nodes := t.nodes.eraseIdx k } hready
      (fun x hx => hall x (mem_of_mem_eraseIdx hx)) hfuel
    exact ⟨t1, by rw [h5, hr]; rfl⟩

/-- C11: when `find_node_index(name)` is `k` on an initialised table with `n` nodes, a
returning `maglev_remove_node(name)` succeeds and leaves the old node list with exactly
entry `k` erased (nodes compared up to their cursors, which the rebuild resets and
advances): entries below `k` stay, entry `j + 1` moves to `j` for `j >= k`, `node_count`
is `n - 1`, and `find_node_index(name)` is then -1 when the node names are pairwise
distinct, as they are in every reachable state.  Under the table invariant the call does
return. -/
theorem remove_node_erases (fuel : Nat) (t : MaglevTable) (name : List Nat) (k : Nat)
    (hinit : t.is_initialized = true) (hfind : find_node_index t name = (k : Int)) :
    (∀ t2 b, maglev_remove_node fuel t name = some (t2, b) →
      b = true ∧ k < t.node_count ∧
      t2.nodes.map node_reset_index = (t.nodes.eraseIdx k).map node_reset_index ∧
      t2.node_count = t.node_count - 1 ∧
      (∀ j, j < k →
        (t2.nodes.get? j).map node_reset_index = (t.nodes.get? j).map node_reset_index) ∧
      (∀ j, k ≤ j →
        (t2.nodes.get? j).map node_reset_index
          = (t.nodes.get? (j + 1)).map node_reset_index) ∧
      ((t.nodes.map (fun nd => nd.name)).Nodup → find_node_index t2 name = -1) ∧
      (Reachable t → find_node_index t2 name = -1)) ∧
    (TableInv t → t.table_size ≤ fuel →
      ∃ t2, maglev_remove_node fuel t name = some (t2, true)) := by
  refine ⟨?_, fun hinv hfuel => remove_node_returns fuel t name hinit hinv hfuel⟩
  intro t2 b h
  rcases remove_node_step fuel t name t2 b h with ⟨_, e | e⟩ | ⟨hb, _, k2, nd, h1, h2, h3, hr⟩
  · rw [hinit] at e; simp at e
  · rw [find_absent_eq t name e] at hfind
    omega
  · have hk : k2 = k := by rw [h3] at hfind; exact_mod_cast hfind
    subst hk
    have hlt : k2 < t.nodes.length := (List.get?_eq_some.1 h1).1
    obtain ⟨_, _, f3, _⟩ := rebuild_frame fuel _ t2 hr
    simp only at f3
    have hget : ∀ j, (t2.nodes.get? j).map node_reset_index
        = ((t.nodes.eraseIdx k2).get? j).map node_reset_index := by
      intro j
      have := congrArg (fun l => l.get? j) f3
      simpa [List.get?_eq_getElem?, List.getElem?_map] using this
    have hnot : (t.nodes.map (fun nd => nd.name)).Nodup → find_node_index t2 name = -1 := by
      intro hnodup
      apply find_absent_eq
      intro x hx
      obtain ⟨x0, g1, g2⟩ := reset_eq_mem f3 x hx
      rw [← reset_eq_name g2, ← h2]
      exact nodup_eraseIdx_name t.nodes k2 nd hnodup h1 x0 g1
    refine ⟨hb, hlt, f3, ?_, ?_, ?_, hnot, fun hr2 => hnot (reachable_names_nodup t hr2)⟩
    · have := reset_eq_length f3
      rw [List.length_eraseIdx, if_pos hlt] at this
      exact this
    · intro j hj
      rw [hget j, List.get?_eq_getElem?, List.get?_eq_getElem?, List.getElem?_eraseIdx,
        if_pos hj]
    · intro j hj
      rw [hget j, List.get?_eq_getElem?, List.get?_eq_getElem?, List.getElem?_eraseIdx,
        if_neg (by omega)]

theorem remove_node_erases_witness :
    ∃ t2, maglev_remove_node 5 sample_table [121] = some (t2, true) :=
  (remove_node_erases 5 sample_table [121] 1 rfl (by decide)).2 sample_table_inv (by decide)

/-! ## Add followed by remove -/

theorem sample_xy_reachable : Reachable sample_xy :=
  Reachable.add 5 0 sample_x [121] sample_xy true
    (Reachable.add 5 0 sample_init5 [120] sample_x true
      (Reachable.init 10 g_maglev_zero 5 sample_init5 true Reachable.zero (by decide)
        (by decide))
      (by decide))
    (by decide)

theorem lookup_of_map_eq_some {o : Option MaglevTable} {l : List Nat}
    (h : o.map (fun r => r.lookup_table) = some l) : ∃ r, o = some r ∧ r.lookup_table = l := by
  cases o with
  | none => simp at h
  | some r => exact ⟨r, rfl, by simpa using h⟩

/-- In a reachable initialised state the slot array is the result of
`maglev_rebuild_table` on the fresh table built from the current names. -/
theorem reachable_fresh (t : MaglevTable) (h : Reachable t) (hi : t.is_initialized = true) :
    ∃ fuel t2,
      maglev_rebuild_table fuel (fresh_table t.table_size (t.nodes.map (fun nd => nd.name)))
        = some t2 ∧ t2.lookup_table = t.lookup_table := by
  obtain ⟨fuel, t1, p1, p2⟩ := reachable_populated t h hi
  have hkey : t.nodes.map node_key
      = (fresh_table t.table_size (t.nodes.map (fun nd => nd.name))).nodes.map node_key := by
    simp only [fresh_table, List.map_map]
    apply List.map_congr_left
    intro nd hnd
    simp only [Function.comp_apply]
    rw [created_node_key]
    exact reachable_nodes_created t h nd hnd
  have := rebuild_lookup_congr fuel t
    (fresh_table t.table_size (t.nodes.map (fun nd => nd.name))) rfl hi
    (reachable_lookup_length t h) (by simp [fresh_table]) hkey
  rw [p1] at this
  obtain ⟨t2, q1, q2⟩ := lookup_of_map_eq_some this.symm
  exact ⟨fuel, t2, q1, by rw [q2]; exact p2⟩

/-- C13: in every reachable initialised state the slot array equals the result of
`maglev_rebuild_table` on a fresh table of the same size holding newly created nodes for
the current ordered list of names; hence two reachable states with the same size and the
same ordered name list have identical slot arrays, whatever their history, left-over
cursors and colors. -/
theorem lookup_determined_by_names (t t2 : MaglevTable) (h : Reachable t)
    (h2 : Reachable t2) (hi : t.is_initialized = true) (hi2 : t2.is_initialized = true) :
    (∃ fuel r,
      maglev_rebuild_table fuel (fresh_table t.table_size (t.nodes.map (fun nd => nd.name)))
        = some r ∧ r.lookup_table = t.lookup_table) ∧
    (t.table_size = t2.table_size →
      t.nodes.map (fun nd => nd.name) = t2.nodes.map (fun nd => nd.name) →
      t.lookup_table = t2.lookup_table) := by
  refine ⟨reachable_fresh t h hi, ?_⟩
  intro hs hn
  obtain ⟨f1, r1, p1, p2⟩ := reachable_fresh t h hi
  obtain ⟨f2, r2, q1, q2⟩ := reachable_fresh t2 h2 hi2
  rw [hs, hn] at p1
  have e := rebuild_det f1 f2 _ r1 r2 p1 q1
  rw [← p2, ← q2, e]

theorem sample_init5_reachable : Reachable sample_init5 :=
  Reachable.init 10 g_maglev_zero 5 sample_init5 true Reachable.zero (by decide) (by decide)

theorem sample_xy_alt_reachable : Reachable sample_xy_alt :=
  Reachable.add 5 2 sample_zx_x [121] sample_xy_alt true
    (Reachable.remove 5 sample_zx [122] sample_zx_x true
      (Reachable.add 5 7 sample_z [120] sample_zx true
        (Reachable.add 5 3 sample_init5 [122] sample_z true sample_init5_reachable
          (by decide))
        (by decide))
      (by decide))
    (by decide)

theorem lookup_determined_by_names_witness :
    sample_xy.nodes ≠ sample_xy_alt.nodes ∧
    sample_xy.lookup_table = sample_xy_alt.lookup_table :=
  ⟨by decide,
   (lookup_determined_by_names sample_xy sample_xy_alt sample_xy_reachable
      sample_xy_alt_reachable (by decide) (by decide)).2 (by decide) (by decide)⟩

/-! ## Empty node list -/

/-- C19: right after `maglev_init` (also when the previous table had nodes) the table is
initialised, `node_count` is 0 and every slot holds `UINT32_MAX`; removing the only node
of a reachable table returns and leaves `node_count = 0` and every slot `UINT32_MAX`;
and in every reachable initialised state with an empty node list every one of the
`table_size` slots holds `UINT32_MAX`. -/
theorem empty_node_list_unassigned :
    (∀ fuel t size t2 b, maglev_init fuel t size = some (t2, b) →
      t2.is_initialized = true ∧ t2.node_count = 0 ∧
        t2.lookup_table = List.replicate t2.table_size UINT32_MAX) ∧
    (∀ fuel t name nd, Reachable t → t.is_initialized = true → t.nodes = [nd] →
      nd.name = name →
      ∃ t2, maglev_remove_node fuel t name = some (t2, true) ∧ t2.is_initialized = true ∧
        t2.table_size = t.table_size ∧ t2.node_count = 0 ∧
        t2.lookup_table = List.replicate t2.table_size UINT32_MAX) ∧
    (∀ t, Reachable t → t.is_initialized = true → t.nodes = [] →
      t.node_count = 0 ∧ t.lookup_table = List.replicate t.table_size UINT32_MAX) := by
  refine ⟨?_, ?_, ?_⟩
  · intro fuel t size t2 b h
    obtain ⟨_, M, e⟩ := maglev_init_step fuel t size t2 b h
    rw [e]
    exact ⟨rfl, rfl, rfl⟩
  · intro fuel t name nd hreach hinit hnodes hname
    have hfind : find_node_index t name = ((0 : Nat) : Int) := by
      unfold find_node_index
      rw [hnodes]
      simp [find_node_index_loop, hname]
    have hk : t.nodes.get? 0 = some nd := by rw [hnodes]; rfl
    have hrem := remove_node_found fuel t name hinit 0 nd hfind hk
    have he : t.nodes.eraseIdx 0 = [] := by rw [hnodes]; rfl
    rw [he, rebuild_empty fuel { t with nodes := [] } rfl
      (reachable_lookup_length t hreach)] at hrem
    exact ⟨_, hrem, hinit, rfl, rfl, rfl⟩
  · intro t hreach hinit hnodes
    obtain ⟨fuel, t2, p1, p2⟩ := reachable_populated t hreach hinit
    rw [rebuild_empty fuel t hnodes (reachable_lookup_length t hreach)] at p1
    have e := Option.some.inj p1
    refine ⟨by simp [MaglevTable.node_count, hnodes], ?_⟩
    rw [← p2, ← e]

theorem empty_node_list_unassigned_witness :
    sample_init5.is_initialized = true ∧ sample_init5.node_count = 0 ∧
      sample_init5.lookup_table = List.replicate sample_init5.table_size UINT32_MAX :=
  empty_node_list_unassigned.1 10 g_maglev_zero 5 sample_init5 true (by decide)

/-! ## Cursor bounds and the number of rounds -/

theorem claim_loop_cursor_le (M i : Nat) :
    ∀ (k : Nat) (node : Node) (tbl : List Nat) (filled : Nat), node.next_index ≤ M →
      (claim_loop M i k node tbl filled).1.next_index ≤ M := by
  intro k
  induction k with
  | zero => intro node tbl filled h; exact h
  | succ k ih =>
    intro node tbl filled h
    simp only [claim_loop]
    split_ifs with h1 h2
    · simp only; omega
    · exact ih { node with next_index := node.next_index + 1 } tbl filled (by simp only; omega)
    · exact h

theorem round_loop_cursor_le (M : Nat) :
    ∀ (rest : List Node) (i : Nat) (tbl : List Nat) (filled : Nat),
      (∀ nd ∈ rest, nd.next_index ≤ M) →
      ∀ nd ∈ (round_loop M i rest tbl filled).1, nd.next_index ≤ M := by
  intro rest
  induction rest with
  | nil => intro i tbl filled _ nd hnd; simp [round_loop] at hnd
  | cons node rest ih =>
    intro i tbl filled h
    have hnode : node.next_index ≤ M := h node (List.mem_cons_self _ _)
    have hrest : ∀ nd ∈ rest, nd.next_index ≤ M :=
      fun nd hnd => h nd (List.mem_cons_of_mem _ hnd)
    have hc := claim_loop_cursor_le M i (M - node.next_index) node tbl filled hnode
    simp only [round_loop, claim_slot]
    split_ifs with h1 h2
    · intro nd hnd
      rcases List.mem_cons.1 hnd with e | e
      · rw [e]; exact hnode
      · exact ih (i + 1) tbl filled hrest nd e
    · intro nd hnd
      rcases List.mem_cons.1 hnd with e | e
      · rw [e]; exact hc
      · exact hrest nd e
    · intro nd hnd
      rcases List.mem_cons.1 hnd with e | e
      · rw [e]; exact hc
      · exact ih (i + 1) _ _ hrest nd e

theorem round_iter_cursor_le (M : Nat) :
    ∀ (k : Nat) (s : List Node × List Nat × Nat), (∀ nd ∈ s.1, nd.next_index ≤ M) →
      ∀ nd ∈ (round_iter M k s).1, nd.next_index ≤ M := by
  intro k
  induction k with
  | zero => intro s h; exact h
  | succ k ih =>
    intro s h
    simp only [round_iter]
    split_ifs with hlt
    · exact ih _ (round_loop_cursor_le M s.1 0 s.2.1 s.2.2 h)
    · exact h

/-- A returning `fill_loop` with fuel `k` ends in the state reached after at most `k`
rounds. -/
theorem fill_loop_eq_round_iter (M : Nat) :
    ∀ (fuel : Nat) (nodes : List Node) (tbl : List Nat) (filled : Nat)
      (r : List Node × List Nat), fill_loop M fuel nodes tbl filled = some r →
      r = ((round_iter M fuel (nodes, tbl, filled)).1,
           (round_iter M fuel (nodes, tbl, filled)).2.1) := by
  intro fuel
  induction fuel with
  | zero =>
    intro nodes tbl filled r h
    simp only [fill_loop] at h
    split_ifs at h
    simp only [Option.some.injEq] at h
    rw [← h]; rfl
  | succ fuel ih =>
    intro nodes tbl filled r h
    simp only [fill_loop] at h
    simp only [round_iter]
    split_ifs at h ⊢ with hlt
    · exact ih _ _ _ r h
    · simp only [Option.some.injEq] at h
      rw [← h]

/-- C21: with at least one active node and permutation preference lists,
`maglev_rebuild_table` returns when allowed `table_size` rounds of its outer loop, so the
loop runs at most `table_size` rounds; after every number of rounds (and after every turn
of a node) each cursor satisfies `next_index <= table_size`. -/
theorem rebuild_rounds_and_cursors (t : MaglevTable) (hinit : t.is_initialized = true)
    (hready : PopulateReady t) (hact : ∃ nd ∈ t.nodes, nd.is_active = true) :
    (∃ t2, maglev_rebuild_table t.table_size t = some t2 ∧
      t2.nodes = (round_iter t.table_size t.table_size
        (t.nodes.map node_reset_index, List.replicate t.table_size UINT32_MAX, 0)).1 ∧
      ∀ nd ∈ t2.nodes, nd.next_index ≤ t.table_size) ∧
    (∀ k, ∀ nd ∈ (round_iter t.table_size k
        (t.nodes.map node_reset_index, List.replicate t.table_size UINT32_MAX, 0)).1,
      nd.next_index ≤ t.table_size) ∧
    (∀ i k node tbl filled, node.next_index ≤ t.table_size →
      (claim_loop t.table_size i k node tbl filled).1.next_index ≤ t.table_size) := by
  have hstart : ∀ nd ∈ (t.nodes.map node_reset_index, List.replicate t.table_size UINT32_MAX,
      0).1, nd.next_index ≤ t.table_size := by
    intro nd hnd
    obtain ⟨nd0, _, e⟩ := List.mem_map.1 hnd
    rw [← e]
    exact Nat.zero_le _
  have hiter := fun k => round_iter_cursor_le t.table_size k _ hstart
  refine ⟨?_, hiter, fun i k node tbl filled h =>
    claim_loop_cursor_le t.table_size i k node tbl filled h⟩
  obtain ⟨t2, h1, _⟩ := rebuild_total t.table_size t hinit hready hact (le_refl _)
  have hne : t.nodes ≠ [] := by
    obtain ⟨nd, h, _⟩ := hact
    exact List.ne_nil_of_mem h
  have h2 := h1
  rw [rebuild_eq_fill _ t hinit hne hready.1] at h2
  cases hf : fill_loop t.table_size t.table_size (t.nodes.map node_reset_index)
      (List.replicate t.table_size UINT32_MAX) 0 with
  | none => rw [hf] at h2; simp at h2
  | some r =>
    rw [hf] at h2
    simp only [Option.map_some', Option.some.injEq] at h2
    have hr := fill_loop_eq_round_iter _ _ _ _ _ r hf
    have hnodes : t2.nodes = (round_iter t.table_size t.table_size
        (t.nodes.map node_reset_index, List.replicate t.table_size UINT32_MAX, 0)).1 := by
      rw [← h2, hr]
    refine ⟨t2, h1, hnodes, ?_⟩
    rw [hnodes]
    exact hiter t.table_size

theorem rebuild_rounds_and_cursors_witness :
    ∃ t2, maglev_rebuild_table sample_table.table_size sample_table = some t2 ∧
      t2.nodes = (round_iter sample_table.table_size sample_table.table_size
        (sample_table.nodes.map node_reset_index,
          List.replicate sample_table.table_size UINT32_MAX, 0)).1 ∧
      ∀ nd ∈ t2.nodes, nd.next_index ≤ sample_table.table_size :=
  (rebuild_rounds_and_cursors sample_table rfl sample_table_ready
    ⟨sample_node [120] 5, by decide, by decide⟩).1

/-! ## Assigned slots are never overwritten (no precondition) -/

theorem lt_length_of_getD_unassigned {tbl : List Nat} {p : Nat}
    (h : tbl.getD p 0 = UINT32_MAX) : p < tbl.length := by
  by_contra hge
  rw [List.getD_eq_default _ _ (by omega)] at h
  exact absurd h (by decide)

theorem claim_loop_keeps (M i : Nat) :
    ∀ (k : Nat) (node : Node) (tbl : List Nat) (filled : Nat) (s : Nat),
      tbl.getD s 0 ≠ UINT32_MAX →
      (claim_loop M i k node tbl filled).2.1.getD s 0 = tbl.getD s 0 := by
  intro k
  induction k with
  | zero => intro node tbl filled s _; rfl
  | succ k ih =>
    intro node tbl filled s hs
    simp only [claim_loop]
    split_ifs with h1 h2
    · exact set_keeps_assigned tbl _ i (lt_length_of_getD_unassigned h2) h2 s hs
    · exact ih _ tbl filled s hs
    · rfl

theorem round_loop_keeps (M : Nat) :
    ∀ (rest : List Node) (i : Nat) (tbl : List Nat) (filled : Nat) (s : Nat),
      tbl.getD s 0 ≠ UINT32_MAX →
      (round_loop M i rest tbl filled).2.1.getD s 0 = tbl.getD s 0 := by
  intro rest
  induction rest with
  | nil => intro i tbl filled s _; rfl
  | cons node rest ih =>
    intro i tbl filled s hs
    have hc := claim_loop_keeps M i (M - node.next_index) node tbl filled s hs
    simp only [round_loop, claim_slot]
    split_ifs with h1 h2
    · exact ih (i + 1) tbl filled s hs
    · exact hc
    · rw [ih (i + 1) _ _ s (by rw [hc]; exact hs), hc]

theorem fill_loop_keeps (M : Nat) :
    ∀ (fuel : Nat) (nodes : List Node) (tbl : List Nat) (filled : Nat)
      (r : List Node × List Nat), fill_loop M fuel nodes tbl filled = some r →
      ∀ s, tbl.getD s 0 ≠ UINT32_MAX → r.2.getD s 0 = tbl.getD s 0 := by
  intro fuel
  induction fuel with
  | zero =>
    intro nodes tbl filled r h s _
    simp only [fill_loop] at h
    split_ifs at h
    simp only [Option.some.injEq] at h
    rw [← h]
  | succ fuel ih =>
    intro nodes tbl filled r h s hs
    simp only [fill_loop] at h
    split_ifs at h
    · have hk := round_loop_keeps M nodes 0 tbl filled s hs
      rw [ih _ _ _ r h s (by rw [hk]; exact hs), hk]
    · simp only [Option.some.injEq] at h
      rw [← h]

theorem full_of_count (tbl : List Nat)
    (h : tbl.countP (fun x => x ≠ UINT32_MAX) = tbl.length) :
    ∀ s, s < tbl.length → tbl.getD s 0 ≠ UINT32_MAX := by
  rw [List.countP_eq_length] at h
  intro s hs
  have := h tbl[s] (List.getElem_mem hs)
  simpa [List.getD_eq_getElem?_getD, hs] using this

/-! ## The first round -/

/-- In a round started with all cursors at 0 on a table whose assigned slots hold indices
below `i`, the first preference of the node at position `j` of the round ends up
assigned to a node whose index is at most `i + j`. -/
theorem first_round_claims (M : Nat) :
    ∀ (rest : List Node) (i : Nat) (tbl : List Nat) (filled : Nat),
      tbl.length = M → filled = tbl.countP (fun x => x ≠ UINT32_MAX) → filled < M →
      (∀ nd ∈ rest, nd.preference_list.Perm (List.range M)) →
      (∀ nd ∈ rest, nd.next_index = 0) →
      (∀ nd ∈ rest, nd.is_active = true) →
      i + rest.length ≤ MAX_NODES →
      (∀ s, s < M → tbl.getD s 0 ≠ UINT32_MAX → tbl.getD s 0 < i) →
      ∀ j nd, rest.get? j = some nd →
        (round_loop M i rest tbl filled).2.1.getD (nd.preference_list.getD 0 0) 0
            ≠ UINT32_MAX ∧
        (round_loop M i rest tbl filled).2.1.getD (nd.preference_list.getD 0 0) 0
            ≤ i + j := by
  intro rest
  induction rest with
  | nil => intro i tbl filled _ _ _ _ _ _ _ _ j nd h; simp at h
  | cons node rest ih =>
    intro i tbl filled hlen hcnt hlt hperm hzero hall hidx hbelow j nd hget
    have hperm2 : ∀ nd ∈ rest, nd.preference_list.Perm (List.range M) :=
      fun nd h => hperm nd (List.mem_cons_of_mem _ h)
    have hzero2 : ∀ nd ∈ rest, nd.next_index = 0 :=
      fun nd h => hzero nd (List.mem_cons_of_mem _ h)
    have hall2 : ∀ nd ∈ rest, nd.is_active = true :=
      fun nd h => hall nd (List.mem_cons_of_mem _ h)
    have hact : node.is_active = true := hall node (List.mem_cons_self _ _)
    have hz : node.next_index = 0 := hzero node (List.mem_cons_self _ _)
    simp only [List.length_cons] at hidx
    have hi : i ≠ UINT32_MAX := index_ne_unassigned (by omega)
    have hex : Examined tbl node := by
      intro j hj; rw [hz] at hj; omega
    obtain ⟨p, c, hp, hpfree, hc, hcge, hcp, hfirst, hclaim, hex1⟩ :=
      claim_slot_spec M i node tbl filled hlen hcnt hlt
        (hperm node (List.mem_cons_self _ _)) hex hi
    have hlen1 : (tbl.set p i).length = M := by simp [hlen]
    have hcnt1 : filled + 1 = (tbl.set p i).countP (fun x => x ≠ UINT32_MAX) := by
      rw [countP_set_unassigned tbl p i (by omega) hpfree hi, hcnt]
    have hval : ∀ s, s < M → (tbl.set p i).getD s 0 ≠ UINT32_MAX →
        (tbl.set p i).getD s 0 < i + 1 := by
      intro s hsM hs
      rw [getD_set tbl p i s (by omega)] at hs ⊢
      by_cases e : s = p
      · rw [if_pos e]; omega
      · rw [if_neg e] at hs ⊢
        have := hbelow s hsM hs
        omega
    have hslot0 : node.preference_list.getD 0 0 < M :=
      perm_range_lt (hperm node (List.mem_cons_self _ _)) 0 (by omega)
    have hA1 : (tbl.set p i).getD (node.preference_list.getD 0 0) 0 ≠ UINT32_MAX :=
      hex1 0 (by simp only; omega)
    have hA2 : (tbl.set p i).getD (node.preference_list.getD 0 0) 0 ≤ i := by
      have := hval _ hslot0 hA1
      omega
    by_cases hfull : filled + 1 ≥ M
    · have hrl : round_loop M i (node :: rest) tbl filled
          = ({ node with next_index := c + 1 } :: rest, tbl.set p i, filled + 1) := by
        simp only [round_loop, hact, Bool.not_true, hclaim, hfull, if_true]
        simp
      rw [hrl]
      simp only
      cases j with
      | zero =>
        simp only [List.get?_cons_zero, Option.some.injEq] at hget
        rw [← hget]
        exact ⟨hA1, by omega⟩
      | succ j =>
        simp only [List.get?_cons_succ] at hget
        have hnd := mem_of_get?_some hget
        have hslot : nd.preference_list.getD 0 0 < M :=
          perm_range_lt (hperm2 nd hnd) 0 (by omega)
        have hne := full_of_count (tbl.set p i) (by rw [← hcnt1, hlen1]; omega)
          (nd.preference_list.getD 0 0) (by rw [hlen1]; exact hslot)
        have := hval _ hslot hne
        exact ⟨hne, by omega⟩
    · have hrl : (round_loop M i (node :: rest) tbl filled).2.1
          = (round_loop M (i + 1) rest (tbl.set p i) (filled + 1)).2.1 := by
        simp only [round_loop, hact, Bool.not_true, hclaim, hfull, if_false]
        simp
      rw [hrl]
      cases j with
      | zero =>
        simp only [List.get?_cons_zero, Option.some.injEq] at hget
        rw [← hget, round_loop_keeps M rest (i + 1) _ _ _ hA1]
        exact ⟨hA1, by omega⟩
      | succ j =>
        simp only [List.get?_cons_succ] at hget
        have := ih (i + 1) (tbl.set p i) (filled + 1) hlen1 hcnt1 (by omega) hperm2 hzero2
          hall2 (by omega) hval j nd hget
        exact ⟨this.1, by omega⟩

/-- After a returning rebuild of a table of active nodes with permutation preference
lists, the first preference of node `j` is assigned to a node of index at most `j`. -/
theorem first_preference_owner (fuel : Nat) (t t2 : MaglevTable)
    (hinit : t.is_initialized = true) (hready : PopulateReady t)
    (hall : ∀ nd ∈ t.nodes, nd.is_active = true) (hM : 1 ≤ t.table_size)
    (h : maglev_rebuild_table fuel t = some t2) :
    ∀ j nd, t.nodes.get? j = some nd →
      t2.lookup_table.getD (nd.preference_list.getD 0 0) 0 ≠ UINT32_MAX ∧
      t2.lookup_table.getD (nd.preference_list.getD 0 0) 0 ≤ j := by
  intro j nd hget
  obtain ⟨hlen, hN, hperm⟩ := hready
  have hne : t.nodes ≠ [] := List.ne_nil_of_mem (mem_of_get?_some hget)
  rw [rebuild_eq_fill fuel t hinit hne hlen] at h
  cases hf : fill_loop t.table_size fuel (t.nodes.map node_reset_index)
      (List.replicate t.table_size UINT32_MAX) 0 with
  | none => rw [hf] at h; simp at h
  | some r =>
    rw [hf] at h
    simp only [Option.map_some', Option.some.injEq] at h
    have hlook : t2.lookup_table = r.2 := by rw [← h]
    rw [hlook]
    cases fuel with
    | zero =>
      simp only [fill_loop] at hf
      rw [if_pos (by omega)] at hf
      simp at hf
    | succ f =>
      simp only [fill_loop] at hf
      rw [if_pos (by omega)] at hf
      have hget2 : (t.nodes.map node_reset_index).get? j = some (node_reset_index nd) := by
        rw [List.get?_eq_getElem?] at hget ⊢
        rw [List.getElem?_map, hget]
        rfl
      have hfirst := first_round_claims t.table_size (t.nodes.map node_reset_index) 0
        (List.replicate t.table_size UINT32_MAX) 0 (by simp)
        (by rw [countP_replicate_unassigned]) (by omega)
        (by
          intro x hx
          obtain ⟨x0, h1, h2⟩ := List.mem_map.1 hx
          rw [← h2]; exact hperm x0 h1)
        (by
          intro x hx
          obtain ⟨x0, h1, h2⟩ := List.mem_map.1 hx
          rw [← h2]; rfl)
        (by
          intro x hx
          obtain ⟨x0, h1, h2⟩ := List.mem_map.1 hx
          rw [← h2]; exact hall x0 h1)
        (by simpa [MaglevTable.node_count] using hN)
        (by
          intro s hlt hs
          exact absurd (getD_replicate_lt _ _ s hlt) hs)
        j (node_reset_index nd) hget2
      have hpref : (node_reset_index nd).preference_list = nd.preference_list := rfl
      rw [hpref, Nat.zero_add] at hfirst
      rw [fill_loop_keeps _ _ _ _ _ r hf _ hfirst.1]
      exact hfirst

/-- After a returning rebuild of a table of active nodes with permutation preference
lists, the slot array has `table_size` entries, every node has a first preference `p`,
`p` is a slot of the table, and slot `p` holds the index of a node that is not later in
the node list. -/
theorem first_preference_slot (fuel : Nat) (t t2 : MaglevTable)
    (hinit : t.is_initialized = true) (hready : PopulateReady t)
    (hall : ∀ nd ∈ t.nodes, nd.is_active = true) (hM : 1 ≤ t.table_size)
    (h : maglev_rebuild_table fuel t = some t2) :
    t2.lookup_table.length = t.table_size ∧
    ∀ j nd, t.nodes.get? j = some nd →
      ∃ p k, nd.preference_list.get? 0 = some p ∧ p < t.table_size ∧
        t2.lookup_table.get? p = some k ∧ k ≤ j := by
  have hown := first_preference_owner fuel t t2 hinit hready hall hM h
  obtain ⟨hlen, _, hperm⟩ := hready
  have hlen2 : t2.lookup_table.length = t.table_size := by
    rw [(rebuild_frame fuel t t2 h).2.2.2, hlen]
  refine ⟨hlen2, ?_⟩
  intro j nd hget
  have hp := hperm nd (mem_of_get?_some hget)
  have hpl := perm_range_length hp
  have hlt := perm_range_lt hp 0 (by omega)
  have h0 : 0 < nd.preference_list.length := by omega
  have e0 : nd.preference_list.getD 0 0 = nd.preference_list[0] :=
    List.getD_eq_getElem _ _ h0
  have hk := (hown j nd hget).2
  rw [e0] at hlt hk
  have hin : nd.preference_list[0] < t2.lookup_table.length := by omega
  rw [List.getD_eq_getElem _ _ hin] at hk
  refine ⟨nd.preference_list[0], t2.lookup_table[nd.preference_list[0]], ?_, hlt, ?_, hk⟩
  · rw [List.get?_eq_getElem?, List.getElem?_eq_getElem h0]
  · rw [List.get?_eq_getElem?, List.getElem?_eq_getElem hin]

/-- C22: after `maglev_rebuild_table` on a table of active nodes with permutation
preference lists (and at least one slot), the slot array has `table_size` entries, the
first preference of node 0 is a slot of the table and that slot holds index 0, and when
nodes `i < j` have the same first preference `p`, slot `p` holds the index of a node at
or before `i`, so it is not assigned to `j`.  The rebuild returns when allowed
`table_size` rounds. -/
theorem earlier_node_wins (fuel : Nat) (t : MaglevTable) (hinit : t.is_initialized = true)
    (hready : PopulateReady t) (hall : ∀ nd ∈ t.nodes, nd.is_active = true)
    (hM : 1 ≤ t.table_size) :
    (∀ t2, maglev_rebuild_table fuel t = some t2 →
      t2.lookup_table.length = t.table_size ∧
      (∀ nd0, t.nodes.get? 0 = some nd0 →
        ∃ p, nd0.preference_list.get? 0 = some p ∧ p < t.table_size ∧
          t2.lookup_table.get? p = some 0) ∧
      (∀ i j ndi ndj p, i < j → t.nodes.get? i = some ndi → t.nodes.get? j = some ndj →
        ndi.preference_list.get? 0 = some p → ndj.preference_list.get? 0 = some p →
        p < t.table_size ∧
          ∃ k, t2.lookup_table.get? p = some k ∧ k ≤ i ∧ k ≠ j)) ∧
    (t.table_size ≤ fuel → ∃ t2, maglev_rebuild_table fuel t = some t2) := by
  refine ⟨?_, fun hfuel => rebuild_returns fuel t hready hall hfuel⟩
  intro t2 h
  obtain ⟨hlen, hslot⟩ := first_preference_slot fuel t t2 hinit hready hall hM h
  refine ⟨hlen, ?_, ?_⟩
  · intro nd0 h0
    obtain ⟨p, k, h1, h2, h3, h4⟩ := hslot 0 nd0 h0
    have hk : k = 0 := by omega
    rw [hk] at h3
    exact ⟨p, h1, h2, h3⟩
  · intro i j ndi ndj p hij hi _ hpi _
    obtain ⟨q, k, h1, h2, h3, h4⟩ := hslot i ndi hi
    rw [hpi] at h1
    have hq : p = q := Option.some.inj h1
    rw [← hq] at h2 h3
    exact ⟨h2, k, h3, h4, by omega⟩

theorem earlier_node_wins_witness :
    ∃ t2, maglev_rebuild_table 5 sample_table = some t2 ∧
      t2.lookup_table = [0, 1, 2, 1, 0] ∧
      (∃ ndx ndz, sample_table.nodes.get? 0 = some ndx ∧
        sample_table.nodes.get? 2 = some ndz ∧
        ndx.preference_list.get? 0 = some 0 ∧ ndz.preference_list.get? 0 = some 0) ∧
      t2.lookup_table.length = 5 ∧
      (∃ p, (sample_node [120] 5).preference_list.get? 0 = some p ∧ p < 5 ∧
        t2.lookup_table.get? p = some 0) ∧
      (0 < 5 ∧ ∃ k, t2.lookup_table.get? 0 = some k ∧ k ≤ 0 ∧ k ≠ 2) := by
  have H := earlier_node_wins 5 sample_table rfl sample_table_ready (by decide) (by decide)
  obtain ⟨t2, h2⟩ := H.2 (by decide)
  obtain ⟨hl, h0, hc⟩ := H.1 t2 h2
  have hv : ∃ t3, maglev_rebuild_table 5 sample_table = some t3 ∧
      t3.lookup_table = [0, 1, 2, 1, 0] := by decide
  obtain ⟨t3, h3, h4⟩ := hv
  rw [h2] at h3
  have e : t2 = t3 := Option.some.inj h3
  rw [← e] at h4
  exact ⟨t2, h2, h4, ⟨sample_node [120] 5, sample_node [122] 5, rfl, rfl, by decide,
    by decide⟩, hl, h0 (sample_node [120] 5) rfl,
    hc 0 2 (sample_node [120] 5) (sample_node [122] 5) 0 (by decide) rfl rfl (by decide)
      (by decide)⟩

/-! ## Uniqueness of names -/

theorem nodup_getElem?_unique {α : Type} (L : List α) (j k : Nat) (x : α)
    (hnodup : L.Nodup) (hj : L[j]? = some x) (hk : L[k]? = some x) : j = k := by
  obtain ⟨hjl, ej⟩ := List.getElem?_eq_some.1 hj
  obtain ⟨hkl, ek⟩ := List.getElem?_eq_some.1 hk
  have e : L[j] = L[k] := by rw [ej, ek]
  exact (List.Nodup.getElem_inj_iff hnodup).1 e

theorem nodup_name_index_unique (l : List Node) (j k : Nat) (a b : Node)
    (hnodup : (l.map (fun nd => nd.name)).Nodup) (hj : l.get? j = some a)
    (hk : l.get? k = some b) (hab : a.name = b.name) : j = k := by
  rw [List.get?_eq_getElem?] at hj hk
  apply nodup_getElem?_unique (l.map (fun nd => nd.name)) j k a.name hnodup
  · rw [List.getElem?_map, hj]; rfl
  · rw [List.getElem?_map, hk, hab]; rfl

/-- C24: in every reachable state the node names are pairwise distinct, and
`find_node_index(name)` is either -1, when no node bears the name, or the one and only
index whose node bears the name. -/
theorem reachable_names_unique (t : MaglevTable) (h : Reachable t) (name : List Nat) :
    (t.nodes.map (fun nd => nd.name)).Nodup ∧
    ((find_node_index t name = -1 ∧ ∀ nd ∈ t.nodes, nd.name ≠ name) ∨
      ∃ (k : Nat) (nd : Node), find_node_index t name = (k : Int) ∧
        t.nodes.get? k = some nd ∧
        nd.name = name ∧
        ∀ j nd2, t.nodes.get? j = some nd2 → nd2.name = name → j = k) := by
  have hnodup := reachable_names_nodup t h
  refine ⟨hnodup, ?_⟩
  rcases find_loop_spec name t.nodes 0 with ⟨h1, h2⟩ | ⟨k, nd, h1, h2, h3, _⟩
  · exact Or.inl ⟨h1, h2⟩
  · right
    rw [Nat.zero_add] at h1
    refine ⟨k, nd, h1, h2, h3, ?_⟩
    intro j nd2 hj hn
    exact nodup_name_index_unique t.nodes j k nd2 nd hnodup hj h2 (by rw [hn, h3])

theorem reachable_names_unique_witness :
    (sample_xy.nodes.map (fun nd => nd.name)).Nodup ∧
    ((find_node_index sample_xy [121] = -1 ∧ ∀ nd ∈ sample_xy.nodes, nd.name ≠ [121]) ∨
      ∃ (k : Nat) (nd : Node), find_node_index sample_xy [121] = (k : Int) ∧
        sample_xy.nodes.get? k = some nd ∧ nd.name = [121] ∧
        ∀ j nd2, sample_xy.nodes.get? j = some nd2 → nd2.name = [121] → j = k) :=
  reachable_names_unique sample_xy sample_xy_reachable [121]

/-! ## Exact slot counts -/

/-- C26: on an initialised table with `N >= 1` nodes, all active and all with permutation
preference lists, `maglev_rebuild_table` returns and the number of slots holding node
index `i` is `M / N + 1` when `i < M % N` and `M / N` otherwise; when `N > M` the first
`M` nodes own one slot each and the others none. -/
theorem rebuild_exact_counts (fuel : Nat) (t : MaglevTable) (hinit : t.is_initialized = true)
    (hready : PopulateReady t) (hall : ∀ nd ∈ t.nodes, nd.is_active = true)
    (hN : 1 ≤ t.node_count) (hfuel : t.table_size ≤ fuel) :
    ∃ t2, maglev_rebuild_table fuel t = some t2 ∧
      t2.lookup_table.length = t.table_size ∧
      (∀ i, i < t.node_count →
        t2.lookup_table.count i =
          if i < t.table_size % t.node_count then t.table_size / t.node_count + 1
          else t.table_size / t.node_count) ∧
      (t.table_size < t.node_count → ∀ i, i < t.node_count →
        t2.lookup_table.count i = if i < t.table_size then 1 else 0) := by
  obtain ⟨t2, h1, h2, h3⟩ := rebuild_counts fuel t hinit hready hall hN hfuel
  refine ⟨t2, h1, h2, ?_, ?_⟩
  · intro i hi
    rw [h3 i hi]
    split_ifs <;> rfl
  · intro hlt i hi
    rw [h3 i hi, Nat.div_eq_of_lt hlt, Nat.mod_eq_of_lt hlt]
    split_ifs <;> rfl

theorem rebuild_exact_counts_witness :
    ∃ t2, maglev_rebuild_table 5 sample_table = some t2 ∧
      t2.lookup_table.length = sample_table.table_size ∧
      (∀ i, i < sample_table.node_count →
        t2.lookup_table.count i =
          if i < sample_table.table_size % sample_table.node_count
          then sample_table.table_size / sample_table.node_count + 1
          else sample_table.table_size / sample_table.node_count) ∧
      (sample_table.table_size < sample_table.node_count → ∀ i, i < sample_table.node_count →
        t2.lookup_table.count i = if i < sample_table.table_size then 1 else 0) :=
  rebuild_exact_counts 5 sample_table rfl sample_table_ready (by decide) (by decide)
    (by decide)

/-! ## Preference lists of tables below 65536 -/

theorem product_no_wrap (M offset skip i : Nat) (hM : M ≤ 65536) (ho : offset < M)
    (hs : skip < M) (hi : i < M) : offset + i * skip < 4294967296 := by
  have h1 : i * skip ≤ 65535 * 65535 := Nat.mul_le_mul (by omega) (by omega)
  omega

theorem affine_injective_mod (M offset skip : Nat) (hp : Nat.Prime M) (hs1 : 1 ≤ skip)
    (hs : skip < M) (i j : Nat) (hi : i < M) (hj : j < M)
    (h : (offset + i * skip) % M = (offset + j * skip) % M) : i = j := by
  have hcop : Nat.Coprime M skip := by
    rw [Nat.Prime.coprime_iff_not_dvd hp]
    intro hd
    have := Nat.le_of_dvd (by omega) hd
    omega
  have h1 : Nat.ModEq M (offset + i * skip) (offset + j * skip) := h
  have h2 : Nat.ModEq M (i * skip) (j * skip) := Nat.ModEq.add_left_cancel' offset h1
  have h3 : Nat.ModEq M i j := Nat.ModEq.cancel_right_of_coprime hcop h2
  have h4 : i % M = j % M := h3
  rwa [Nat.mod_eq_of_lt hi, Nat.mod_eq_of_lt hj] at h4

theorem perm_range_of_nodup (pl : List Nat) (M : Nat) (hlen : pl.length = M)
    (hnodup : pl.Nodup) (hlt : ∀ x ∈ pl, x < M) : pl.Perm (List.range M) := by
  have hsub : pl ⊆ List.range M := fun x hx => List.mem_range.2 (hlt x hx)
  have hsp : pl.Subperm (List.range M) := List.subperm_of_subset hnodup hsub
  exact hsp.perm_of_length_le (by simp [hlen])

/-- For a table size of at most 65536 the 32-bit arithmetic does not wrap: the
preference list is `(offset + i * skip) mod M` for `i = 0, ..., M - 1`. -/
theorem created_node_pref_nowrap (name : List Nat) (M : Nat) (color : Int)
    (h2 : 2 ≤ M) (hM : M ≤ 65536) :
    (created_node name M color).preference_list
      = (List.range M).map (fun i => (hash_offset name M + i * hash_skip name M) % M) := by
  obtain ⟨ho, _, hs⟩ := hash_bounds name M h2 (by omega)
  rw [created_node_eq]
  simp only
  apply List.map_congr_left
  intro i hi
  have := product_no_wrap M _ _ i hM ho hs (List.mem_range.1 hi)
  rw [u32_of_lt (by omega : i * hash_skip name M < 4294967296), u32_of_lt this]

/-- For a prime table size below 65536 the preference list of a created node is a
permutation of `[0, M)`. -/
theorem created_node_perm (name : List Nat) (M : Nat) (color : Int)
    (hp : Nat.Prime M) (hM : M < 65536) :
    (created_node name M color).preference_list.Perm (List.range M) := by
  have h2 : 2 ≤ M := hp.two_le
  obtain ⟨_, hs1, hs⟩ := hash_bounds name M h2 (by omega)
  rw [created_node_pref_nowrap name M color h2 (by omega)]
  apply perm_range_of_nodup
  · simp
  · apply List.Nodup.map_on _ (List.nodup_range M)
    intro x hx y hy hxy
    exact affine_injective_mod M _ _ hp hs1 hs x y (List.mem_range.1 hx)
      (List.mem_range.1 hy) hxy
  · intro x hx
    obtain ⟨i, _, e⟩ := List.mem_map.1 hx
    rw [← e]
    exact Nat.mod_lt _ (by omega)

/-- C27: for every name and every prime table size `M` with `2 <= M < 65536`, the
expression `offset + i * skip` stays below `2^32` for every `i < M`, so the 32-bit
arithmetic of `node_generate_preference_list` does not wrap, entry `i` is
`(offset + i * skip) mod M`, and the generated list is a permutation of `[0, M)`. -/
theorem preference_list_permutation (name : List Nat) (M : Nat) (color : Int)
    (hp : Nat.Prime M) (hM : M < 65536) :
    (∀ i, i < M → hash_offset name M + i * hash_skip name M < 4294967296) ∧
    (∀ i, i < M →
      (created_node name M color).preference_list.getD i 0
        = (hash_offset name M + i * hash_skip name M) % M) ∧
    (created_node name M color).preference_list.Perm (List.range M) := by
  have h2 : 2 ≤ M := hp.two_le
  obtain ⟨ho, _, hs⟩ := hash_bounds name M h2 (by omega)
  refine ⟨?_, ?_, created_node_perm name M color hp hM⟩
  · intro i hi
    exact product_no_wrap M _ _ i (by omega) ho hs hi
  · intro i hi
    rw [created_node_pref_nowrap name M color h2 (by omega), getD_map_range _ _ _ hi]

theorem preference_list_permutation_witness :
    (created_node [120] 7 0).preference_list.Perm (List.range 7) :=
  (preference_list_permutation [120] 7 0 (by norm_num) (by norm_num)).2.2

/-! ## `is_prime` below `65535^2` -/

/-- Below `65535^2` the product `i * i` does not wrap before the loop leaves, and the loop
answers `true` on every prime. -/
theorem is_prime_loop_complete :
    ∀ (f n i : Nat) (b : Bool), is_prime_loop f n i = some b → Nat.Prime n →
      n < 4294836225 → i % 2 = 1 → 3 ≤ i → i ≤ 65535 → b = true := by
  intro f
  induction f with
  | zero => intro n i b h; simp [is_prime_loop] at h
  | succ f ih =>
    intro n i b h hp hn hi h3 hle
    have hsq : i * i < 4294967296 := by
      have : i * i ≤ 65535 * 65535 := Nat.mul_le_mul hle hle
      omega
    simp only [is_prime_loop, u32_of_lt hsq] at h
    by_cases h1 : i * i ≤ n
    · have hlt : i < 65535 := by
        by_contra hge
        have hi2 : i = 65535 := by omega
        rw [hi2] at h1
        omega
      have hin : i < n := by
        have : i * 3 ≤ i * i := Nat.mul_le_mul (le_refl i) h3
        omega
      have h2 : ¬ n % i = 0 := by
        intro hmod
        have hdvd : i ∣ n := Nat.dvd_of_mod_eq_zero hmod
        rcases (Nat.dvd_prime hp).1 hdvd with e | e
        · omega
        · omega
      simp only [h1, h2, if_true, if_false, u32_of_lt (by omega : i + 2 < 4294967296)] at h
      exact ih n (i + 2) b h hp hn (by omega) (by omega) (by omega)
    · simp only [h1, if_false, Option.some.injEq] at h
      exact h.symm

/-- C28: `is_prime` returns for every 32-bit `n`, never answers `true` for a number that
is not prime, and for `n < 65535^2 = 4294836225` answers `true` exactly when `n` is
prime. -/
theorem is_prime_correct_below_wrap :
    (∀ fuel n, n < 4294967296 → 2147483648 ≤ fuel → ∃ b, is_prime fuel n = some b) ∧
    (∀ fuel n, n < 4294967296 → is_prime fuel n = some true → Nat.Prime n) ∧
    (∀ fuel n b, n < 4294836225 → is_prime fuel n = some b → (b = true ↔ Nat.Prime n)) := by
  refine ⟨fun fuel n hn hf => is_prime_total fuel n hn hf,
    fun fuel n hn h => is_prime_sound fuel n hn h, ?_⟩
  intro fuel n b hn h
  constructor
  · intro hb
    rw [hb] at h
    exact is_prime_sound fuel n (by omega) h
  · intro hp
    have h2 := hp.two_le
    unfold is_prime at h
    rw [if_neg (by omega)] at h
    by_cases e2 : n = 2
    · rw [if_pos e2] at h
      exact (Option.some.inj h).symm
    · rw [if_neg e2] at h
      have hodd : ¬ n % 2 = 0 := by
        intro hmod
        have hdvd : 2 ∣ n := Nat.dvd_of_mod_eq_zero hmod
        rcases (Nat.dvd_prime hp).1 hdvd with e | e
        · omega
        · omega
      rw [if_neg hodd] at h
      exact is_prime_loop_complete fuel n 3 b h hp hn (by norm_num) (le_refl _) (by norm_num)

theorem is_prime_correct_below_wrap_witness :
    (∃ b, is_prime 2147483648 97 = some b) ∧ Nat.Prime 97 ∧ (true = true ↔ Nat.Prime 97) :=
  ⟨is_prime_correct_below_wrap.1 2147483648 97 (by norm_num) (by norm_num),
   is_prime_correct_below_wrap.2.1 100 97 (by norm_num) (by decide),
   is_prime_correct_below_wrap.2.2 100 97 true (by norm_num) (by decide)⟩

/-! ## Equivalence with the variant that retries a claimed entry -/

theorem claim_loop_retry_first_free (M i : Nat) (tbl : List Nat) (filled : Nat) :
    ∀ (k : Nat) (node : Node),
      (∃ c, node.next_index ≤ c ∧ c < node.next_index + k ∧ c < M ∧
        tbl.getD (node.preference_list.getD c 0) 0 = UINT32_MAX) →
      ∃ c, node.next_index ≤ c ∧ c < M ∧
        tbl.getD (node.preference_list.getD c 0) 0 = UINT32_MAX ∧
        (∀ j, node.next_index ≤ j → j < c →
          tbl.getD (node.preference_list.getD j 0) 0 ≠ UINT32_MAX) ∧
        claim_loop_retry M i k node tbl filled =
          ({ node with next_index := c },
            tbl.set (node.preference_list.getD c 0) i, filled + 1) := by
  intro k
  induction k with
  | zero => rintro node ⟨c, h1, h2, _⟩; omega
  | succ k ih =>
    rintro node ⟨c, h1, h2, h3, h4⟩
    have hlt : node.next_index < M := by omega
    by_cases hfree : tbl.getD (node.preference_list.getD node.next_index 0) 0 = UINT32_MAX
    · refine ⟨node.next_index, le_refl _, hlt, hfree, ?_, ?_⟩
      · intro j hj1 hj2; omega
      · simp only [claim_loop_retry, hlt, hfree, if_true]
    · have hc : node.next_index ≠ c := by
        intro e; rw [e] at hfree; exact hfree h4
      obtain ⟨c2, g1, g2, g3, g4, g5⟩ :=
        ih { node with next_index := node.next_index + 1 }
          ⟨c, by simp only; omega, by simp only; omega, h3, h4⟩
      simp only at g1 g3 g4 g5
      refine ⟨c2, by omega, g2, g3, ?_, ?_⟩
      · intro j hj1 hj2
        by_cases hj : j = node.next_index
        · rw [hj]; exact hfree
        · exact g4 j (by omega) hj2
      · simp only [claim_loop_retry, hlt, hfree, if_true, if_false]
        exact g5

theorem lag_mono {tbl tbl2 : List Nat} {a r : Node} (h : Lag tbl a r)
    (hm : ∀ s, tbl.getD s 0 ≠ UINT32_MAX → tbl2.getD s 0 = tbl.getD s 0) : Lag tbl2 a r := by
  obtain ⟨h1, h2, h3, h4⟩ := h
  refine ⟨h1, h2, h3, ?_⟩
  intro j hj1 hj2
  rw [hm _ (h4 j hj1 hj2)]
  exact h4 j hj1 hj2

/-- One turn: from lagging cursors the variant claims the same slot as the program. -/
theorem claim_slot_retry_sim (M i : Nat) (a r : Node) (tbl : List Nat) (filled : Nat)
    (hlen : tbl.length = M) (hcnt : filled = tbl.countP (fun x => x ≠ UINT32_MAX))
    (hlt : filled < M) (hperm : r.preference_list.Perm (List.range M))
    (hex : Examined tbl r) (hi : i ≠ UINT32_MAX) (hlag : Lag tbl a r) :
    ∃ p c, p < M ∧ tbl.getD p 0 = UINT32_MAX ∧
      claim_slot M i r tbl filled = ({ r with next_index := c + 1 }, tbl.set p i, filled + 1) ∧
      claim_slot_retry M i a tbl filled = ({ a with next_index := c }, tbl.set p i, filled + 1) ∧
      Examined (tbl.set p i) { r with next_index := c + 1 } ∧
      Lag (tbl.set p i) { a with next_index := c } { r with next_index := c + 1 } := by
  obtain ⟨p, c, hp, hpfree, hc, hcge, hcp, hfirst, hclaim, hex1⟩ :=
    claim_slot_spec M i r tbl filled hlen hcnt hlt hperm hex hi
  obtain ⟨l1, l2, l3, l4⟩ := hlag
  have htaken : ∀ j, j < c → tbl.getD (r.preference_list.getD j 0) 0 ≠ UINT32_MAX := by
    intro j hj
    have := hex1 j (by simp only; omega)
    simp only at this
    rw [getD_set tbl p i _ (by omega), if_neg (hfirst j hj)] at this
    exact this
  obtain ⟨c2, g1, g2, g3, g4, g5⟩ :=
    claim_loop_retry_first_free M i tbl filled (M - a.next_index) a
      ⟨c, by omega, by omega, hc, by rw [l1, hcp]; exact hpfree⟩
  have hc2 : c2 = c := by
    rcases Nat.lt_trichotomy c2 c with h | h | h
    · exact absurd (by rw [l1] at g3; exact g3) (htaken c2 h)
    · exact h
    · exact absurd (by rw [l1, hcp]; exact hpfree) (g4 c (by omega) h)
  subst hc2
  have hslot : a.preference_list.getD c2 0 = p := by rw [l1, hcp]
  rw [hslot] at g5
  refine ⟨p, c2, hp, hpfree, hclaim, g5, hex1, l1, l2, by simp only; omega, ?_⟩
  intro j hj1 hj2
  simp only at hj1 hj2 ⊢
  have hj : j = c2 := by omega
  rw [hj, hcp, getD_set tbl p i p (by omega), if_pos rfl]
  exact hi

/-- One round: the variant and the program compute the same slot array and the same
`filled`, and the cursors of the variant keep lagging by assigned entries only. -/
theorem round_loop_retry_sim (M : Nat) :
    ∀ (refs alts : List Node) (i : Nat) (tbl : List Nat) (filled : Nat),
      List.Forall₂ (Lag tbl) alts refs →
      tbl.length = M → filled = tbl.countP (fun x => x ≠ UINT32_MAX) → filled < M →
      (∀ nd ∈ refs, nd.preference_list.Perm (List.range M)) →
      (∀ nd ∈ refs, Examined tbl nd) →
      i + refs.length ≤ MAX_NODES →
      (round_loop_retry M i alts tbl filled).2 = (round_loop M i refs tbl filled).2 ∧
      List.Forall₂ (Lag (round_loop M i refs tbl filled).2.1)
        (round_loop_retry M i alts tbl filled).1 (round_loop M i refs tbl filled).1 := by
  intro refs
  induction refs with
  | nil =>
    intro alts i tbl filled hrel _ _ _ _ _ _
    cases alts with
    | nil => exact ⟨rfl, List.Forall₂.nil⟩
    | cons a alts => simp at hrel
  | cons r refs ih =>
    intro alts i tbl filled hrel hlen hcnt hlt hperm hex hidx
    cases alts with
    | nil => simp at hrel
    | cons a alts =>
      rw [List.forall₂_cons] at hrel
      obtain ⟨hlag, hrest⟩ := hrel
      have hperm2 : ∀ nd ∈ refs, nd.preference_list.Perm (List.range M) :=
        fun nd h => hperm nd (List.mem_cons_of_mem _ h)
      have hex2 : ∀ nd ∈ refs, Examined tbl nd :=
        fun nd h => hex nd (List.mem_cons_of_mem _ h)
      simp only [List.length_cons] at hidx
      cases hact : r.is_active with
      | false =>
        have hacta : a.is_active = false := by rw [hlag.2.1, hact]
        obtain ⟨g1, g2⟩ := ih alts (i + 1) tbl filled hrest hlen hcnt hlt hperm2 hex2
          (by omega)
        have hR : round_loop M i (r :: refs) tbl filled
            = (r :: (round_loop M (i + 1) refs tbl filled).1,
                (round_loop M (i + 1) refs tbl filled).2) := by
          simp only [round_loop, hact, Bool.not_false, if_true]
        have hA : round_loop_retry M i (a :: alts) tbl filled
            = (a :: (round_loop_retry M (i + 1) alts tbl filled).1,
                (round_loop_retry M (i + 1) alts tbl filled).2) := by
          simp only [round_loop_retry, hacta, Bool.not_false, if_true]
        rw [hR, hA]
        exact ⟨g1, List.Forall₂.cons
          (lag_mono hlag (round_loop_keeps M refs (i + 1) tbl filled)) g2⟩
      | true =>
        have hacta : a.is_active = true := by rw [hlag.2.1, hact]
        have hi : i ≠ UINT32_MAX := index_ne_unassigned (by omega)
        obtain ⟨p, c, hp, hpfree, hclaim, hclaima, hex1, hlag1⟩ :=
          claim_slot_retry_sim M i a r tbl filled hlen hcnt hlt
            (hperm r (List.mem_cons_self _ _)) (hex r (List.mem_cons_self _ _)) hi hlag
        have hkeep := set_keeps_assigned tbl p i (by omega) hpfree
        have hlen1 : (tbl.set p i).length = M := by simp [hlen]
        have hcnt1 : filled + 1 = (tbl.set p i).countP (fun x => x ≠ UINT32_MAX) := by
          rw [countP_set_unassigned tbl p i (by omega) hpfree hi, hcnt]
        have hrest1 : List.Forall₂ (Lag (tbl.set p i)) alts refs :=
          hrest.imp (fun _ _ h => lag_mono h hkeep)
        by_cases hfull : filled + 1 ≥ M
        · have hR : round_loop M i (r :: refs) tbl filled
              = ({ r with next_index := c + 1 } :: refs, tbl.set p i, filled + 1) := by
            simp only [round_loop, hact, Bool.not_true, hclaim, hfull, if_true]
            simp
          have hA : round_loop_retry M i (a :: alts) tbl filled
              = ({ a with next_index := c } :: alts, tbl.set p i, filled + 1) := by
            simp only [round_loop_retry, hacta, Bool.not_true, hclaima, hfull, if_true]
            simp
          rw [hR, hA]
          exact ⟨rfl, List.Forall₂.cons hlag1 hrest1⟩
        · obtain ⟨g1, g2⟩ := ih alts (i + 1) (tbl.set p i) (filled + 1) hrest1 hlen1 hcnt1
            (by omega) hperm2 (fun nd h => (hex2 nd h).mono hkeep) (by omega)
          have hR : round_loop M i (r :: refs) tbl filled
              = ({ r with next_index := c + 1 }
                    :: (round_loop M (i + 1) refs (tbl.set p i) (filled + 1)).1,
                  (round_loop M (i + 1) refs (tbl.set p i) (filled + 1)).2) := by
            simp only [round_loop, hact, Bool.not_true, hclaim, hfull, if_false]
            simp
          have hA : round_loop_retry M i (a :: alts) tbl filled
              = ({ a with next_index := c }
                    :: (round_loop_retry M (i + 1) alts (tbl.set p i) (filled + 1)).1,
                  (round_loop_retry M (i + 1) alts (tbl.set p i) (filled + 1)).2) := by
            simp only [round_loop_retry, hacta, Bool.not_true, hclaima, hfull, if_false]
            simp
          rw [hR, hA]
          exact ⟨g1, List.Forall₂.cons
            (lag_mono hlag1 (round_loop_keeps M refs (i + 1) _ _)) g2⟩

theorem fill_loop_retry_sim (M : Nat) :
    ∀ (fuel : Nat) (alts refs : List Node) (tbl : List Nat) (filled : Nat),
      List.Forall₂ (Lag tbl) alts refs →
      tbl.length = M → filled = tbl.countP (fun x => x ≠ UINT32_MAX) →
      (∀ nd ∈ refs, nd.preference_list.Perm (List.range M)) →
      (∀ nd ∈ refs, Examined tbl nd) →
      refs.length ≤ MAX_NODES →
      (fill_loop_retry M fuel alts tbl filled).map (fun r => r.2)
        = (fill_loop M fuel refs tbl filled).map (fun r => r.2) := by
  intro fuel
  induction fuel with
  | zero =>
    intro alts refs tbl filled _ _ _ _ _ _
    simp only [fill_loop, fill_loop_retry]
    split_ifs <;> rfl
  | succ fuel ih =>
    intro alts refs tbl filled hrel hlen hcnt hperm hex hN
    simp only [fill_loop, fill_loop_retry]
    by_cases hlt : filled < M
    · rw [if_pos hlt, if_pos hlt]
      obtain ⟨s1, s2⟩ := round_loop_retry_sim M refs alts 0 tbl filled hrel hlen hcnt hlt
        hperm hex (by omega)
      obtain ⟨nodes1, tbl1, filled1, hr, g1, g2, g3, _, _, g6, _, _, _⟩ :=
        round_loop_inv M refs 0 tbl filled hlen hcnt hlt hperm hex (by omega)
      rw [hr] at s1 s2
      simp only at s2
      have e1 : (round_loop_retry M 0 alts tbl filled).2.1 = tbl1 := by rw [s1]
      have e2 : (round_loop_retry M 0 alts tbl filled).2.2 = filled1 := by rw [s1]
      rw [hr, e1, e2]
      simp only
      exact ih _ nodes1 tbl1 filled1 s2 g2 g3
        (by
          intro nd hnd
          obtain ⟨nd0, h1, h2⟩ := reset_eq_mem g1 nd hnd
          rw [← reset_eq_pref h2]; exact hperm nd0 h1)
        g6 (by rw [reset_eq_length g1]; exact hN)
    · rw [if_neg hlt, if_neg hlt]
      rfl

theorem lag_refl (tbl : List Nat) (l : List Node) : List.Forall₂ (Lag tbl) l l := by
  rw [List.forall₂_same]
  intro x _
  exact ⟨rfl, rfl, le_refl _, fun j h1 h2 => by omega⟩

/-- The variant and `maglev_rebuild_table` compute the same slot array on every table
that satisfies the population precondition. -/
theorem rebuild_retry_lookup (fuel : Nat) (t : MaglevTable) (hready : PopulateReady t) :
    (rebuild_table_retry fuel t).map (fun r => r.lookup_table)
      = (maglev_rebuild_table fuel t).map (fun r => r.lookup_table) := by
  obtain ⟨hlen, hN, hperm⟩ := hready
  unfold rebuild_table_retry maglev_rebuild_table
  split_ifs with hc
  · rfl
  · have hsim := fill_loop_retry_sim t.table_size fuel (t.nodes.map node_reset_index)
      (t.nodes.map node_reset_index)
      (fill_array t.table_size (fun _ => UINT32_MAX) t.lookup_table) 0
      (lag_refl _ _) (by rw [fill_array_length]; exact hlen)
      (by rw [fill_array_const _ _ _ hlen, countP_replicate_unassigned])
      (by
        intro nd hnd
        obtain ⟨nd0, h1, h2⟩ := List.mem_map.1 hnd
        rw [← h2]; exact hperm nd0 h1)
      (by
        intro nd hnd
        obtain ⟨nd0, h1, h2⟩ := List.mem_map.1 hnd
        intro j hj
        rw [← h2] at hj
        simp [node_reset_index] at hj)
      (by simpa [MaglevTable.node_count] using hN)
    simp only
    cases h1 : fill_loop_retry t.table_size fuel (t.nodes.map node_reset_index)
        (fill_array t.table_size (fun _ => UINT32_MAX) t.lookup_table) 0 with
    | none =>
      rw [h1] at hsim
      cases h2 : fill_loop t.table_size fuel (t.nodes.map node_reset_index)
          (fill_array t.table_size (fun _ => UINT32_MAX) t.lookup_table) 0 with
      | none => rfl
      | some r => rw [h2] at hsim; simp at hsim
    | some r1 =>
      rw [h1] at hsim
      cases h2 : fill_loop t.table_size fuel (t.nodes.map node_reset_index)
          (fill_array t.table_size (fun _ => UINT32_MAX) t.lookup_table) 0 with
      | none => rw [h2] at hsim; simp at hsim
      | some r =>
        rw [h2] at hsim
        simp only [Option.map_some', Option.some.injEq] at hsim ⊢
        exact hsim

/-- C25: on a table whose nodes are active with permutation preference lists, the variant
that leaves the cursor on a claimed entry and re-examines it in the next round produces
exactly the same slot array as `maglev_rebuild_table`; both return when allowed
`table_size` rounds. -/
theorem retry_variant_same_slots (fuel : Nat) (t : MaglevTable) (hready : PopulateReady t)
    (hall : ∀ nd ∈ t.nodes, nd.is_active = true) :
    (rebuild_table_retry fuel t).map (fun r => r.lookup_table)
      = (maglev_rebuild_table fuel t).map (fun r => r.lookup_table) ∧
    (t.table_size ≤ fuel →
      ∃ t2 t3, maglev_rebuild_table fuel t = some t2 ∧ rebuild_table_retry fuel t = some t3 ∧
        t3.lookup_table = t2.lookup_table) := by
  have h := rebuild_retry_lookup fuel t hready
  refine ⟨h, ?_⟩
  intro hfuel
  obtain ⟨t2, h2⟩ := rebuild_returns fuel t hready hall hfuel
  rw [h2] at h
  cases h3 : rebuild_table_retry fuel t with
  | none => rw [h3] at h; simp at h
  | some t3 =>
    rw [h3] at h
    simp only [Option.map_some', Option.some.injEq] at h
    exact ⟨t2, t3, h2, rfl, h⟩

theorem retry_variant_same_slots_witness :
    (rebuild_table_retry 5 sample_table).map (fun r => r.lookup_table)
      = (maglev_rebuild_table 5 sample_table).map (fun r => r.lookup_table) :=
  (retry_variant_same_slots 5 sample_table sample_table_ready (by decide)).1

/-! ## Reachable tables below 65536 satisfy the population precondition -/

theorem reachable_node_count (t : MaglevTable) (h : Reachable t) :
    t.node_count ≤ MAX_NODES := by
  induction h with
  | zero => simp [g_maglev_zero, MaglevTable.node_count]
  | init fuel t size t2 b _ _ h _ =>
    obtain ⟨_, M, e⟩ := maglev_init_step fuel t size t2 b h
    rw [e]; simp [MaglevTable.node_count]
  | add fuel color t name t2 b _ h ih =>
    rcases add_node_step fuel color t name t2 b h with ⟨e, _⟩ | ⟨_, _, _, _, _, hN, hr⟩
    · rw [e]; exact ih
    · obtain ⟨_, _, f3, _⟩ := rebuild_frame fuel _ t2 hr
      have := reset_eq_length f3
      simp only [MaglevTable.node_count, List.length_append, List.length_singleton] at this hN ⊢
      omega
  | remove fuel t name t2 b _ h ih =>
    rcases remove_node_step fuel t name t2 b h with ⟨e, _⟩ | ⟨_, _, k, nd, _, _, _, hr⟩
    · rw [e]; exact ih
    · obtain ⟨_, _, f3, _⟩ := rebuild_frame fuel _ t2 hr
      have := reset_eq_length f3
      have hsub := (List.eraseIdx_sublist t.nodes k).length_le
      simp only [MaglevTable.node_count] at this ih ⊢
      omega
  | cleanup t _ ih =>
    rcases maglev_cleanup_step t with ⟨e, _⟩ | e
    · rw [e]; exact ih
    · rw [e]; simp [g_maglev_zero, MaglevTable.node_count]

theorem reachable_prime (t : MaglevTable) (h : Reachable t) :
    t.is_initialized = true → Nat.Prime t.table_size := by
  induction h with
  | zero => intro hi; simp [g_maglev_zero] at hi
  | init fuel t size t2 b _ hlt h _ =>
    intro _
    rw [maglev_init_eq] at h
    by_cases h2 : size < 2
    · rw [if_pos h2] at h
      simp only [Option.map_some', Option.some.injEq, Prod.mk.injEq] at h
      rw [← h.1]
      exact prime_65537
    · rw [if_neg h2] at h
      cases hn : next_prime fuel size with
      | none => rw [hn] at h; simp at h
      | some M =>
        rw [hn] at h
        simp only [Option.map_some', Option.some.injEq, Prod.mk.injEq] at h
        rw [← h.1]
        exact (next_prime_sound fuel size M hlt hn).2
  | add fuel color t name t2 b _ h ih =>
    intro hi
    have := add_node_frame fuel color t name t2 b h
    rw [this.1]
    exact ih (by rw [← this.2]; exact hi)
  | remove fuel t name t2 b _ h ih =>
    intro hi
    have := remove_node_frame fuel t name t2 b h
    rw [this.1]
    exact ih (by rw [← this.2]; exact hi)
  | cleanup t _ ih =>
    intro hi
    rcases maglev_cleanup_step t with ⟨e, h2⟩ | e
    · rw [e] at hi; rw [h2] at hi; simp at hi
    · rw [e] at hi; simp [g_maglev_zero] at hi

theorem node_key_active (nd : Node) : (node_key nd).is_active = nd.is_active := rfl

theorem node_key_pref (nd : Node) : (node_key nd).preference_list = nd.preference_list := rfl

/-- A reachable initialised table of size below 65536 satisfies the population
precondition, and all its nodes are active. -/
theorem reachable_ready (t : MaglevTable) (h : Reachable t) (hi : t.is_initialized = true)
    (hM : t.table_size < 65536) :
    PopulateReady t ∧ ∀ nd ∈ t.nodes, nd.is_active = true := by
  have hp := reachable_prime t h hi
  have hc := reachable_nodes_created t h
  refine ⟨⟨reachable_lookup_length t h, reachable_node_count t h, ?_⟩, ?_⟩
  · intro nd hnd
    rw [← node_key_pref nd, hc nd hnd]
    exact created_node_perm nd.name t.table_size 0 hp hM
  · intro nd hnd
    rw [← node_key_active nd, hc nd hnd]
    rfl

/-- In a reachable initialised table of size below 65536 with at least one node every
slot holds an index below `node_count`. -/
theorem reachable_slots_valid (t : MaglevTable) (h : Reachable t)
    (hi : t.is_initialized = true) (hM : t.table_size < 65536) (hK : 1 ≤ t.node_count) :
    ∀ s, s < t.table_size → t.lookup_table.getD s 0 < t.node_count := by
  obtain ⟨hready, hall⟩ := reachable_ready t h hi hM
  have hne : t.nodes ≠ [] := by
    intro e
    simp [MaglevTable.node_count, e] at hK
  obtain ⟨nd0, hnd0⟩ := List.exists_mem_of_ne_nil _ hne
  obtain ⟨t2, h1, _, _, _, h5, h6⟩ :=
    rebuild_total t.table_size t hi hready ⟨nd0, hnd0, hall nd0 hnd0⟩ (le_refl _)
  obtain ⟨f0, t0, p1, p2⟩ := reachable_populated t h hi
  have e := rebuild_det _ _ t t2 t0 h1 p1
  have hlook : t2.lookup_table = t.lookup_table := by rw [e]; exact p2
  intro s hs
  obtain ⟨_, nd, g1, _⟩ := h6 s hs
  have hlt := (List.get?_eq_some.1 g1).1
  rw [hlook, reset_eq_length h5] at hlt
  exact hlt

/-! ## Changed slots -/

theorem changed_slots_le (a b : List Nat) : changed_slots a b ≤ a.length := by
  unfold changed_slots
  have h1 := List.countP_le_length (fun p : Nat × Nat => p.1 != p.2) (l := List.zip a b)
  have h2 : (List.zip a b).length ≤ a.length := by
    rw [List.length_zip]; exact Nat.min_le_left _ _
  omega

theorem count_le_changed (K : Nat) :
    ∀ (a b : List Nat), a.length = b.length → (∀ x ∈ a, x ≠ K) →
      b.count K ≤ changed_slots a b := by
  intro a
  induction a with
  | nil =>
    intro b hlen _
    have : b = [] := List.length_eq_zero.1 hlen.symm
    rw [this]; simp [changed_slots]
  | cons x xs ih =>
    intro b hlen hx
    cases b with
    | nil => simp at hlen
    | cons y ys =>
      simp only [List.length_cons, Nat.succ_inj'] at hlen
      have hrec := ih ys hlen (fun z hz => hx z (List.mem_cons_of_mem _ hz))
      have hxK : x ≠ K := hx x (List.mem_cons_self _ _)
      unfold changed_slots at hrec ⊢
      simp only [List.zip_cons_cons, List.countP_cons, List.count_cons]
      by_cases hy : y = K
      · have h1 : (y == K) = true := by simp [hy]
        have h2 : ((x, y).1 != (x, y).2) = true := by
          simp only [bne_iff_ne, ne_eq]
          rw [hy]; exact hxK
        rw [if_pos h1, if_pos h2]
        omega
      · have h1 : ¬ (y == K) = true := by simp [hy]
        rw [if_neg h1]
        omega

theorem run_adds_reachable (fuel : Nat) :
    ∀ (names : List (List Nat)) (t : MaglevTable), Reachable t →
      Reachable (run_adds fuel t names) := by
  intro names
  induction names with
  | nil => intro t h; exact h
  | cons name rest ih =>
    intro t h
    simp only [run_adds]
    cases hadd : maglev_add_node fuel 0 t name with
    | none => exact h
    | some r => exact ih r.1 (Reachable.add fuel 0 t name r.1 r.2 h hadd)

theorem sample_abc_reachable : Reachable sample_abc :=
  run_adds_reachable 7 _ sample_init7
    (Reachable.init 10 g_maglev_zero 7 sample_init7 true Reachable.zero (by decide)
      (by decide))

theorem sample_n5_reachable : Reachable sample_n5 :=
  run_adds_reachable 101 _ sample_init101
    (Reachable.init 20 g_maglev_zero 101 sample_init101 true Reachable.zero (by decide)
      (by decide))

/-- C23 (counterexample): in the table reached by `init 7; add a; add b; add c`
(`M = 7`, `K = 3`) the successful `add h` changes 4 slots, more than
`2 * 7 / (3 + 1) = 3` (and `4 * (K + 1) > 2 * M`). -/
theorem add_changes_more_than_bound :
    Reachable sample_abc ∧ sample_abc.table_size = 7 ∧ sample_abc.node_count = 3 ∧
    sample_abc.lookup_table = [0, 1, 0, 2, 0, 2, 1] ∧
    maglev_add_node 7 0 sample_abc [104] = some (sample_abch, true) ∧
    sample_abch.lookup_table = [3, 1, 0, 2, 2, 1, 0] ∧
    changed_slots sample_abc.lookup_table sample_abch.lookup_table = 4 ∧
    2 * 7 / (3 + 1) = 3 ∧ 2 * 7 < 4 * (3 + 1) :=
  ⟨sample_abc_reachable, by decide, by decide, by decide, by decide, by decide, by decide,
    by decide, by decide⟩

theorem sample_n5_facts :
    sample_n5.table_size = 101 ∧ sample_n5.node_count = 5 ∧
      maglev_add_node 101 0 sample_n5 [110, 54] = some (sample_n6, true) ∧
      changed_slots sample_n5.lookup_table sample_n6.lookup_table = 28 := by
  decide!

theorem sample_n5_scenario :
    Reachable sample_n5 ∧ sample_n5.table_size = 101 ∧ sample_n5.node_count = 5 ∧
      maglev_add_node 101 0 sample_n5 [110, 54] = some (sample_n6, true) ∧
      changed_slots sample_n5.lookup_table sample_n6.lookup_table = 28 ∧
      28 ≤ 2 * 101 / (5 + 1) :=
  And.intro sample_n5_reachable (And.intro sample_n5_facts.1 (And.intro sample_n5_facts.2.1
    (And.intro sample_n5_facts.2.2.1 (And.intro sample_n5_facts.2.2.2
      (Nat.le_of_ble_eq_true rfl)))))

/-- C23 (amended): a successful `add` on a reachable table of size `M < 65536` that
holds `K ≥ 1` nodes gives the new node, which has index `K`, exactly `M / (K + 1)`
slots, so the number of changed slots is at least `M / (K + 1)` and at most `M`; for
`K = 1` it is at most `2 * M / (K + 1)`.  No `2 * M / (K + 1)` bound holds in general;
in the scenario `init 101; add n1 .. n5; add n6` the number of changed slots is 28,
which is at most `2 * 101 / 6 = 33`. -/
theorem add_disruption (fuel : Nat) (color : Int) (t : MaglevTable) (name : List Nat)
    (t2 : MaglevTable) (hreach : Reachable t) (hM : t.table_size < 65536)
    (hK : 1 ≤ t.node_count)
    (hadd : maglev_add_node fuel color t name = some (t2, true)) :
    t2.lookup_table.count t.node_count = t.table_size / (t.node_count + 1) ∧
    t.table_size / (t.node_count + 1) ≤ changed_slots t.lookup_table t2.lookup_table ∧
    changed_slots t.lookup_table t2.lookup_table ≤ t.table_size ∧
    (t.node_count = 1 →
      changed_slots t.lookup_table t2.lookup_table ≤ 2 * t.table_size / (t.node_count + 1)) ∧
    (Reachable sample_n5 ∧ sample_n5.table_size = 101 ∧ sample_n5.node_count = 5 ∧
      maglev_add_node 101 0 sample_n5 [110, 54] = some (sample_n6, true) ∧
      changed_slots sample_n5.lookup_table sample_n6.lookup_table = 28 ∧
      28 ≤ 2 * 101 / (5 + 1)) := by
  rcases add_node_step fuel color t name t2 true hadd with ⟨_, e⟩ | ⟨_, hi, _, _, _, hN, hr⟩
  · exact absurd e (by decide)
  obtain ⟨hready, hall⟩ := reachable_ready t hreach hi hM
  obtain ⟨hlen, _, hperm⟩ := hready
  have hp := reachable_prime t hreach hi
  have hready1 : PopulateReady
      { t with nodes := t.nodes ++ [created_node name t.table_size color] } := by
    refine ⟨hlen, ?_, ?_⟩
    · simp only [MaglevTable.node_count, List.length_append, List.length_singleton] at hN ⊢
      omega
    · intro nd hnd
      rcases List.mem_append.1 hnd with h | h
      · exact hperm nd h
      · rw [List.mem_singleton.1 h]
        exact created_node_perm name t.table_size color hp hM
  have hall1 : ∀ nd ∈ ({ t with nodes := t.nodes ++
      [created_node name t.table_size color] } : MaglevTable).nodes,
      nd.is_active = true := by
    intro nd hnd
    rcases List.mem_append.1 hnd with h | h
    · exact hall nd h
    · rw [List.mem_singleton.1 h]; rfl
  have hcnt1 : ({ t with nodes := t.nodes ++
      [created_node name t.table_size color] } : MaglevTable).node_count
        = t.node_count + 1 := by
    simp [MaglevTable.node_count]
  obtain ⟨t3, h3, hlen3, hcount⟩ :=
    rebuild_counts t.table_size
      ({ t with nodes := t.nodes ++ [created_node name t.table_size color] } : MaglevTable)
      hi hready1 hall1 (by rw [hcnt1]; omega) (le_refl _)
  have e := rebuild_det _ _ _ t2 t3 hr h3
  rw [hcnt1] at hcount
  have hc : t3.lookup_table.count t.node_count = t.table_size / (t.node_count + 1) +
      if t.node_count < t.table_size % (t.node_count + 1) then 1 else 0 :=
    hcount t.node_count (by omega)
  have hmod : ¬ t.node_count < t.table_size % (t.node_count + 1) := by
    have := Nat.mod_lt t.table_size (show 0 < t.node_count + 1 by omega)
    omega
  rw [if_neg hmod, Nat.add_zero] at hc
  have hc2 : t2.lookup_table.count t.node_count = t.table_size / (t.node_count + 1) := by
    rw [e]; exact hc
  have hlen2 : t.lookup_table.length = t2.lookup_table.length := by
    rw [e, hlen3]; exact hlen
  have hold : ∀ x ∈ t.lookup_table, x ≠ t.node_count := by
    intro x hx
    obtain ⟨s, hs, hxs⟩ := List.getElem_of_mem hx
    have hv := reachable_slots_valid t hreach hi hM hK s (by rw [← hlen]; exact hs)
    rw [List.getD_eq_getElem _ _ hs, hxs] at hv
    omega
  have hlow := count_le_changed t.node_count t.lookup_table t2.lookup_table hlen2 hold
  have hup := changed_slots_le t.lookup_table t2.lookup_table
  rw [hlen] at hup
  refine ⟨hc2, ?_, hup, ?_, sample_n5_scenario⟩
  · rw [← hc2]; exact hlow
  · intro h1
    rw [h1, Nat.mul_div_cancel_left _ (by decide : 0 < 1 + 1)]
    exact hup

theorem add_disruption_witness :
    (Reachable sample_abc ∧ sample_abc.table_size < 65536 ∧ 1 ≤ sample_abc.node_count ∧
      maglev_add_node 7 0 sample_abc [104] = some (sample_abch, true)) ∧
    sample_abch.lookup_table.count 3 = 1 ∧
    1 ≤ changed_slots sample_abc.lookup_table sample_abch.lookup_table ∧
    changed_slots sample_abc.lookup_table sample_abch.lookup_table ≤ 7 :=
  have h := add_disruption 7 0 sample_abc [104] sample_abch sample_abc_reachable
    (by decide) (by decide) (by decide)
  ⟨⟨sample_abc_reachable, by decide, by decide, by decide⟩, h.1, h.2.1, h.2.2.1⟩





/-! ## Inactive nodes -/

end Maglev
